import Mathlib

/-!
crypto-assignments: AES-CBC / PKCS7 / RSA channel core, the toy SPN and the
Solovay-Strassen test.

A shallow embedding of `assignment-3` (`aes.h`, `rsa.h`, `socket/transfer.hpp`,
`client.cpp`, `server.cpp`), of `assignment-2/spn.h` and of
`assignment-1/solvay_strassen.cpp`.

Conventions of the embedding

* A byte buffer `(const void *buf, uint32_t n_bytes)` is a `List Nat`; `n_bytes` is its
  length and every element is meant to be a byte (`IsBytes`).  A null pointer is only
  ever passed together with `n_bytes = 0`, so `!buffer or (n_bytes == 0)` is `n_bytes = 0`.
* The `dest` argument of the C++ functions selects which allocation receives the result
  (`malloc` or `realloc`); the functions here return the contents of that result.
  `AES::encrypt` and `AES::decrypt` take a new block when `dest` is their source.
  `PKCS7::pad` calls `realloc` on `dest` and copies from the source afterwards; every
  caller passes the source itself, so `PKCS7.pad` has the argument `PKCS7.Dest`: whether
  `dest` is the source, and if so whether `realloc` has moved it, in which case the copy
  reads the block that `realloc` freed.  `PKCS7::unpad`, whose `realloc` only shrinks the
  block, is described for a `realloc` that leaves the block in place.
* `recv_data` stores one byte behind its allocation when the text has an odd length; its
  argument `slack` is the number of bytes behind the bytes requested that can be written
  without harm (0 in the C++ object model, where the store is a fault).
* `uint32_t` arithmetic is arithmetic on `Nat` with an explicit `% 4294967296` wherever
  the value can leave the 32-bit range.
* A `throw std::runtime_error(msg)` is an `Except.error` carrying the thrower's name.
  Behaviour the C++ language leaves undefined (division by zero, a read or write
  outside the object that was allocated) is `Error.fault`.
* `AES::shift_rows` moves its pointer past the 16-byte state it is given.  The functions
  that call it therefore carry the memory `adj` that lies directly behind the state
  array: `shift_rows` works on `state ++ adj` and faults where that memory ends.  The C++
  object model is `adj = []`; a longer `adj` describes a heap in which the bytes behind
  the array happen to be writable.
* An `int64_t` is an `Int`; an operation whose mathematical result leaves the 64-bit
  range is undefined (`SolvayStrassen.int64`), and `%` is the remainder of the division
  that truncates towards zero (`Int.tmod`).
* `solvay_strassen.cpp` includes only `<iostream>` and `<random>`, so the unqualified
  `abs` of `is_prime` is the C function `int abs(int)`: its argument is converted to
  `int` (`SolvayStrassen.to_int`), and `abs(INT_MIN)`, which has no value in `int`, is the
  parameter `abs_min` of `SolvayStrassen.int_abs`.
* The `while` loops of `solvay_strassen.cpp` are recursions on a counter that bounds the
  number of their iterations; running out of it is `Error.fault`, so a result
  `Except.ok` says that the loop ends.
-/

/-- The exceptions thrown by `aes.h` and `rsa.h`, named after the functions that throw
them, the exception of `std::map::at`, and `fault` for undefined behaviour. -/
inductive Error where
  /-- `invalid_pad_exc`: "invalid padding" -/
  | invalid_pad
  /-- `invalid_key_exc`: "invalid key length" -/
  | invalid_key
  /-- `invalid_pt_exc`: "invalid plaintext (pt >= n)" -/
  | invalid_pt
  /-- `invalid_ct_exc`: "invalid ciphertext (ct >= n)" -/
  | invalid_ct
  /-- `incompatible_keys_exc`: "incompatible private key and public key" -/
  | incompatible_keys
  /-- the object thrown by `throw exc` in a `catch (const std::exception &exc)` block: a
  copy of static type `std::exception`, which no longer carries the message -/
  | std_exception
  /-- `std::out_of_range`, thrown by `std::map::at` for a key that is absent -/
  | out_of_range
  /-- no result: undefined behaviour (division by zero, an access outside an
  allocation) or a loop that does not end -/
  | fault
deriving DecidableEq, Repr

deriving instance DecidableEq for Except

/-- Every element of the buffer is a byte. -/
def IsBytes (l : List Nat) : Prop := ∀ b ∈ l, b < 256

instance (l : List Nat) : Decidable (IsBytes l) := by
  unfold IsBytes; infer_instance

/-- The width of `uint32_t`. -/
def U32 : Nat := 4294967296

/-- A `for` loop over the values `xs` of its counter whose body can throw: the body `f`
maps the state before an iteration to the state after it. -/
def for_loop {σ α : Type} (f : σ → α → Except Error σ) : σ → List α → Except Error σ
  | s, [] => .ok s
  | s, x :: xs => (f s x).bind (fun s' => for_loop f s' xs)

namespace PKCS7

/-- `PKCS7::check_padding` (aes.h 94-109); `true` means the padding is invalid. -/
def check_padding (buffer : List Nat) (block_size : Nat) : Except Error Bool :=
  let n_bytes := buffer.length
  if n_bytes = 0 then .error .invalid_pad
  -- `n_bytes % block_size` divides by zero
  else if block_size = 0 then .error .fault
  else if n_bytes % block_size ≠ 0 then .ok true
  else
    let pad_byte := buffer.getD (n_bytes - 1) 0
    if n_bytes ≤ pad_byte then .ok true
    -- for (i = n_bytes - pad_byte; i < n_bytes; i++) if (buffer_[i] != pad_byte) return true;
    else if (buffer.drop (n_bytes - pad_byte)).any (fun x => x != pad_byte) then .ok true
    else .ok false

/-- What `realloc` does with the block it is given, when that block is the source buffer
of the call.  When it returns another address it has copied the content and freed the
block it was given; reading that block afterwards is undefined, and `freed i` is what
byte `i` of it then reads as (the allocator keeps its own data in a freed block). -/
inductive Realloc where
  /-- `realloc` returns the address it was given -/
  | in_place
  /-- `realloc` returns another address and frees the block it was given -/
  | moved (freed : Nat → Nat)

/-- The `dest` argument of `PKCS7::pad`. -/
inductive Dest where
  /-- `nullptr`, or an allocation that is not the source -/
  | other
  /-- the source buffer itself, as in `pad(pt, pt, ..)`, and what `realloc` does with it -/
  | source (r : Realloc)

/-- The first `n_bytes` bytes of the block that `pad` returns (aes.h 121-124).  For a
`dest` that is not the source, `memcpy` copies the source.  For the source left in place
by `realloc`, `dest == buffer` and nothing is copied.  For the source moved by
`realloc`, `dest != buffer` and `memcpy(dest, buffer, n_bytes)` overwrites the bytes
that `realloc` has copied with the bytes of the block that `realloc` has freed. -/
def copied (dest : Dest) (buffer : List Nat) : List Nat :=
  match dest with
  | .source (.moved freed) => (List.range buffer.length).map (fun i => freed i % 256)
  | _ => buffer

/-- `PKCS7::pad` (aes.h 111-130). -/
def pad (dest : Dest) (buffer : List Nat) (block_size : Nat) : Except Error (List Nat) :=
  let n_bytes := buffer.length
  if n_bytes = 0 then .error .invalid_pad
  -- `n_bytes % block_size` divides by zero
  else if block_size = 0 then .error .fault
  else
    let pad_byte := block_size - n_bytes % block_size
    let new_size := (n_bytes + pad_byte) % U32
    -- the allocation has `new_size` bytes; `memcpy` and `memset` write `n_bytes + pad_byte`
    if new_size < n_bytes + pad_byte then .error .fault
    -- `memset` stores its value argument converted to `unsigned char`
    else .ok (copied dest buffer ++ List.replicate pad_byte (pad_byte % 256))

/-- `PKCS7::unpad` (aes.h 132-146). -/
def unpad (buffer : List Nat) (block_size : Nat) : Except Error (List Nat) :=
  match check_padding buffer block_size with
  | .error e => .error e
  | .ok true => .error .invalid_pad
  | .ok false =>
    let n_bytes := buffer.length
    let pad_byte := buffer.getD (n_bytes - 1) 0
    -- `check_padding` has established `pad_byte < n_bytes`
    let new_size := n_bytes - pad_byte
    .ok (buffer.take new_size)

end PKCS7

namespace AES

/-- `AES::block_size`, set to 16 by the constructor. -/
def block_size : Nat := 16

/-- `AES::sbox` (aes.h 58-75). -/
def sbox : List Nat := [
   0x63, 0x7c, 0x77, 0x7b, 0xf2, 0x6b, 0x6f, 0xc5, 0x30, 0x01, 0x67, 0x2b, 0xfe, 0xd7, 0xab, 0x76,
   0xca, 0x82, 0xc9, 0x7d, 0xfa, 0x59, 0x47, 0xf0, 0xad, 0xd4, 0xa2, 0xaf, 0x9c, 0xa4, 0x72, 0xc0,
   0xb7, 0xfd, 0x93, 0x26, 0x36, 0x3f, 0xf7, 0xcc, 0x34, 0xa5, 0xe5, 0xf1, 0x71, 0xd8, 0x31, 0x15,
   0x04, 0xc7, 0x23, 0xc3, 0x18, 0x96, 0x05, 0x9a, 0x07, 0x12, 0x80, 0xe2, 0xeb, 0x27, 0xb2, 0x75,
   0x09, 0x83, 0x2c, 0x1a, 0x1b, 0x6e, 0x5a, 0xa0, 0x52, 0x3b, 0xd6, 0xb3, 0x29, 0xe3, 0x2f, 0x84,
   0x53, 0xd1, 0x00, 0xed, 0x20, 0xfc, 0xb1, 0x5b, 0x6a, 0xcb, 0xbe, 0x39, 0x4a, 0x4c, 0x58, 0xcf,
   0xd0, 0xef, 0xaa, 0xfb, 0x43, 0x4d, 0x33, 0x85, 0x45, 0xf9, 0x02, 0x7f, 0x50, 0x3c, 0x9f, 0xa8,
   0x51, 0xa3, 0x40, 0x8f, 0x92, 0x9d, 0x38, 0xf5, 0xbc, 0xb6, 0xda, 0x21, 0x10, 0xff, 0xf3, 0xd2,
   0xcd, 0x0c, 0x13, 0xec, 0x5f, 0x97, 0x44, 0x17, 0xc4, 0xa7, 0x7e, 0x3d, 0x64, 0x5d, 0x19, 0x73,
   0x60, 0x81, 0x4f, 0xdc, 0x22, 0x2a, 0x90, 0x88, 0x46, 0xee, 0xb8, 0x14, 0xde, 0x5e, 0x0b, 0xdb,
   0xe0, 0x32, 0x3a, 0x0a, 0x49, 0x06, 0x24, 0x5c, 0xc2, 0xd3, 0xac, 0x62, 0x91, 0x95, 0xe4, 0x79,
   0xe7, 0xc8, 0x37, 0x6d, 0x8d, 0xd5, 0x4e, 0xa9, 0x6c, 0x56, 0xf4, 0xea, 0x65, 0x7a, 0xae, 0x08,
   0xba, 0x78, 0x25, 0x2e, 0x1c, 0xa6, 0xb4, 0xc6, 0xe8, 0xdd, 0x74, 0x1f, 0x4b, 0xbd, 0x8b, 0x8a,
   0x70, 0x3e, 0xb5, 0x66, 0x48, 0x03, 0xf6, 0x0e, 0x61, 0x35, 0x57, 0xb9, 0x86, 0xc1, 0x1d, 0x9e,
   0xe1, 0xf8, 0x98, 0x11, 0x69, 0xd9, 0x8e, 0x94, 0x9b, 0x1e, 0x87, 0xe9, 0xce, 0x55, 0x28, 0xdf,
   0x8c, 0xa1, 0x89, 0x0d, 0xbf, 0xe6, 0x42, 0x68, 0x41, 0x99, 0x2d, 0x0f, 0xb0, 0x54, 0xbb, 0x16]

/-- `AES::inv_sbox` (aes.h 75-92). -/
def inv_sbox : List Nat := [
   0x52, 0x09, 0x6a, 0xd5, 0x30, 0x36, 0xa5, 0x38, 0xbf, 0x40, 0xa3, 0x9e, 0x81, 0xf3, 0xd7, 0xfb,
   0x7c, 0xe3, 0x39, 0x82, 0x9b, 0x2f, 0xff, 0x87, 0x34, 0x8e, 0x43, 0x44, 0xc4, 0xde, 0xe9, 0xcb,
   0x54, 0x7b, 0x94, 0x32, 0xa6, 0xc2, 0x23, 0x3d, 0xee, 0x4c, 0x95, 0x0b, 0x42, 0xfa, 0xc3, 0x4e,
   0x08, 0x2e, 0xa1, 0x66, 0x28, 0xd9, 0x24, 0xb2, 0x76, 0x5b, 0xa2, 0x49, 0x6d, 0x8b, 0xd1, 0x25,
   0x72, 0xf8, 0xf6, 0x64, 0x86, 0x68, 0x98, 0x16, 0xd4, 0xa4, 0x5c, 0xcc, 0x5d, 0x65, 0xb6, 0x92,
   0x6c, 0x70, 0x48, 0x50, 0xfd, 0xed, 0xb9, 0xda, 0x5e, 0x15, 0x46, 0x57, 0xa7, 0x8d, 0x9d, 0x84,
   0x90, 0xd8, 0xab, 0x00, 0x8c, 0xbc, 0xd3, 0x0a, 0xf7, 0xe4, 0x58, 0x05, 0xb8, 0xb3, 0x45, 0x06,
   0xd0, 0x2c, 0x1e, 0x8f, 0xca, 0x3f, 0x0f, 0x02, 0xc1, 0xaf, 0xbd, 0x03, 0x01, 0x13, 0x8a, 0x6b,
   0x3a, 0x91, 0x11, 0x41, 0x4f, 0x67, 0xdc, 0xea, 0x97, 0xf2, 0xcf, 0xce, 0xf0, 0xb4, 0xe6, 0x73,
   0x96, 0xac, 0x74, 0x22, 0xe7, 0xad, 0x35, 0x85, 0xe2, 0xf9, 0x37, 0xe8, 0x1c, 0x75, 0xdf, 0x6e,
   0x47, 0xf1, 0x1a, 0x71, 0x1d, 0x29, 0xc5, 0x89, 0x6f, 0xb7, 0x62, 0x0e, 0xaa, 0x18, 0xbe, 0x1b,
   0xfc, 0x56, 0x3e, 0x4b, 0xc6, 0xd2, 0x79, 0x20, 0x9a, 0xdb, 0xc0, 0xfe, 0x78, 0xcd, 0x5a, 0xf4,
   0x1f, 0xdd, 0xa8, 0x33, 0x88, 0x07, 0xc7, 0x31, 0xb1, 0x12, 0x10, 0x59, 0x27, 0x80, 0xec, 0x5f,
   0x60, 0x51, 0x7f, 0xa9, 0x19, 0xb5, 0x4a, 0x0d, 0x2d, 0xe5, 0x7a, 0x9f, 0x93, 0xc9, 0x9c, 0xef,
   0xa0, 0xe0, 0x3b, 0x4d, 0xae, 0x2a, 0xf5, 0xb0, 0xc8, 0xeb, 0xbb, 0x3c, 0x83, 0x53, 0x99, 0x61,
   0x17, 0x2b, 0x04, 0x7e, 0xba, 0x77, 0xd6, 0x26, 0xe1, 0x69, 0x14, 0x63, 0x55, 0x21, 0x0c, 0x7d]

/-- `AES::xor_bufs` (aes.h 148-168): the common prefix is XOR-ed byte by byte and the
rest of the longer buffer is copied. -/
def xor_bufs : List Nat → List Nat → List Nat
  | a :: as, b :: bs => (a ^^^ b) :: xor_bufs as bs
  | [], bs => bs
  | as, [] => as

/-- `AES::substitute_bytes` (aes.h 170-177).  The index is a `uint8_t`, so `at` never
throws. -/
def substitute_bytes (bytes : List Nat) (inv : Bool) : List Nat :=
  bytes.map (fun b => if inv then inv_sbox.getD b 0 else sbox.getD b 0)

/-- `AES::rot_bytes` (aes.h 179-211) on the `n_bytes` bytes it is given (`n_bytes` is 4
at every call site). -/
def rot_bytes (bytes : List Nat) (shift : Nat) (inv : Bool) : List Nat :=
  let n_bytes := bytes.length
  let shift := shift % n_bytes
  if shift = 0 then bytes
  else if (!inv && decide (shift ≤ n_bytes >>> 1)) || (inv && decide (shift > n_bytes >>> 1)) then
    let shift := if inv then n_bytes - shift else shift
    -- temp_buf = bytes[0 .. shift); bytes[i] = bytes[i + shift]; temp_buf goes to the end
    bytes.drop shift ++ bytes.take shift
  else
    let shift := if !inv then n_bytes - shift else shift
    -- temp_buf = bytes[n_bytes - shift ..); bytes[i] = bytes[i - shift]; temp_buf goes first
    bytes.drop (n_bytes - shift) ++ bytes.take (n_bytes - shift)

/-- The call `rot_bytes(block + off, n_bytes, shift, inv)` on the memory `mem` that
starts at `block`.  With `shift % n_bytes == 0` the function returns before it touches
memory; otherwise it reads and writes `mem[off .. off + n_bytes)`. -/
def rot_bytes_at (mem : List Nat) (off n_bytes shift : Nat) (inv : Bool) :
    Except Error (List Nat) :=
  if shift % n_bytes = 0 then .ok mem
  else if mem.length < off + n_bytes then .error .fault
  else .ok (mem.take off ++ rot_bytes ((mem.drop off).take n_bytes) shift inv
              ++ mem.drop (off + n_bytes))

/-- `AES::shift_rows` (aes.h 213-220) on the memory `mem` that starts at `block`.
The loop executes `block += i * 4`, so the pointer advances by 0, 4, 8 and 12 and the
four rotations act at offsets 0, 4, 12 and 24. -/
def shift_rows (mem : List Nat) (inv : Bool) : Except Error (List Nat) :=
  let block := 0 + 0 * 4
  (rot_bytes_at mem block 4 0 inv).bind fun mem =>
    let block := block + 1 * 4
    (rot_bytes_at mem block 4 1 inv).bind fun mem =>
      let block := block + 2 * 4
      (rot_bytes_at mem block 4 2 inv).bind fun mem =>
        let block := block + 3 * 4
        rot_bytes_at mem block 4 3 inv

/-- `AES::galois_field_mul` (aes.h 222-239); the loop state is `(t, x, y)`. -/
def galois_field_mul (x y : Nat) : Nat :=
  ((List.range 8).foldl (fun (s : Nat × Nat × Nat) _ =>
      let t := if s.2.2 &&& 1 ≠ 0 then s.1 ^^^ s.2.1 else s.1
      let z := s.2.1 &&& 0x80
      let x := ((s.2.1 <<< 1) % 256) &&& 0xff
      let x := if z ≠ 0 then x ^^^ 0x1b else x
      (t, x, s.2.2 >>> 1)) (0, x, y)).1

/-- The local array `col` of `AES::mix_columns` after the body of the outer loop has
run for column `i` (aes.h 257-267). -/
def mix_columns_col (block : List Nat) (inv : Bool) (i : Nat) : List Nat :=
  let factor := if inv then [14, 9, 13, 11] else [2, 1, 1, 3]
  let temp := (List.range 4).map (fun j => block.getD (i + j * 4) 0)
  (List.range 4).map (fun j =>
    (List.range 4).foldl (fun acc k =>
      acc ^^^ galois_field_mul (temp.getD ((j + k * 3) &&& 0x03) 0) (factor.getD k 0)) 0)

/-- `AES::mix_columns` (aes.h 241-269).  The loop state is `(block, col)`: each column is
read into the local `col`, the products are accumulated in `col`, and the function has
no statement that stores `col` back into `block`. -/
def mix_columns (block : List Nat) (inv : Bool) : List Nat :=
  ((List.range 4).foldl (fun (s : List Nat × List Nat) i =>
      (s.1, mix_columns_col s.1 inv i)) (block, [])).1

/-- The table `rcon` built at aes.h 281-291. -/
def rcon : List (List Nat) :=
  [0x01, 0x02, 0x04, 0x08, 0x10, 0x20, 0x40, 0x80, 0x1b, 0x36].map
    (fun c => (List.range 4).map (fun j => if j ≠ 0 then 0 else c))

/-- The word that iteration `i` of the loop of `AES::expand_key` stores at `exp_key`
(aes.h 299-321); `w` holds the `4 * i` bytes written so far. -/
def expand_key_word (key w : List Nat) (n_words i : Nat) : List Nat :=
  if i < n_words then (key.drop (i * 4)).take 4
  else
    let prev := (w.drop (w.length - 4)).take 4
    let back := (w.drop (w.length - (n_words <<< 2))).take 4
    if i % n_words = 0 then
      xor_bufs (xor_bufs (substitute_bytes (rot_bytes prev 1 false) false) back)
        (rcon.getD (i / n_words - 1) [])
    else if n_words > 6 ∧ i % n_words = 4 then
      xor_bufs (substitute_bytes prev false) back
    else
      xor_bufs prev back

/-- `AES::expand_key` (aes.h 271-327); returns the schedule and `exp_key_size`. -/
def expand_key (key : List Nat) : Except Error (List Nat × Nat) :=
  let n_bytes := key.length
  if n_bytes < block_size ∨ n_bytes &&& 0x07 ≠ 0 then .error .invalid_key
  else
    let n_words := n_bytes >>> 2
    let n_rkeys := (n_words + 7) % U32
    let n_rounds := (n_rkeys <<< 2) % U32
    let exp_key_size := (n_rounds <<< 2) % U32
    -- the loop writes `4 * n_rounds` bytes into an allocation of `exp_key_size` bytes
    if exp_key_size < 4 * n_rounds then .error .fault
    else .ok ((List.range n_rounds).foldl
                (fun w i => w ++ expand_key_word key w n_words i) [], exp_key_size)

/-- `AES::get_round_key` (aes.h 329-336): `rkey[i + j*4] = expanded_key[offset + i*4 + j]`. -/
def get_round_key (expanded_key : List Nat) (offset : Nat) : List Nat :=
  (List.range 16).map (fun m => expanded_key.getD (offset + (m % 4) * 4 + m / 4) 0)

/-- `AES::add_round_key` (aes.h 338-341). -/
def add_round_key (rkey block : List Nat) : List Nat :=
  xor_bufs block rkey

/-- The copy loops of `rijndael` and `inv_rijndael` (aes.h 350-354, 369-373):
`matrix[i + j*4] = block[i*4 + j]`, and the same index map on the way back. -/
def transpose (block : List Nat) : List Nat :=
  (List.range 16).map (fun m => block.getD ((m % 4) * 4 + m / 4) 0)

/-- Apply `f` to the 16-byte state at the start of `mem`, leaving the rest alone. -/
def on_state (f : List Nat → List Nat) (mem : List Nat) : List Nat :=
  f (mem.take 16) ++ mem.drop 16

/-- One iteration of the round loop of `AES::rijndael` (aes.h 359-367). -/
def rijndael_round (expanded_key : List Nat) (n_rounds : Nat) (mem : List Nat) (round : Nat) :
    Except Error (List Nat) :=
  let mem := on_state (fun m => substitute_bytes m false) mem
  (shift_rows mem false).bind fun mem =>
    -- `n_rounds - 1` does not wrap inside the loop, where `n_rounds > 0`
    let mem := if round < n_rounds - 1 then on_state (fun m => mix_columns m false) mem else mem
    .ok (on_state (add_round_key (get_round_key expanded_key ((round + 1) * block_size))) mem)

/-- `AES::rijndael` (aes.h 343-377).  `matrix` is a fresh array of 16 bytes; `adj` are
the bytes that lie behind it in memory, so `matrix ++ adj` is what the pointer `matrix`
can reach.  In the C++ object model nothing lies behind the array (`adj = []`). -/
def rijndael (adj pt_block expanded_key : List Nat) (exp_key_bytes : Nat) :
    Except Error (List Nat) :=
  let n_rounds := ((exp_key_bytes >>> 4) + U32 - 1) % U32
  let matrix := transpose pt_block
  let matrix := add_round_key (get_round_key expanded_key 0) matrix
  (for_loop (rijndael_round expanded_key n_rounds) (matrix ++ adj) (List.range n_rounds)).bind
    fun mem => .ok (transpose (mem.take 16))

/-- One iteration of the round loop of `AES::inv_rijndael` (aes.h 392-400). -/
def inv_rijndael_round (expanded_key : List Nat) (n_rounds : Nat) (mem : List Nat)
    (round : Nat) : Except Error (List Nat) :=
  let mem := on_state
    (add_round_key (get_round_key expanded_key ((n_rounds - round) * block_size))) mem
  let mem := if round > 0 then on_state (fun m => mix_columns m true) mem else mem
  (shift_rows mem true).bind fun mem =>
    .ok (on_state (fun m => substitute_bytes m true) mem)

/-- `AES::inv_rijndael` (aes.h 379-413); `adj` as in `rijndael`. -/
def inv_rijndael (adj ct_block expanded_key : List Nat) (exp_key_bytes : Nat) :
    Except Error (List Nat) :=
  let n_rounds := ((exp_key_bytes >>> 4) + U32 - 1) % U32
  let matrix := transpose ct_block
  (for_loop (inv_rijndael_round expanded_key n_rounds) (matrix ++ adj)
      (List.range n_rounds)).bind fun mem =>
    let matrix := add_round_key (get_round_key expanded_key 0) (mem.take 16)
    .ok (transpose matrix)

/-- The block loop of `AES::encrypt` (aes.h 439-445): `n` blocks remain, `i` is the loop
counter, `iv` the chaining value and `buf` the part of `dest` from `ct` on. -/
def encrypt_blocks (adj : Nat → List Nat) (expanded_key : List Nat) (exp_key_bytes : Nat) :
    Nat → Nat → List Nat → List Nat → Except Error (List Nat)
  | 0, _, _, buf => .ok buf
  | n + 1, i, iv, buf =>
    (rijndael (adj i) (xor_bufs (buf.take 16) iv) expanded_key exp_key_bytes).bind fun ct =>
      (encrypt_blocks adj expanded_key exp_key_bytes n (i + 1) ct (buf.drop 16)).bind fun rest =>
        .ok (ct ++ rest)

/-- `AES::encrypt` (aes.h 415-450).  `adj i` are the bytes behind the state array that
`rijndael` allocates for block `i`; `iv_buf` holds the 16 bytes of the IV. -/
def encrypt (adj : Nat → List Nat) (pt_buf key_buf iv_buf : List Nat) :
    Except Error (List Nat) :=
  let pt_bytes := pt_buf.length
  let key_bytes := key_buf.length
  if pt_bytes = 0 then .error .invalid_pad
  else if pt_bytes % block_size ≠ 0 then .error .invalid_pad
  else if key_bytes < block_size ∨ key_bytes &&& 0x07 ≠ 0 then .error .invalid_key
  else
    (expand_key key_buf).bind fun ek =>
      let n_blocks := pt_bytes / block_size
      encrypt_blocks adj ek.1 ek.2 n_blocks 0 (iv_buf.take 16) pt_buf

/-- The block loop of `AES::decrypt` (aes.h 476-482): `buf` is the part of the received
ciphertext from block `i` on, which is also what `dest` holds there before the
iteration; the next chaining value is the ciphertext block just processed. -/
def decrypt_blocks (adj : Nat → List Nat) (expanded_key : List Nat) (exp_key_bytes : Nat) :
    Nat → Nat → List Nat → List Nat → Except Error (List Nat)
  | 0, _, _, buf => .ok buf
  | n + 1, i, iv, buf =>
    (inv_rijndael (adj i) (buf.take 16) expanded_key exp_key_bytes).bind fun pt =>
      (decrypt_blocks adj expanded_key exp_key_bytes n (i + 1) (buf.take 16)
          (buf.drop 16)).bind fun rest =>
        .ok (xor_bufs pt iv ++ rest)

/-- `AES::decrypt` (aes.h 452-487); `adj` as in `encrypt`. -/
def decrypt (adj : Nat → List Nat) (ct_buf key_buf iv_buf : List Nat) :
    Except Error (List Nat) :=
  let ct_bytes := ct_buf.length
  let key_bytes := key_buf.length
  if ct_bytes = 0 then .error .invalid_pad
  else if key_bytes < block_size ∨ key_bytes &&& 0x07 ≠ 0 then .error .invalid_key
  else
    (expand_key key_buf).bind fun ek =>
      let n_blocks := ct_bytes / block_size
      decrypt_blocks adj ek.1 ek.2 n_blocks 0 (iv_buf.take 16) ct_buf

/-- The 16-byte state that `shift_rows` leaves when the four bytes it rotates at offset
24 are addressable: the state part of the result does not depend on what lies behind
the state. -/
def shift_rows_state (m : List Nat) (inv : Bool) : List Nat :=
  match shift_rows (m ++ List.replicate 12 0) inv with
  | .ok mem => mem.take 16
  | .error _ => m

/-- The state after one iteration of the round loop of `rijndael` (see `rijndael_round`),
as a function of the state before it. -/
def round_state (expanded_key : List Nat) (n_rounds : Nat) (m : List Nat) (round : Nat) :
    List Nat :=
  let m := shift_rows_state (substitute_bytes m false) false
  let m := if round < n_rounds - 1 then mix_columns m false else m
  add_round_key (get_round_key expanded_key ((round + 1) * block_size)) m

/-- The state after one iteration of the round loop of `inv_rijndael` (see
`inv_rijndael_round`), as a function of the state before it. -/
def inv_round_state (expanded_key : List Nat) (n_rounds : Nat) (m : List Nat) (round : Nat) :
    List Nat :=
  let m := add_round_key (get_round_key expanded_key ((n_rounds - round) * block_size)) m
  let m := if round > 0 then mix_columns m true else m
  substitute_bytes (shift_rows_state m true) true

/-- ShiftRows in the words of the specification, for comparison with `shift_rows`: row
`r` of the state is stored at indices `4r .. 4r+3`; the new byte at row `r`, column `c`
is the old byte at row `r`, column `(c + r) mod 4`, and with `inv` the rotation goes to
the right, so it is the old byte at column `(c + 4 - r) mod 4`. -/
def shift_rows_spec (state : List Nat) (inv : Bool) : List Nat :=
  (List.range 16).map (fun i =>
    let r := i / 4
    let c := i % 4
    state.getD (4 * r + (if inv then (c + 4 - r) % 4 else (c + r) % 4)) 0)

/-- The indices, relative to `bytes`, that `AES::rot_bytes` reads or writes, in the order
of the accesses (aes.h 179-211): the `memcpy` into `temp_buf`, the copy loop (a read and
a write per iteration), and the `memcpy` out of `temp_buf`. -/
def rot_bytes_indices (n_bytes shift : Nat) (inv : Bool) : List Nat :=
  let shift := shift % n_bytes
  if shift = 0 then []
  else if (!inv && decide (shift ≤ n_bytes >>> 1)) || (inv && decide (shift > n_bytes >>> 1)) then
    let shift := if inv then n_bytes - shift else shift
    List.range shift
      ++ (List.range (n_bytes - shift)).flatMap (fun i => [i + shift, i])
      ++ (List.range shift).map (fun i => n_bytes - shift + i)
  else
    let shift := if !inv then n_bytes - shift else shift
    (List.range shift).map (fun i => n_bytes - shift + i)
      -- for (i = n_bytes - 1; i >= shift; i--) bytes[i] = bytes[i - shift];
      ++ (List.range (n_bytes - shift)).flatMap
          (fun j => [n_bytes - 1 - j - shift, n_bytes - 1 - j])
      ++ List.range shift

/-- The indices, relative to the pointer `block` that `AES::shift_rows` is given, of the
bytes that it reads or writes through `rot_bytes` (aes.h 213-220). -/
def shift_rows_indices (inv : Bool) : List Nat :=
  let block := 0 + 0 * 4
  let acc := (rot_bytes_indices 4 0 inv).map (fun k => block + k)
  let block := block + 1 * 4
  let acc := acc ++ (rot_bytes_indices 4 1 inv).map (fun k => block + k)
  let block := block + 2 * 4
  let acc := acc ++ (rot_bytes_indices 4 2 inv).map (fun k => block + k)
  let block := block + 3 * 4
  acc ++ (rot_bytes_indices 4 3 inv).map (fun k => block + k)

/-- Multiplication in GF(2^8) in the words of the specification, for comparison with
`galois_field_mul`: the product of the two polynomials over GF(2), reduced modulo
`x^8 + x^4 + x^3 + x + 1` (`0x11b`). -/
def gf_mul_spec (x y : Nat) : Nat :=
  let prod := (List.range 8).foldl
    (fun acc i => if y.testBit i then acc ^^^ (x <<< i) else acc) 0
  (List.range 7).foldl
    (fun acc j => if acc.testBit (14 - j) then acc ^^^ (0x11b <<< (14 - j - 8)) else acc) prod

/-- MixColumns in the words of the specification, for comparison with `mix_columns`:
row `r` of the state is stored at indices `4r .. 4r+3`, and every column is replaced by
its product with the circulant matrix of first row `[2, 3, 1, 1]`, for the inverse with
the circulant matrix of first row `[14, 11, 13, 9]`. -/
def mix_columns_spec (state : List Nat) (inv : Bool) : List Nat :=
  let row0 := if inv then [14, 11, 13, 9] else [2, 3, 1, 1]
  (List.range 16).map (fun idx =>
    let r := idx / 4
    let c := idx % 4
    (List.range 4).foldl (fun acc k =>
      acc ^^^ gf_mul_spec (row0.getD ((k + 4 - r) % 4) 0) (state.getD (4 * k + c) 0)) 0)

/-- Iteration `i` of the loop of `AES::expand_key` (aes.h 299-321) with every index it
uses made explicit: the word of the key that is copied, the words at `exp_key - 4` and
`exp_key - (n_words << 2)` of the `w.length` bytes written so far, and the row
`(i / n_words) - 1` of the ten rows of `rcon`.  An index outside its array is a fault. -/
def expand_key_word_checked (key w : List Nat) (n_words i : Nat) : Except Error (List Nat) :=
  if i < n_words then
    if key.length < i * 4 + 4 then .error .fault
    else .ok ((key.drop (i * 4)).take 4)
  else if w.length < 4 then .error .fault
  else if w.length < n_words <<< 2 then .error .fault
  else
    let prev := (w.drop (w.length - 4)).take 4
    let back := (w.drop (w.length - (n_words <<< 2))).take 4
    if i % n_words = 0 then
      let row := (i / n_words + U32 - 1) % U32
      if 10 ≤ row then .error .fault
      else .ok (xor_bufs (xor_bufs (substitute_bytes (rot_bytes prev 1 false) false) back)
        (rcon.getD row []))
    else if n_words > 6 ∧ i % n_words = 4 then
      .ok (xor_bufs (substitute_bytes prev false) back)
    else
      .ok (xor_bufs prev back)

/-- `AES::expand_key` (aes.h 271-327) with every index checked, see
`expand_key_word_checked`. -/
def expand_key_checked (key : List Nat) : Except Error (List Nat × Nat) :=
  let n_bytes := key.length
  if n_bytes < block_size ∨ n_bytes &&& 0x07 ≠ 0 then .error .invalid_key
  else
    let n_words := n_bytes >>> 2
    let n_rkeys := (n_words + 7) % U32
    let n_rounds := (n_rkeys <<< 2) % U32
    let exp_key_size := (n_rounds <<< 2) % U32
    if exp_key_size < 4 * n_rounds then .error .fault
    else
      (for_loop (fun w i =>
          (expand_key_word_checked key w n_words i).bind fun word => .ok (w ++ word))
        [] (List.range n_rounds)).bind fun w => .ok (w, exp_key_size)

/-- Word `i` of a buffer of 4-byte words. -/
def word (buf : List Nat) (i : Nat) : List Nat :=
  (buf.drop (4 * i)).take 4

/-- The recurrence of the key schedule in the words of the specification, for comparison
with `expand_key`: word `i ≥ Nk` from the earlier words `w`.  `t` is `w (i - 1)`, rotated
left by one byte, substituted through the S-box and XOR-ed with the round constant
`rc[i / Nk - 1]` in its first byte if `i mod Nk = 0`; substituted only if `Nk > 6` and
`i mod Nk = 4`; the result is `w (i - Nk) XOR t`. -/
def expand_key_spec_word (Nk : Nat) (w : Nat → List Nat) (i : Nat) : List Nat :=
  let rc := [0x01, 0x02, 0x04, 0x08, 0x10, 0x20, 0x40, 0x80, 0x1b, 0x36]
  let sub_word := fun (x : List Nat) => x.map (fun b => sbox.getD b 0)
  let rot_word := fun (x : List Nat) => x.drop 1 ++ x.take 1
  let t :=
    if i % Nk = 0 then
      List.zipWith (fun a b => a ^^^ b) (sub_word (rot_word (w (i - 1))))
        [rc.getD (i / Nk - 1) 0, 0, 0, 0]
    else if Nk > 6 ∧ i % Nk = 4 then sub_word (w (i - 1))
    else w (i - 1)
  List.zipWith (fun a b => a ^^^ b) (w (i - Nk)) t

end AES


/-! ## socket/transfer.hpp -/

/-- What `buffer << setfill(..) << setw(2) << hex << (int)b` appends for one byte: the
lowercase hexadecimal digits of `b`, left-padded to width 2 with the fill character,
the digit zero. -/
def hex_setw2 (b : Nat) : List Char :=
  let ds := Nat.toDigits 16 b
  List.replicate (2 - ds.length) (Char.ofNat 48) ++ ds

/-- `send_data` (transfer.hpp 4-14): the text handed to the socket. -/
def send_data : List Nat → List Char
  | [] => []
  | b :: src => hex_setw2 b ++ send_data src

/-- The value of a hexadecimal digit as `strtol` reads it in base 16. -/
def hex_val (c : Char) : Option Nat :=
  let u := c.toNat
  if 48 ≤ u ∧ u ≤ 57 then some (u - 48)
  else if 97 ≤ u ∧ u ≤ 102 then some (u - 87)
  else if 65 ≤ u ∧ u ≤ 70 then some (u - 55)
  else none

/-- `isspace` in the C locale. -/
def is_space (c : Char) : Bool :=
  c.toNat = 32 || (decide (9 ≤ c.toNat) && decide (c.toNat ≤ 13))

/-- The digit loop of `strtol`: stops at the first character that is not a digit. -/
def strtol_digits : List Char → Nat → Nat
  | [], acc => acc
  | c :: cs, acc =>
    match hex_val c with
    | some d => strtol_digits cs (acc * 16 + d)
    | none => acc

/-- The optional `0x` / `0X` of base 16, taken only when a digit follows. -/
def strtol_skip_0x (s : List Char) : List Char :=
  match s with
  | c0 :: c1 :: c2 :: rest =>
    if c0.toNat = 48 ∧ (c1.toNat = 120 ∨ c1.toNat = 88) ∧ (hex_val c2).isSome
    then c2 :: rest else s
  | _ => s

/-- `strtol(s, nullptr, 16)` on the characters of `s` up to its first NUL: white space,
an optional sign, an optional `0x`, then digits.  The argument has at most two
characters here, so the result is far from `LONG_MAX`. -/
def strtol16 (s : List Char) : Int :=
  match s.dropWhile is_space with
  | c :: rest =>
    if c.toNat = 45 then - (strtol_digits (strtol_skip_0x rest) 0 : Int)
    else if c.toNat = 43 then (strtol_digits (strtol_skip_0x rest) 0 : Int)
    else (strtol_digits (strtol_skip_0x (c :: rest)) 0 : Int)
  | [] => 0

/-- The bytes the loop of `recv_data` stores (transfer.hpp 29-34), one for every window
`buffer.substr(i, 2)`, `i = 0, 2, 4, ...`: `strtol(..) & 0xff`. -/
def recv_bytes : List Char → List Nat
  | [] => []
  | [c] => [(strtol16 [c] % 256).toNat]
  | c0 :: c1 :: rest => (strtol16 [c0, c1] % 256).toNat :: recv_bytes rest

/-- `recv_data` (transfer.hpp 16-37) for the text `buffer` delivered by the socket: the
`n_bytes = buffer.length() >> 1` bytes of the block it returns.  A text of odd length
makes the loop store one byte more, at `dest_[n_bytes]`, behind the bytes requested;
`slack` is the number of bytes there that can be written without harm (an allocator
hands out blocks in steps of several bytes), and with `slack = 0` the store is a
fault.  On a text of `2^32` characters or more the `uint32_t` counter `i` wraps around
before it reaches `buffer.length()`, and the loop does not end. -/
def recv_data (slack : Nat) (buffer : List Char) : Except Error (List Nat) :=
  if U32 ≤ buffer.length then .error .fault
  else if buffer.length % 2 ≠ 0 then
    if slack = 0 then .error .fault
    else .ok ((recv_bytes buffer).take (buffer.length >>> 1))
  else .ok (recv_bytes buffer)

/-- The text `frame` after bit `k` of the character at position `pos` has been inverted
on the way from the sender to the receiver. -/
def flip_bit (frame : List Char) (pos k : Nat) : List Char :=
  frame.set pos (Char.ofNat ((frame.getD pos (Char.ofNat 0)).toNat ^^^ (1 <<< k)))

/-! ## rsa.h -/

/-- `class PrivKey` (rsa.h 41-59). -/
structure PrivKey where
  p : Nat
  q : Nat
  d : Nat
  n : Nat
  e : Nat
deriving DecidableEq, Repr

/-- `class PubKey` (rsa.h 61-73). -/
structure PubKey where
  n : Nat
  e : Nat
deriving DecidableEq, Repr

/-- `PubKey::PubKey(const PrivKey &)` (rsa.h 165-172). -/
def PubKey.of_priv (key : PrivKey) : PubKey :=
  { n := key.p * key.q, e := 65537 }

/-- `mpz_import(x, count, 1, 1, 0, 0, buf)`: the bytes are the base-256 digits of the
value, most significant first. -/
def mpz_import (buf : List Nat) : Nat :=
  buf.foldl (fun acc b => acc * 256 + b) 0

/-- The number of binary digits of `x`, with `fuel` bounding their number. -/
def bit_length : Nat → Nat → Nat
  | 0, _ => 0
  | fuel + 1, x => if x = 0 then 0 else bit_length fuel (x / 2) + 1

/-- `mpz_sizeinbase(x, 2)`: the number of bits of `x`, and 1 for `x = 0`. -/
def mpz_sizeinbase2 (x : Nat) : Nat :=
  if x = 0 then 1 else bit_length x x

/-- The digit loop behind `mpz_export`, with `fuel` bounding the number of bytes. -/
def export_aux : Nat → Nat → List Nat → List Nat
  | 0, _, acc => acc
  | fuel + 1, x, acc => if x = 0 then acc else export_aux fuel (x / 256) (x % 256 :: acc)

/-- The bytes `mpz_export(dest, nullptr, 1, 1, 1, 0, x)` writes: the base-256 digits of
`x`, most significant first, and nothing at all for `x = 0`. -/
def mpz_export (x : Nat) : List Nat :=
  export_aux (mpz_sizeinbase2 x) x []

/-- Square and multiply: `acc * b ^ e` modulo `m`, with `fuel` bounding the number of
bits of `e`. -/
def powm_aux : Nat → Nat → Nat → Nat → Nat → Nat
  | 0, _, _, _, acc => acc
  | fuel + 1, b, e, m, acc =>
    if e = 0 then acc
    else powm_aux fuel (b * b % m) (e / 2) m (if e % 2 = 1 then acc * b % m else acc)

/-- `mpz_powm(r, b, e, m)` for `m > 0`: `b ^ e mod m`. -/
def mpz_powm (b e m : Nat) : Nat :=
  powm_aux e b e m 1 % m

/-- The buffer of `n_bytes` bytes returned by the byte-level `RSA` functions after
`mpz_export` has written `x` to its start.  `stale i` is the byte that the allocation
held at offset `i` beforehand; it stays wherever `mpz_export` does not write. -/
def export_into (stale : Nat → Nat) (n_bytes x : Nat) : Except Error (List Nat) :=
  let bs := mpz_export x
  if n_bytes < bs.length then .error .fault
  else .ok ((List.range n_bytes).map (fun i => if i < bs.length then bs.getD i 0 else stale i))

/-- The loop of the extended Euclidean algorithm on the remainders `(r0, r1)` with the
cofactors `(t0, t1)`; `fuel` bounds the number of steps. -/
def invert_aux : Nat → Int → Int → Int → Int → Int
  | 0, _, _, t0, _ => t0
  | fuel + 1, r0, r1, t0, t1 =>
    if r1 = 0 then t0 else invert_aux fuel r1 (r0 % r1) t1 (t0 - r0 / r1 * t1)

/-- `mpz_invert(rop, a, m)` for `m > 0`: the return value (non-zero exactly when the
inverse exists) and the content of `rop` afterwards.  When no inverse exists GMP leaves
`rop` undefined; `undef` is what it then holds. -/
def mpz_invert (undef a m : Nat) : Bool × Nat :=
  if Nat.gcd a m = 1 then (true, (invert_aux (a + 1) m a 0 1 % m).toNat)
  else (false, undef)

/-- `PrivKey::random` (rsa.h 136-154); `p` and `q` are the primes that the two calls of
`get_rand_prime` store in `this->p` and `this->q`.  The function is `void`, has no
`throw` and does not look at the return value of `mpz_invert`. -/
def PrivKey.random (key : PrivKey) (p q undef : Nat) : PrivKey :=
  let n := p * q
  let phi_p := p - 1
  let phi := (q - 1) * phi_p
  { key with p := p, q := q, n := n, d := (mpz_invert undef key.e phi).2 }

/-- The integer `temp` that one iteration of the loop of `PrivKey::get_rand_prime`
(rsa.h 104-134) hands to `mpz_nextprime`, for the requested bit length `nbits` (a
`uint32_t`); `rand i` is the `i`-th value returned by `std::rand` in that iteration.
With `nbits = 0` the buffer is empty and `temp_buf[BUFFER_SIZE - 1]` is outside it. -/
def PrivKey.get_rand_prime_temp (nbits : Nat) (rand : Nat → Nat) : Except Error Nat :=
  let rem := (nbits &&& 0x07) % 256
  let BUFFER_SIZE := ((nbits >>> 3) + (if rem ≠ 0 then 1 else 0)) % U32
  if BUFFER_SIZE = 0 then .error .fault
  else
    let temp_buf := (List.range BUFFER_SIZE).map (fun i => rand i &&& 0xff)
    let last := BUFFER_SIZE - 1
    let temp_buf :=
      if rem = 0 then temp_buf.set last ((temp_buf.getD last 0 ||| (1 <<< 7)) % 256)
      else
        let temp_buf := temp_buf.set last ((temp_buf.getD last 0 &&& ((1 <<< rem) - 1)) % 256)
        temp_buf.set last ((temp_buf.getD last 0 ||| (1 <<< (rem - 1))) % 256)
    let temp_buf := temp_buf.set 0 ((temp_buf.getD 0 0 ||| 0x01) % 256)
    -- mpz_import(temp, BUFFER_SIZE, 1, 1, 0, 0, temp_buf): most significant byte first
    .ok (mpz_import temp_buf)

/-- `mpz_get_str(nullptr, base, x)` for `x ≥ 0` and `2 ≤ base ≤ 16`: the digits of `x`,
lowercase, most significant first, the single digit zero for `x = 0`; the terminating
NUL is not part of the list. -/
def mpz_get_str (base x : Nat) : List Char :=
  Nat.toDigits base x

namespace RSA

/-- `RSA::encrypt(mpz_t &, const mpz_t &, const PrivKey &)` (rsa.h 185-190). -/
def encrypt_mpz_priv (pt : Nat) (key : PrivKey) : Except Error Nat :=
  if pt ≥ key.n then .error .invalid_pt else .ok (mpz_powm pt key.d key.n)

/-- `RSA::encrypt(mpz_t &, const mpz_t &, const PubKey &)` (rsa.h 192-197). -/
def encrypt_mpz_pub (pt : Nat) (key : PubKey) : Except Error Nat :=
  if pt ≥ key.n then .error .invalid_pt else .ok (mpz_powm pt key.e key.n)

/-- `RSA::decrypt(mpz_t &, const mpz_t &, const PrivKey &)` (rsa.h 199-204). -/
def decrypt_mpz_priv (ct : Nat) (key : PrivKey) : Except Error Nat :=
  if ct ≥ key.n then .error .invalid_ct else .ok (mpz_powm ct key.d key.n)

/-- `RSA::decrypt(mpz_t &, const mpz_t &, const PubKey &)` (rsa.h 206-211). -/
def decrypt_mpz_pub (ct : Nat) (key : PubKey) : Except Error Nat :=
  if ct ≥ key.n then .error .invalid_ct else .ok (mpz_powm ct key.e key.n)

/-- The common tail of the four byte-level functions (rsa.h 223-246): the exception of
the integer-level call is caught and a copy of static type `std::exception` is thrown;
otherwise the result is exported into `(mpz_sizeinbase(r, 2) + 7) / 8` bytes. -/
def export_result (stale : Nat → Nat) (r : Except Error Nat) : Except Error (List Nat) :=
  match r with
  | .error _ => .error .std_exception
  | .ok x =>
    -- numb = sizeof(uint8_t) << 3
    let numb := 1 <<< 3
    let n_bytes := ((mpz_sizeinbase2 x + numb - 1) / numb) % U32
    export_into stale n_bytes x

/-- `RSA::encrypt(void *, const void *, uint32_t, const PrivKey &)` (rsa.h 213-247). -/
def encrypt_priv (stale : Nat → Nat) (ptbuf : List Nat) (key : PrivKey) :
    Except Error (List Nat) :=
  export_result stale (encrypt_mpz_priv (mpz_import ptbuf) key)

/-- `RSA::encrypt(void *, const void *, uint32_t, const PubKey &)` (rsa.h 249-283). -/
def encrypt_pub (stale : Nat → Nat) (ptbuf : List Nat) (key : PubKey) :
    Except Error (List Nat) :=
  export_result stale (encrypt_mpz_pub (mpz_import ptbuf) key)

/-- `RSA::decrypt(void *, const void *, uint32_t, const PrivKey &)` (rsa.h 285-319). -/
def decrypt_priv (stale : Nat → Nat) (ctbuf : List Nat) (key : PrivKey) :
    Except Error (List Nat) :=
  export_result stale (decrypt_mpz_priv (mpz_import ctbuf) key)

/-- `RSA::decrypt(void *, const void *, uint32_t, const PubKey &)` (rsa.h 321-355). -/
def decrypt_pub (stale : Nat → Nat) (ctbuf : List Nat) (key : PubKey) :
    Except Error (List Nat) :=
  export_result stale (decrypt_mpz_pub (mpz_import ctbuf) key)

end RSA

/-! ## client.cpp, server.cpp -/

namespace Client

/-- One iteration of the loop of `interactive` in client.cpp (44-62) for the input line
`pt_buf`: `none` when the line is the word exit (101, 120, 105, 116), for which the
function returns and nothing is sent, and otherwise the text handed to `send_data`.
`aeskey` is the key material of `key_size` bytes, the key followed by the IV, and `r` is
what `realloc` does in `pad(pt, pt, ..)`, whose `dest` is its source. -/
def interactive_step (adj : Nat → List Nat) (r : PKCS7.Realloc) (aeskey pt_buf : List Nat) :
    Except Error (Option (List Char)) :=
  -- if (pt_buf.compare("exit") == 0) return;
  if pt_buf = [101, 120, 105, 116] then .ok none
  else
    let key_size := aeskey.length
    let key_bytes := (key_size + U32 - AES.block_size) % U32
    let aesiv := aeskey.drop key_bytes
    let ptb := pt_buf.length % U32
    (PKCS7.pad (.source r) (pt_buf.take ptb) AES.block_size).bind fun pt =>
      -- with `key_size < 16` the subtraction has wrapped and the key pointer is followed
      -- by fewer than `key_bytes` bytes: `AES::encrypt` tests `key_bytes`, then reads the
      -- key
      if aeskey.length < key_bytes then
        if key_bytes &&& 0x07 ≠ 0 then .error .invalid_key else .error .fault
      else
        (AES.encrypt adj pt (aeskey.take key_bytes) aesiv).bind fun ct =>
          .ok (some (send_data ct))

/-- `share_pub_key` (client.cpp 11-20): the two texts handed to the socket.  What
`send_data` receives is the character string returned by `mpz_get_str`, `strlen` bytes
of it. -/
def share_pub_key (pubkey : PubKey) : List Char × List Char :=
  let pub_n := (mpz_get_str 16 pubkey.n).map Char.toNat
  let pub_e := (mpz_get_str 16 pubkey.e).map Char.toNat
  (send_data (pub_n.take (pub_n.length % U32)), send_data (pub_e.take (pub_e.length % U32)))

/-- `recv_aes_key` (client.cpp 22-30) for the received text `frame`: the buffer that
becomes the key material of the client; `slack` as in `recv_data`. -/
def recv_aes_key (stale : Nat → Nat) (slack : Nat) (privkey : PrivKey) (frame : List Char) :
    Except Error (List Nat) :=
  (recv_data slack frame).bind fun dest => RSA.decrypt_priv stale dest privkey

end Client

namespace Server

/-- One iteration of the loop of `interactive` in server.cpp (68-81) for the received
text `frame`: the message that is printed; `slack` as in `recv_data`. -/
def interactive_step (adj : Nat → List Nat) (slack : Nat) (aeskey : List Nat)
    (frame : List Char) : Except Error (List Nat) :=
  let key_size := aeskey.length
  let key_bytes := (key_size + U32 - AES.block_size) % U32
  let aesiv := aeskey.drop key_bytes
  (recv_data slack frame).bind fun ct =>
    -- as in the client: a wrapped `key_bytes` is tested after `ct_bytes`, then read
    if aeskey.length < key_bytes then
      if ct.length = 0 then .error .invalid_pad
      else if key_bytes &&& 0x07 ≠ 0 then .error .invalid_key else .error .fault
    else
      (AES.decrypt adj ct (aeskey.take key_bytes) aesiv).bind fun pt =>
        PKCS7.unpad pt AES.block_size

/-- `get_aes_key` (server.cpp 27-43): `key_bytes + block_size` bytes, byte `i` being the
low eight bits of the `i`-th value `rand i` returned by `std::rand`. -/
def get_aes_key (rand : Nat → Nat) (key_bytes : Nat) : List Nat :=
  let key_size := (key_bytes + AES.block_size) % U32
  (List.range key_size).map (fun i => rand i &&& 0xff)

/-- `share_aes_key` (server.cpp 45-56): the text handed to the socket. -/
def share_aes_key (stale : Nat → Nat) (aeskey : List Nat) (pubkey : PubKey) :
    Except Error (List Char) :=
  (RSA.encrypt_pub stale aeskey pubkey).bind fun enc_key => .ok (send_data enc_key)

end Server

/-! ## test.cpp -/

/-- The message of `aes_test` (test.cpp 26), the 21 bytes of the text
`1anscind(9jklakl]4531`; `aes_test` pads it with `pkcs7.pad(pt, pt, 21, 16)`. -/
def aes_test_msg : List Nat :=
  [49, 97, 110, 115, 99, 105, 110, 100, 40, 57, 106, 107, 108, 97, 107, 108, 93, 52, 53, 51, 49]

/-! ## assignment-2/spn.h -/

namespace SPN

/-- `block_size` (spn.h 25): the number of bits of a state. -/
def block_size : Nat := 16

/-- `key_size` (spn.h 25): the number of entries of a key. -/
def key_size : Nat := 10

/-- `rounds` (spn.h 25). -/
def rounds : Nat := 3

/-- The entries of the map `sbox` (spn.h 25-29). -/
def sbox : List (Nat × Nat) :=
  [(0x0, 0xe), (0x1, 0x4), (0x2, 0xd), (0x3, 0x1),
   (0x4, 0x2), (0x5, 0xf), (0x6, 0xb), (0x7, 0x8),
   (0x8, 0x3), (0x9, 0xa), (0xa, 0x6), (0xb, 0xc),
   (0xc, 0x5), (0xd, 0x9), (0xe, 0x0), (0xf, 0x7)]

/-- The entries of the map `inv_sbox` (spn.h 30-34). -/
def inv_sbox : List (Nat × Nat) :=
  [(0xe, 0x0), (0x4, 0x1), (0xd, 0x2), (0x1, 0x3),
   (0x2, 0x4), (0xf, 0x5), (0xb, 0x6), (0x8, 0x7),
   (0x3, 0x8), (0xa, 0x9), (0x6, 0xa), (0xc, 0xb),
   (0x5, 0xc), (0x9, 0xd), (0x0, 0xe), (0x7, 0xf)]

/-- The entries of the map `pbox` (spn.h 35-39). -/
def pbox : List (Nat × Nat) :=
  [(0x0, 0x0), (0x1, 0x4), (0x2, 0x8), (0x3, 0xc),
   (0x4, 0x1), (0x5, 0x5), (0x6, 0x9), (0x7, 0xd),
   (0x8, 0x2), (0x9, 0x6), (0xa, 0xa), (0xb, 0xe),
   (0xc, 0x3), (0xd, 0x7), (0xe, 0xb), (0xf, 0xf)]

/-- `std::map::at`: the value stored under the key `k`; for a key that the map does not
hold it throws `std::out_of_range`. -/
def map_at (m : List (Nat × Nat)) (k : Nat) : Except Error Nat :=
  match List.lookup k m with
  | some v => .ok v
  | none => .error .out_of_range

/-- `SPN::apply_sbox` (spn.h 53-80).  In the first loop the reference `sub_state` and
`sub_states[index]` name the same element, which is replaced by its image.  The images
are entries of the tables and lie below 16, so the shifts by 0, 4, 8 and 12 lose no bit
of a `uint32_t`. -/
def apply_sbox (state : Nat) (inv : Bool) : Except Error Nat :=
  let sub_states := [state &&& 0x000f, (state &&& 0x00f0) >>> 4, (state &&& 0x0f00) >>> 8,
    (state &&& 0xf000) >>> 12]
  (for_loop (fun (done : List Nat) sub_state =>
      (map_at (if inv then inv_sbox else sbox) sub_state).bind fun v => .ok (done ++ [v]))
    [] sub_states).bind fun sub_states =>
      -- new_state |= (sub_state << shift); shift += 4;
      .ok (sub_states.foldl (fun (acc : Nat × Nat) sub_state =>
        (acc.1 ||| (sub_state <<< acc.2), acc.2 + 4)) (0, 0)).1

/-- `SPN::get_sub_keys` (spn.h 82-102): `key_idx` takes the even values below
`key.size()`; `key[key_idx + 1]` lies outside a key of odd size. -/
def get_sub_keys (key : List Nat) : Except Error (List Nat) :=
  for_loop (fun (sub_keys : List Nat) key_idx =>
      if key.length ≤ key_idx + 1 then .error .fault
      else
        let sub_key := (key.getD key_idx 0 <<< 8) % U32
        .ok (sub_keys ++ [(sub_key + key.getD (key_idx + 1) 0) % U32]))
    [] ((List.range ((key.length + 1) / 2)).map (fun i => 2 * i))

/-- The bitwise permutation of the state (spn.h 123-134 and 172-183): bit `bit_idx` of
the state goes to the position `pbox.at(bit_idx)`. -/
def permute (state : Nat) : Except Error Nat :=
  for_loop (fun (state_temp : Nat) bit_idx =>
      if state &&& (1 <<< bit_idx) ≠ 0 then
        (map_at pbox bit_idx).bind fun p => .ok (state_temp ||| (1 <<< p))
      else .ok state_temp)
    0 (List.range block_size)

/-- The body of the loop over the states in `SPN::encrypt` (spn.h 113-140): the value
pushed to `ct` for the state `state`.  `sub_keys[rnum]` and the reverse iterators are
only valid inside the vector. -/
def encrypt_state (sub_keys : List Nat) (state : Nat) : Except Error Nat :=
  (for_loop (fun (state : Nat) rnum =>
      if sub_keys.length ≤ rnum then .error .fault
      else
        (apply_sbox (state ^^^ sub_keys.getD rnum 0) false).bind fun state =>
          permute state)
    state (List.range rounds)).bind fun state =>
      if sub_keys.length < 2 then .error .fault
      else
        (apply_sbox (state ^^^ sub_keys.getD (sub_keys.length - 2) 0) false).bind fun state =>
          .ok (state ^^^ sub_keys.getD (sub_keys.length - 1) 0)

/-- `SPN::encrypt` (spn.h 104-146). -/
def encrypt (pt key : List Nat) : Except Error (List Nat) :=
  (get_sub_keys key).bind fun sub_keys =>
    for_loop (fun (ct : List Nat) state =>
        (encrypt_state sub_keys state).bind fun state => .ok (ct ++ [state]))
      [] pt

/-- The body of the loop over the states in `SPN::decrypt` (spn.h 159-191): the value
pushed to `pt` for the state `state`. -/
def decrypt_state (sub_keys : List Nat) (state : Nat) : Except Error Nat :=
  if sub_keys.length < 1 then .error .fault
  else
    (apply_sbox (state ^^^ sub_keys.getD (sub_keys.length - 1) 0) true).bind fun state =>
      (for_loop (fun (state : Nat) rnum =>
          if sub_keys.length ≤ rounds - rnum then .error .fault
          else
            (permute (state ^^^ sub_keys.getD (rounds - rnum) 0)).bind fun state =>
              apply_sbox state true)
        state (List.range rounds)).bind fun state =>
          .ok (state ^^^ sub_keys.getD 0 0)

/-- `SPN::decrypt` (spn.h 149-195). -/
def decrypt (ct key : List Nat) : Except Error (List Nat) :=
  (get_sub_keys key).bind fun sub_keys =>
    for_loop (fun (pt : List Nat) state =>
        (decrypt_state sub_keys state).bind fun state => .ok (pt ++ [state]))
      [] ct

end SPN

/-! ## assignment-1/solvay_strassen.cpp -/

namespace SolvayStrassen

/-- The value of an `int64_t` expression whose mathematical value is `x`: signed overflow
is undefined. -/
def int64 (x : Int) : Except Error Int :=
  if -9223372036854775808 ≤ x ∧ x < 9223372036854775808 then .ok x else .error .fault

/-- `x % y` on `int64_t`: the remainder of the division that truncates towards zero. -/
def int64_mod (x y : Int) : Except Error Int :=
  if y = 0 ∨ (x = -9223372036854775808 ∧ y = -1) then .error .fault else .ok (x.tmod y)

/-- The inner loop of `jacobi` (solvay_strassen.cpp 30-37): the values of `a` and `jac`
after it; `fuel` bounds the number of iterations (the loop does not end for `a = 0`). -/
def jacobi_halve (b : Int) : Nat → Int → Int → Except Error (Int × Int)
  | 0, _, _ => .error .fault
  | fuel + 1, a, jac =>
    if a.tmod 2 = 0 then
      jacobi_halve b fuel (a >>> (1 : Nat)) (if b.tmod 8 = 3 ∨ b.tmod 8 = 5 then -jac else jac)
    else .ok (a, jac)

/-- The outer loop of `jacobi` with the two statements behind it (solvay_strassen.cpp
28-52); `fuel` bounds the number of iterations. -/
def jacobi_loop : Nat → Int → Int → Int → Except Error Int
  | 0, _, _, _ => .error .fault
  | fuel + 1, a, b, jac =>
    if a ≠ 0 then
      (jacobi_halve b a.natAbs a jac).bind fun r =>
        -- std::swap(a, b): from here on `a` is `b` and `b` is `r.1`
        let jac := if b.tmod 4 = 3 ∧ r.1.tmod 4 = 3 then -r.2 else r.2
        (int64_mod b r.1).bind fun a => jacobi_loop fuel a r.1 jac
    else if b = 1 then .ok jac
    else .ok 0

/-- `SolvayStrassen::jacobi` (solvay_strassen.cpp 14-53) on two `int64_t` values.  The
value of `a` decreases in every iteration of the outer loop, which bounds their
number. -/
def jacobi (a b : Int) : Except Error Int :=
  if b ≤ 0 ∨ b.tmod 2 = 0 then .ok 0
  else if a < 0 then
    (int64 (-a)).bind fun a =>
      jacobi_loop (a.natAbs + 1) a b (if b.tmod 4 = 3 then -1 else 1)
  else jacobi_loop (a.natAbs + 1) a b 1

/-- The loop of `mod_exp` (solvay_strassen.cpp 59-63), run `k` times. -/
def mod_exp_loop (a c : Int) : Nat → Int → Except Error Int
  | 0, res => .ok res
  | k + 1, res =>
    (int64 (res * a)).bind fun res =>
      (int64_mod res c).bind fun res => mod_exp_loop a c k res

/-- `SolvayStrassen::mod_exp` (solvay_strassen.cpp 55-66).  `while (b--)` runs the body
`b` times for `b ≥ 0`; a negative counter is decremented until it overflows. -/
def mod_exp (a b c : Int) : Except Error Int :=
  if b < 0 then .error .fault
  else (mod_exp_loop a c b.toNat 1).bind fun res => int64_mod res c

/-- The conversion of an `int64_t` value to `int`: the value modulo `2^32` in the range
of `int`. -/
def to_int (x : Int) : Int := (x + 2147483648) % 4294967296 - 2147483648

/-- The call `abs(..)` at solvay_strassen.cpp 82.  The file includes only `<iostream>` and
`<random>` and the name is not qualified: it is the C function `int abs(int)`, and the
`int64_t` argument is converted to `int` first.  `abs(INT_MIN)` has no value in `int`
and is undefined; `abs_min` is what the call returns there (`INT_MIN` itself where `abs`
negates in two's complement). -/
def int_abs (abs_min : Int) (x : Int) : Int :=
  if to_int x = -2147483648 then abs_min else abs (to_int x)

/-- The loop of `is_prime` (solvay_strassen.cpp 80-91), for `k` more iterations, the
next one being iteration `i`: `random i` is the value that the call of `random()`
returns there, an `unsigned int`, and `last` is what follows the loop; `abs_min` as in
`int_abs`. -/
def is_prime_loop (abs_min : Int) (random : Nat → Nat) (n : Int) (last : Except Error Bool) :
    Nat → Nat → Except Error Bool
  | 0, _ => last
  | k + 1, i =>
    let rand : Int := int_abs abs_min ((random i % U32 : Nat) : Int)
    (int64_mod rand (n - 1)).bind fun r =>
      (int64 (r + 1)).bind fun a =>
        (jacobi a n).bind fun jac =>
          (int64 (n + jac)).bind fun s =>
            (int64_mod s n).bind fun jacobian =>
              (mod_exp a ((n - 1) >>> (1 : Nat)) n).bind fun mod =>
                if jacobian = 0 ∨ mod ≠ jacobian then .ok false
                else is_prime_loop abs_min random n last k (i + 1)

/-- `SolvayStrassen::is_prime` (solvay_strassen.cpp 68-94) on two `int64_t` values.
`while (it--)` runs the body `it` times when `it ≥ 0`; a negative `it` is decremented
until it overflows. -/
def is_prime (abs_min : Int) (random : Nat → Nat) (n it : Int) : Except Error Bool :=
  if n < 2 then .ok false
  else if n = 2 then .ok true
  else if n.tmod 2 = 0 then .ok false
  else if 0 ≤ it then is_prime_loop abs_min random n (.ok true) it.toNat 0
  else is_prime_loop abs_min random n (.error .fault) (it + 9223372036854775808).toNat 0

end SolvayStrassen

/-! ## PKCS7 -/

namespace PKCS7

theorem pad_len_mod (n b : Nat) (hb : 0 < b) : (n + (b - n % b)) % b = 0 := by
  have h := Nat.div_add_mod n b
  have hlt := Nat.mod_lt n hb
  have : n + (b - n % b) = b * (n / b + 1) := by
    rw [Nat.mul_add]; omega
  rw [this]; exact Nat.mul_mod_right _ _

theorem getD_append_replicate_last (x : List Nat) (r v : Nat) (hr : 0 < r) :
    (x ++ List.replicate r v).getD (x.length + r - 1) 0 = v := by
  rw [List.getD_append_right _ _ _ _ (by omega)]
  rw [List.getD_eq_getElem?_getD, List.getElem?_replicate]
  have : x.length + r - 1 - x.length < r := by omega
  simp [this]

theorem copied_length (dest : Dest) (x : List Nat) : (copied dest x).length = x.length := by
  unfold copied
  split
  · rw [List.length_map, List.length_range]
  · rfl

theorem copied_of_not_moved (dest : Dest) (x : List Nat)
    (hd : ∀ freed, dest ≠ .source (.moved freed)) : copied dest x = x := by
  unfold copied
  split
  · exact absurd rfl (hd _)
  · rfl

theorem copied_moved (freed : Nat → Nat) (x : List Nat) :
    copied (.source (.moved freed)) x = (List.range x.length).map (fun i => freed i % 256) :=
  rfl

theorem copied_isBytes (dest : Dest) (x : List Nat) (hx : IsBytes x) :
    IsBytes (copied dest x) := by
  unfold copied
  split
  · intro b hb
    obtain ⟨i, -, rfl⟩ := List.mem_map.mp hb
    exact Nat.mod_lt _ (by decide)
  · exact hx

theorem copied_ne_nil (dest : Dest) (x : List Nat) (hx : x ≠ []) : copied dest x ≠ [] := by
  intro h
  have hl := copied_length dest x
  rw [h] at hl
  exact hx (List.length_eq_zero.mp hl.symm)

theorem pad_eq (dest : Dest) (x : List Nat) (b : Nat) (hx : x ≠ []) (hb1 : 1 ≤ b)
    (hb2 : b ≤ 255) (hlen : x.length + (b - x.length % b) < 4294967296) :
    pad dest x b
      = .ok (copied dest x ++ List.replicate (b - x.length % b) (b - x.length % b)) := by
  have hn : x.length ≠ 0 := by simpa using hx
  have hb0 : b ≠ 0 := by omega
  have hr : (b - x.length % b) % 256 = b - x.length % b := Nat.mod_eq_of_lt (by omega)
  have hm : (x.length + (b - x.length % b)) % U32 = x.length + (b - x.length % b) :=
    Nat.mod_eq_of_lt hlen
  simp only [pad, hn, hb0, if_false, hm, hr, lt_irrefl]

theorem check_padding_append_replicate (x : List Nat) (b : Nat) (hx : x ≠ []) (hb1 : 1 ≤ b) :
    check_padding (x ++ List.replicate (b - x.length % b) (b - x.length % b)) b = .ok false := by
  have hn : x.length ≠ 0 := by simpa using hx
  have hb0 : b ≠ 0 := by omega
  have hlt := Nat.mod_lt x.length (show 0 < b by omega)
  have hr : 0 < b - x.length % b := by omega
  have hl : (x ++ List.replicate (b - x.length % b) (b - x.length % b)).length
      = x.length + (b - x.length % b) := by simp
  have hmod := pad_len_mod x.length b (by omega)
  have hlast := getD_append_replicate_last x (b - x.length % b) (b - x.length % b) hr
  have hne : x.length + (b - x.length % b) ≠ 0 := by omega
  have hnle : ¬ (x.length + (b - x.length % b) ≤ b - x.length % b) := by omega
  have hdrop : (x ++ List.replicate (b - x.length % b) (b - x.length % b)).drop
      (x.length + (b - x.length % b) - (b - x.length % b)) =
      List.replicate (b - x.length % b) (b - x.length % b) := by
    rw [Nat.add_sub_cancel, List.drop_left]
  simp only [check_padding, hl, hne, hb0, if_false, hmod, ne_eq, not_true_eq_false, hlast, hnle,
    hdrop]
  simp

theorem unpad_append_replicate (x : List Nat) (b : Nat) (hx : x ≠ []) (hb1 : 1 ≤ b) :
    unpad (x ++ List.replicate (b - x.length % b) (b - x.length % b)) b = .ok x := by
  have hlt := Nat.mod_lt x.length (show 0 < b by omega)
  have hlast := getD_append_replicate_last x (b - x.length % b) (b - x.length % b) (by omega)
  have hl : (x ++ List.replicate (b - x.length % b) (b - x.length % b)).length
      = x.length + (b - x.length % b) := by simp
  simp only [unpad, check_padding_append_replicate x b hx hb1, hl, hlast, Nat.add_sub_cancel,
    List.take_left]

theorem unpad_pad_copied (dest : Dest) (x : List Nat) (b : Nat) (hx : x ≠ []) (hb1 : 1 ≤ b)
    (hb2 : b ≤ 255) (hlen : x.length + (b - x.length % b) < 4294967296) :
    (pad dest x b).bind (fun y => unpad y b) = .ok (copied dest x) := by
  rw [pad_eq dest x b hx hb1 hb2 hlen]
  have h := unpad_append_replicate (copied dest x) b (copied_ne_nil dest x hx) hb1
  rw [copied_length] at h
  exact h

/-- C3, as amended: for every non-empty buffer `x`, every block size `b` with
`1 ≤ b ≤ 255` whose padded length fits in a `uint32_t`, and every call of `pad` other
than one that is given its source as `dest` and whose `realloc` moves it,
`unpad (pad x b) b` succeeds and returns exactly `x`. -/
theorem unpad_pad (dest : Dest) (x : List Nat) (b : Nat)
    (hd : ∀ freed, dest ≠ .source (.moved freed)) (hx : x ≠ []) (hb1 : 1 ≤ b) (hb2 : b ≤ 255)
    (hlen : x.length + (b - x.length % b) < 4294967296) :
    (pad dest x b).bind (fun y => unpad y b) = .ok x := by
  rw [unpad_pad_copied dest x b hx hb1 hb2 hlen, copied_of_not_moved dest x hd]

theorem unpad_pad_witness :
    (pad .other [104, 101, 108, 108, 111] 16).bind (fun y => unpad y 16)
      = .ok [104, 101, 108, 108, 111]
    ∧ (pad (.source .in_place) [104, 101, 108, 108, 111] 16).bind (fun y => unpad y 16)
      = .ok [104, 101, 108, 108, 111] :=
  ⟨unpad_pad .other [104, 101, 108, 108, 111] 16 (fun _ h => by cases h) (by decide)
      (by decide) (by decide) (by decide),
    unpad_pad (.source .in_place) [104, 101, 108, 108, 111] 16 (fun _ h => by cases h)
      (by decide) (by decide) (by decide) (by decide)⟩

set_option maxRecDepth 100000 in
/-- C3 as stated fails: with block size 300 the pad length 299 is stored in a byte as
43, `unpad` strips 43 bytes and returns 257 bytes instead of the 1-byte input; with
block size 0 `pad` divides by zero.  Both for a `dest` that is not the source. -/
theorem unpad_pad_block_300 :
    (pad .other [1] 300).bind (fun y => unpad y 300) = .ok (1 :: List.replicate 256 43)
    ∧ (pad .other [1] 300).bind (fun y => unpad y 300) ≠ .ok [1]
    ∧ pad .other [1] 0 = .error .fault := by
  decide

/-- The call `pad(pt, pt, 21, 16)` of `aes_test` with a `realloc` that moves the block,
the freed block reading as zeros: `unpad` returns 21 zero bytes, not the message. -/
theorem unpad_pad_moved_example :
    (pad (.source (.moved (fun _ => 0))) aes_test_msg 16).bind (fun y => unpad y 16)
      = .ok (List.replicate 21 0)
    ∧ (pad (.source (.moved (fun _ => 0))) aes_test_msg 16).bind (fun y => unpad y 16)
      ≠ .ok aes_test_msg := by
  decide

/-- C4 on the code: for a non-empty `x` and `1 ≤ b ≤ 255` (padded length within
`uint32_t`), `pad` returns `len x + r` bytes, `r = b - len x mod b`, whose last `r`
bytes have the value `r`; the result is longer than `x` and its length is a multiple
of `b`.  Its first `len x` bytes are `x` when `dest` is not the source or `realloc`
leaves the source in place.  In a call `pad(pt, pt, ..)` whose `realloc` moves the
block they are the bytes of the block that `realloc` has freed, and then the result is
`x` followed by the padding only if the freed block still reads as `x`. -/
theorem pad_spec (dest : Dest) (x : List Nat) (b : Nat) (hx : x ≠ []) (hb1 : 1 ≤ b)
    (hb2 : b ≤ 255) (hlen : x.length + (b - x.length % b) < 4294967296) :
    ∃ y, pad dest x b = .ok y
      ∧ y.take x.length = copied dest x
      ∧ y.drop x.length = List.replicate (b - x.length % b) (b - x.length % b)
      ∧ ((∀ freed, dest ≠ .source (.moved freed)) →
          y = x ++ List.replicate (b - x.length % b) (b - x.length % b))
      ∧ (∀ freed, dest = .source (.moved freed) →
          (y = x ++ List.replicate (b - x.length % b) (b - x.length % b)
            ↔ ∀ i, i < x.length → freed i % 256 = x.getD i 0))
      ∧ 1 ≤ b - x.length % b
      ∧ (x.length % b = 0 → b - x.length % b = b)
      ∧ x.length < y.length
      ∧ y.length % b = 0 := by
  have hlt := Nat.mod_lt x.length (show 0 < b by omega)
  have hcl := copied_length dest x
  refine ⟨_, pad_eq dest x b hx hb1 hb2 hlen, ?_, ?_, fun hd => ?_, fun freed hd => ?_,
    by omega, fun h => by omega, ?_, ?_⟩
  · rw [← hcl, List.take_left]
  · rw [← hcl, List.drop_left]
  · rw [copied_of_not_moved dest x hd]
  · subst hd
    rw [List.append_left_inj, copied_moved]
    constructor
    · intro h i hi
      have h2 := congrArg (fun l => l.getD i 0) h
      simp only [List.getD_eq_getElem?_getD, List.getElem?_map, List.getElem?_range hi,
        Option.map_some', Option.getD_some] at h2
      rw [List.getD_eq_getElem?_getD]
      exact h2
    · intro h
      apply List.ext_getElem
      · rw [List.length_map, List.length_range]
      · intro i h1 h2
        rw [List.getElem_map, List.getElem_range]
        have h3 := h i h2
        rw [List.getD_eq_getElem?_getD, List.getElem?_eq_getElem h2, Option.getD_some] at h3
        exact h3
  · simp only [List.length_append, List.length_replicate, hcl]; omega
  · simp only [List.length_append, List.length_replicate, hcl]
    exact pad_len_mod x.length b (by omega)

set_option maxRecDepth 100000 in
theorem pad_spec_witness :
    pad (.source (.moved (fun _ => 0))) aes_test_msg 16
      = .ok (List.replicate 21 0 ++ List.replicate 11 11)
    ∧ pad (.source (.moved (fun _ => 0))) aes_test_msg 16
      ≠ .ok (aes_test_msg ++ List.replicate 11 11)
    ∧ pad (.source .in_place) aes_test_msg 16 = .ok (aes_test_msg ++ List.replicate 11 11)
    ∧ pad .other aes_test_msg 16 = .ok (aes_test_msg ++ List.replicate 11 11)
    ∧ ∃ y, pad (.source (.moved (fun _ => 0))) aes_test_msg 16 = .ok y
      ∧ y.take aes_test_msg.length = copied (.source (.moved (fun _ => 0))) aes_test_msg
      ∧ y.drop aes_test_msg.length
          = List.replicate (16 - aes_test_msg.length % 16) (16 - aes_test_msg.length % 16)
      ∧ ((∀ freed, Dest.source (.moved (fun _ => 0)) ≠ .source (.moved freed)) →
          y = aes_test_msg
            ++ List.replicate (16 - aes_test_msg.length % 16) (16 - aes_test_msg.length % 16))
      ∧ (∀ freed, Dest.source (.moved (fun _ => 0)) = .source (.moved freed) →
          (y = aes_test_msg
              ++ List.replicate (16 - aes_test_msg.length % 16)
                (16 - aes_test_msg.length % 16)
            ↔ ∀ i, i < aes_test_msg.length → freed i % 256 = aes_test_msg.getD i 0))
      ∧ 1 ≤ 16 - aes_test_msg.length % 16
      ∧ (aes_test_msg.length % 16 = 0 → 16 - aes_test_msg.length % 16 = 16)
      ∧ aes_test_msg.length < y.length
      ∧ y.length % 16 = 0 :=
  ⟨by decide, by decide, by decide, by decide,
    pad_spec (.source (.moved (fun _ => 0))) aes_test_msg 16 (by decide) (by decide)
      (by decide) (by decide)⟩

theorem check_padding_of_length (buffer : List Nat) (block_size : Nat) (hb : 0 < block_size)
    (h : buffer.length % block_size ≠ 0) :
    check_padding buffer block_size = .ok true := by
  have hn : buffer.length ≠ 0 := by
    intro h0; rw [h0] at h; simp at h
  have hb0 : block_size ≠ 0 := by omega
  simp only [check_padding, hn, hb0, if_false, h, ne_eq, not_false_eq_true, if_true]

/-- C5: a buffer whose length is not a multiple of the (positive) block size is flagged
invalid by `check_padding`, whatever its bytes are. -/
theorem check_padding_length (buffer : List Nat) (block_size : Nat) (hb : 0 < block_size)
    (h : buffer.length % block_size ≠ 0) :
    check_padding buffer block_size = .ok true :=
  check_padding_of_length buffer block_size hb h

theorem check_padding_length_witness :
    check_padding [1, 2, 3] 16 = .ok true :=
  check_padding_length [1, 2, 3] 16 (by decide) (by decide)

theorem getLast?_eq_getD (buffer : List Nat) (hne : buffer ≠ []) :
    buffer.getLast? = some (buffer.getD (buffer.length - 1) 0) := by
  have hn : 0 < buffer.length := List.length_pos.mpr hne
  rw [List.getLast?_eq_getElem?, List.getD_eq_getElem?_getD,
    List.getElem?_eq_getElem (by omega)]
  rfl

/-- C6 fails on the code: for every buffer whose length is a positive multiple of the
block size and whose last byte is 0, `check_padding` returns `false` (valid) and `unpad`
returns the whole buffer instead of failing. -/
theorem check_padding_zero_pad_byte (buffer : List Nat) (block_size : Nat)
    (hne : buffer ≠ []) (hb : 0 < block_size) (hal : buffer.length % block_size = 0)
    (hlast : buffer.getLast? = some 0) :
    check_padding buffer block_size = .ok false ∧ unpad buffer block_size = .ok buffer := by
  have hn : buffer.length ≠ 0 := by simpa using hne
  have hb0 : block_size ≠ 0 := by omega
  have hp : buffer.getD (buffer.length - 1) 0 = 0 := by
    have := getLast?_eq_getD buffer hne
    rw [hlast] at this
    simpa using this.symm
  have hc : check_padding buffer block_size = .ok false := by
    simp only [check_padding, hn, hb0, if_false, hal, ne_eq, not_true_eq_false, hp,
      Nat.le_zero, Nat.sub_zero, List.drop_length, List.any_nil, Bool.false_eq_true]
  refine ⟨hc, ?_⟩
  simp only [unpad, hc, hp, Nat.sub_zero, List.take_length]

theorem check_padding_zero_pad_byte_witness :
    check_padding (List.replicate 16 0) 16 = .ok false
    ∧ unpad (List.replicate 16 0) 16 = .ok (List.replicate 16 0) :=
  check_padding_zero_pad_byte (List.replicate 16 0) 16 (by decide) (by decide) (by decide)
    (by decide)

/-- C7: for a non-empty buffer and a positive block size, `unpad` fails with
`invalid_pad` exactly when `check_padding` returns `true`; otherwise it returns the
buffer without its last `p` bytes, `p` being the value of its last byte. -/
theorem unpad_spec (buffer : List Nat) (block_size : Nat) (hne : buffer ≠ [])
    (hb : 0 < block_size) :
    (unpad buffer block_size = .error .invalid_pad ↔ check_padding buffer block_size = .ok true)
    ∧ (check_padding buffer block_size ≠ .ok true →
        ∃ p, buffer.getLast? = some p ∧ p < buffer.length
          ∧ unpad buffer block_size = .ok (buffer.take (buffer.length - p))
          ∧ buffer.take (buffer.length - p) ++ buffer.drop (buffer.length - p) = buffer) := by
  have hn : buffer.length ≠ 0 := by simpa using hne
  have hb0 : block_size ≠ 0 := by omega
  have hlast := getLast?_eq_getD buffer hne
  by_cases h1 : buffer.length % block_size ≠ 0
  · have hc := check_padding_of_length buffer block_size hb h1
    simp [unpad, hc]
  · by_cases h2 : buffer.length ≤ buffer.getD (buffer.length - 1) 0
    · have hc : check_padding buffer block_size = .ok true := by
        simp only [check_padding, hn, hb0, if_false, h1, h2, if_true]
      simp [unpad, hc]
    · by_cases h3 : (buffer.drop (buffer.length - buffer.getD (buffer.length - 1) 0)).any
          (fun x => x != buffer.getD (buffer.length - 1) 0) = true
      · have hc : check_padding buffer block_size = .ok true := by
          simp only [check_padding, hn, hb0, if_false, h1, h2, h3, if_true]
        simp [unpad, hc]
      · have hc : check_padding buffer block_size = .ok false := by
          simp only [check_padding, hn, hb0, if_false, h1, h2, h3]
          simp
        refine ⟨by simp [unpad, hc], fun _ => ⟨_, hlast, by omega, ?_, List.take_append_drop _ _⟩⟩
        simp only [unpad, hc]

theorem unpad_spec_witness :
    (unpad [9, 9, 2, 2] 4 = .error .invalid_pad ↔ check_padding [9, 9, 2, 2] 4 = .ok true)
    ∧ (check_padding [9, 9, 2, 2] 4 ≠ .ok true →
        ∃ p, [9, 9, 2, 2].getLast? = some p ∧ p < [9, 9, 2, 2].length
          ∧ unpad [9, 9, 2, 2] 4 = .ok ([9, 9, 2, 2].take ([9, 9, 2, 2].length - p))
          ∧ [9, 9, 2, 2].take ([9, 9, 2, 2].length - p)
              ++ [9, 9, 2, 2].drop ([9, 9, 2, 2].length - p) = [9, 9, 2, 2]) :=
  unpad_spec [9, 9, 2, 2] 4 (by decide) (by decide)

end PKCS7

/-! ## AES -/

namespace AES

theorem and7_eq_mod (n : Nat) : n &&& 0x07 = n % 8 :=
  Nat.and_pow_two_sub_one_eq_mod n 3

theorem bind_error_fault {α β : Type} (x : Except Error α) (f : α → Except Error β)
    (hx : ∀ e, x = .error e → e = .fault) (hf : ∀ v e, f v = .error e → e = .fault) :
    ∀ e, x.bind f = .error e → e = .fault := by
  intro e h
  cases x with
  | error e' => exact hx e (by simpa [Except.bind] using h)
  | ok v => exact hf v e (by simpa [Except.bind] using h)

theorem for_loop_error_fault {σ α : Type} (f : σ → α → Except Error σ)
    (hf : ∀ s x e, f s x = .error e → e = .fault) (xs : List α) :
    ∀ s e, for_loop f s xs = .error e → e = .fault := by
  induction xs with
  | nil => intro s e h; simp [for_loop] at h
  | cons x xs ih =>
    intro s e h
    exact bind_error_fault (f s x) _ (hf s x) (fun v => ih v) e h

theorem rot_bytes_at_error_fault (mem : List Nat) (off n shift : Nat) (inv : Bool) :
    ∀ e, rot_bytes_at mem off n shift inv = .error e → e = .fault := by
  intro e h
  unfold rot_bytes_at at h
  split_ifs at h
  simp_all

theorem shift_rows_error_fault (mem : List Nat) (inv : Bool) :
    ∀ e, shift_rows mem inv = .error e → e = .fault := by
  unfold shift_rows
  refine bind_error_fault _ _ (rot_bytes_at_error_fault _ _ _ _ _) fun m1 => ?_
  refine bind_error_fault _ _ (rot_bytes_at_error_fault _ _ _ _ _) fun m2 => ?_
  refine bind_error_fault _ _ (rot_bytes_at_error_fault _ _ _ _ _) fun m3 => ?_
  exact rot_bytes_at_error_fault _ _ _ _ _

theorem rijndael_error_fault (adj blk ek : List Nat) (n : Nat) :
    ∀ e, rijndael adj blk ek n = .error e → e = .fault := by
  unfold rijndael
  refine bind_error_fault _ _ (for_loop_error_fault _ (fun s x => ?_) _ _) (fun v e h => ?_)
  · unfold rijndael_round
    exact bind_error_fault _ _ (shift_rows_error_fault _ _) (fun v e h => by cases h)
  · cases h

theorem inv_rijndael_error_fault (adj blk ek : List Nat) (n : Nat) :
    ∀ e, inv_rijndael adj blk ek n = .error e → e = .fault := by
  unfold inv_rijndael
  refine bind_error_fault _ _ (for_loop_error_fault _ (fun s x => ?_) _ _) (fun v e h => ?_)
  · unfold inv_rijndael_round
    exact bind_error_fault _ _ (shift_rows_error_fault _ _) (fun v e h => by cases h)
  · cases h

theorem encrypt_blocks_error_fault (adj : Nat → List Nat) (ek : List Nat) (ekb : Nat) (n : Nat) :
    ∀ i iv buf e, encrypt_blocks adj ek ekb n i iv buf = .error e → e = .fault := by
  induction n with
  | zero => intro i iv buf e h; simp [encrypt_blocks] at h
  | succ n ih =>
    intro i iv buf
    rw [encrypt_blocks]
    refine bind_error_fault _ _ (rijndael_error_fault _ _ _ _) fun ct => ?_
    exact bind_error_fault _ _ (ih _ _ _) (fun v e h => by simp at h)

theorem decrypt_blocks_error_fault (adj : Nat → List Nat) (ek : List Nat) (ekb : Nat) (n : Nat) :
    ∀ i iv buf e, decrypt_blocks adj ek ekb n i iv buf = .error e → e = .fault := by
  induction n with
  | zero => intro i iv buf e h; simp [decrypt_blocks] at h
  | succ n ih =>
    intro i iv buf
    rw [decrypt_blocks]
    refine bind_error_fault _ _ (inv_rijndael_error_fault _ _ _ _) fun ct => ?_
    exact bind_error_fault _ _ (ih _ _ _) (fun v e h => by simp at h)

theorem expand_key_invalid_iff (key : List Nat) :
    expand_key key = .error .invalid_key ↔ (key.length < 16 ∨ key.length % 8 ≠ 0) := by
  unfold expand_key
  simp only [block_size, and7_eq_mod]
  constructor
  · intro h
    by_contra hc
    rw [if_neg hc] at h
    split_ifs at h
    cases h
  · intro h
    rw [if_pos h]

/-- C9: for a non-empty block-aligned buffer, `encrypt` and `decrypt` fail with
`invalid_key` if and only if the key is shorter than 16 bytes or its length is not a
multiple of 8, and `expand_key` applies the same test. -/
theorem invalid_key_iff (adj : Nat → List Nat) (buf key iv : List Nat)
    (hne : buf ≠ []) (hal : buf.length % 16 = 0) :
    (encrypt adj buf key iv = .error .invalid_key ↔ (key.length < 16 ∨ key.length % 8 ≠ 0))
    ∧ (decrypt adj buf key iv = .error .invalid_key ↔ (key.length < 16 ∨ key.length % 8 ≠ 0))
    ∧ (expand_key key = .error .invalid_key ↔ (key.length < 16 ∨ key.length % 8 ≠ 0)) := by
  have hn : buf.length ≠ 0 := by simpa using hne
  refine ⟨?_, ?_, expand_key_invalid_iff key⟩
  · unfold encrypt
    simp only [block_size, and7_eq_mod, hn, hal, if_false, ne_eq, not_true_eq_false]
    constructor
    · intro h
      by_contra hc
      rw [if_neg hc] at h
      have h1 := bind_error_fault (expand_key key) _
        (fun e he => by
          unfold expand_key at he
          simp only [block_size, and7_eq_mod, if_neg hc] at he
          split_ifs at he
          simpa using he.symm)
        (fun ek => encrypt_blocks_error_fault adj ek.1 ek.2 _ _ _ _) _ h
      cases h1
    · intro h
      rw [if_pos h]
  · unfold decrypt
    simp only [block_size, and7_eq_mod, hn, if_false]
    constructor
    · intro h
      by_contra hc
      rw [if_neg hc] at h
      have h1 := bind_error_fault (expand_key key) _
        (fun e he => by
          unfold expand_key at he
          simp only [block_size, and7_eq_mod, if_neg hc] at he
          split_ifs at he
          simpa using he.symm)
        (fun ek => decrypt_blocks_error_fault adj ek.1 ek.2 _ _ _ _) _ h
      cases h1
    · intro h
      rw [if_pos h]

theorem invalid_key_iff_witness :
    (encrypt (fun _ => []) (List.replicate 16 0) (List.replicate 20 0) (List.replicate 16 0)
        = .error .invalid_key ↔
      ((List.replicate 20 0).length < 16 ∨ (List.replicate 20 0).length % 8 ≠ 0))
    ∧ (decrypt (fun _ => []) (List.replicate 16 0) (List.replicate 20 0) (List.replicate 16 0)
        = .error .invalid_key ↔
      ((List.replicate 20 0).length < 16 ∨ (List.replicate 20 0).length % 8 ≠ 0))
    ∧ (expand_key (List.replicate 20 0) = .error .invalid_key ↔
      ((List.replicate 20 0).length < 16 ∨ (List.replicate 20 0).length % 8 ≠ 0)) :=
  invalid_key_iff (fun _ => []) (List.replicate 16 0) (List.replicate 20 0) (List.replicate 16 0)
    (by decide) (by decide)

set_option maxRecDepth 100000 in
/-- The sibling paths on buffers that are not block-aligned: `encrypt` rejects a 1-byte
buffer, `decrypt` returns it, and of a 17-byte buffer `decrypt` returns 17 bytes. -/
theorem decrypt_unaligned_examples :
    decrypt (fun _ => []) [0] (List.replicate 16 0) (List.replicate 16 0) = .ok [0]
    ∧ (decrypt (fun _ => List.replicate 12 0) (List.replicate 17 0) (List.replicate 16 0)
        (List.replicate 16 0)).map List.length = .ok 17
    ∧ encrypt (fun _ => []) [0] (List.replicate 16 0) (List.replicate 16 0)
        = .error .invalid_pad := by
  decide


theorem exists_cons_of_length (m : List Nat) (n : Nat) (h : m.length = n + 1) :
    ∃ a t, m = a :: t ∧ t.length = n := by
  cases m with
  | nil => simp at h
  | cons a t => exact ⟨a, t, rfl, by simpa using h⟩

theorem eq_of_length_16 (m : List Nat) (h : m.length = 16) :
    ∃ a0 a1 a2 a3 a4 a5 a6 a7 a8 a9 a10 a11 a12 a13 a14 a15, m = [a0, a1, a2, a3, a4, a5, a6, a7, a8, a9, a10, a11, a12, a13, a14, a15] := by
  obtain ⟨a0, m0, rfl, h0⟩ := exists_cons_of_length _ _ h
  obtain ⟨a1, m1, rfl, h1⟩ := exists_cons_of_length _ _ h0
  obtain ⟨a2, m2, rfl, h2⟩ := exists_cons_of_length _ _ h1
  obtain ⟨a3, m3, rfl, h3⟩ := exists_cons_of_length _ _ h2
  obtain ⟨a4, m4, rfl, h4⟩ := exists_cons_of_length _ _ h3
  obtain ⟨a5, m5, rfl, h5⟩ := exists_cons_of_length _ _ h4
  obtain ⟨a6, m6, rfl, h6⟩ := exists_cons_of_length _ _ h5
  obtain ⟨a7, m7, rfl, h7⟩ := exists_cons_of_length _ _ h6
  obtain ⟨a8, m8, rfl, h8⟩ := exists_cons_of_length _ _ h7
  obtain ⟨a9, m9, rfl, h9⟩ := exists_cons_of_length _ _ h8
  obtain ⟨a10, m10, rfl, h10⟩ := exists_cons_of_length _ _ h9
  obtain ⟨a11, m11, rfl, h11⟩ := exists_cons_of_length _ _ h10
  obtain ⟨a12, m12, rfl, h12⟩ := exists_cons_of_length _ _ h11
  obtain ⟨a13, m13, rfl, h13⟩ := exists_cons_of_length _ _ h12
  obtain ⟨a14, m14, rfl, h14⟩ := exists_cons_of_length _ _ h13
  obtain ⟨a15, m15, rfl, h15⟩ := exists_cons_of_length _ _ h14
  have := List.length_eq_zero.mp h15
  subst this
  exact ⟨a0, a1, a2, a3, a4, a5, a6, a7, a8, a9, a10, a11, a12, a13, a14, a15, rfl⟩

theorem eq_of_length_ge_12 (m : List Nat) (h : 12 ≤ m.length) :
    ∃ b0 b1 b2 b3 b4 b5 b6 b7 b8 b9 b10 b11 rest, m = b0 :: b1 :: b2 :: b3 :: b4 :: b5 :: b6 :: b7 :: b8 :: b9 :: b10 :: b11 :: rest := by
  obtain ⟨k, hk⟩ : ∃ k, m.length = k + 12 := ⟨m.length - 12, by omega⟩
  clear h
  have h := hk
  clear hk
  obtain ⟨b0, m0, rfl, h0⟩ := exists_cons_of_length _ _ h
  obtain ⟨b1, m1, rfl, h1⟩ := exists_cons_of_length _ _ h0
  obtain ⟨b2, m2, rfl, h2⟩ := exists_cons_of_length _ _ h1
  obtain ⟨b3, m3, rfl, h3⟩ := exists_cons_of_length _ _ h2
  obtain ⟨b4, m4, rfl, h4⟩ := exists_cons_of_length _ _ h3
  obtain ⟨b5, m5, rfl, h5⟩ := exists_cons_of_length _ _ h4
  obtain ⟨b6, m6, rfl, h6⟩ := exists_cons_of_length _ _ h5
  obtain ⟨b7, m7, rfl, h7⟩ := exists_cons_of_length _ _ h6
  obtain ⟨b8, m8, rfl, h8⟩ := exists_cons_of_length _ _ h7
  obtain ⟨b9, m9, rfl, h9⟩ := exists_cons_of_length _ _ h8
  obtain ⟨b10, m10, rfl, h10⟩ := exists_cons_of_length _ _ h9
  obtain ⟨b11, m11, rfl, h11⟩ := exists_cons_of_length _ _ h10
  exact ⟨b0, b1, b2, b3, b4, b5, b6, b7, b8, b9, b10, b11, m11, rfl⟩

theorem shift_rows_cons (a0 a1 a2 a3 a4 a5 a6 a7 a8 a9 a10 a11 a12 a13 a14 a15 b0 b1 b2 b3 b4 b5 b6 b7 b8 b9 b10 b11 : Nat) (rest : List Nat) :
    shift_rows ([a0, a1, a2, a3, a4, a5, a6, a7, a8, a9, a10, a11, a12, a13, a14, a15] ++ b0 :: b1 :: b2 :: b3 :: b4 :: b5 :: b6 :: b7 :: b8 :: b9 :: b10 :: b11 :: rest) false
      = .ok ([a0, a1, a2, a3, a5, a6, a7, a4, a8, a9, a10, a11, a14, a15, a12, a13] ++ b0 :: b1 :: b2 :: b3 :: b4 :: b5 :: b6 :: b7 :: b11 :: b8 :: b9 :: b10 :: rest)
    ∧ shift_rows ([a0, a1, a2, a3, a4, a5, a6, a7, a8, a9, a10, a11, a12, a13, a14, a15] ++ b0 :: b1 :: b2 :: b3 :: b4 :: b5 :: b6 :: b7 :: b8 :: b9 :: b10 :: b11 :: rest) true
      = .ok ([a0, a1, a2, a3, a7, a4, a5, a6, a8, a9, a10, a11, a14, a15, a12, a13] ++ b0 :: b1 :: b2 :: b3 :: b4 :: b5 :: b6 :: b7 :: b9 :: b10 :: b11 :: b8 :: rest) := by
  constructor <;> simp_arith [shift_rows, rot_bytes_at, rot_bytes, Except.bind]

theorem shift_rows_state_cons (a0 a1 a2 a3 a4 a5 a6 a7 a8 a9 a10 a11 a12 a13 a14 a15 : Nat) :
    shift_rows_state [a0, a1, a2, a3, a4, a5, a6, a7, a8, a9, a10, a11, a12, a13, a14, a15] false = [a0, a1, a2, a3, a5, a6, a7, a4, a8, a9, a10, a11, a14, a15, a12, a13]
    ∧ shift_rows_state [a0, a1, a2, a3, a4, a5, a6, a7, a8, a9, a10, a11, a12, a13, a14, a15] true = [a0, a1, a2, a3, a7, a4, a5, a6, a8, a9, a10, a11, a14, a15, a12, a13] := by
  have h := shift_rows_cons a0 a1 a2 a3 a4 a5 a6 a7 a8 a9 a10 a11 a12 a13 a14 a15 0 0 0 0 0 0 0 0 0 0 0 0 []
  constructor
  · simp only [shift_rows_state, List.replicate, h.1]
    rfl
  · simp only [shift_rows_state, List.replicate, h.2]
    rfl

theorem shift_rows_append (m adj : List Nat) (inv : Bool) (hm : m.length = 16)
    (hadj : 12 ≤ adj.length) :
    ∃ adj', shift_rows (m ++ adj) inv = .ok (shift_rows_state m inv ++ adj')
      ∧ adj'.length = adj.length := by
  obtain ⟨a0, a1, a2, a3, a4, a5, a6, a7, a8, a9, a10, a11, a12, a13, a14, a15, rfl⟩ := eq_of_length_16 m hm
  obtain ⟨b0, b1, b2, b3, b4, b5, b6, b7, b8, b9, b10, b11, rest, rfl⟩ := eq_of_length_ge_12 adj hadj
  have h := shift_rows_cons a0 a1 a2 a3 a4 a5 a6 a7 a8 a9 a10 a11 a12 a13 a14 a15 b0 b1 b2 b3 b4 b5 b6 b7 b8 b9 b10 b11 rest
  have hs := shift_rows_state_cons a0 a1 a2 a3 a4 a5 a6 a7 a8 a9 a10 a11 a12 a13 a14 a15
  cases inv
  · rw [h.1, hs.1]; exact ⟨_, rfl, rfl⟩
  · rw [h.2, hs.2]; exact ⟨_, rfl, rfl⟩

theorem shift_rows_state_length (m : List Nat) (inv : Bool) (hm : m.length = 16) :
    (shift_rows_state m inv).length = 16 := by
  obtain ⟨a0, a1, a2, a3, a4, a5, a6, a7, a8, a9, a10, a11, a12, a13, a14, a15, rfl⟩ := eq_of_length_16 m hm
  have hs := shift_rows_state_cons a0 a1 a2 a3 a4 a5 a6 a7 a8 a9 a10 a11 a12 a13 a14 a15
  cases inv
  · rw [hs.1]; rfl
  · rw [hs.2]; rfl

theorem shift_rows_state_inv (m : List Nat) (hm : m.length = 16) :
    shift_rows_state (shift_rows_state m false) true = m := by
  obtain ⟨a0, a1, a2, a3, a4, a5, a6, a7, a8, a9, a10, a11, a12, a13, a14, a15, rfl⟩ := eq_of_length_16 m hm
  rw [(shift_rows_state_cons a0 a1 a2 a3 a4 a5 a6 a7 a8 a9 a10 a11 a12 a13 a14 a15).1,
    (shift_rows_state_cons a0 a1 a2 a3 a5 a6 a7 a4 a8 a9 a10 a11 a14 a15 a12 a13).2]

theorem shift_rows_state_isBytes (m : List Nat) (inv : Bool) (hm : m.length = 16)
    (hb : IsBytes m) : IsBytes (shift_rows_state m inv) := by
  obtain ⟨a0, a1, a2, a3, a4, a5, a6, a7, a8, a9, a10, a11, a12, a13, a14, a15, rfl⟩ := eq_of_length_16 m hm
  have hs := shift_rows_state_cons a0 a1 a2 a3 a4 a5 a6 a7 a8 a9 a10 a11 a12 a13 a14 a15
  intro x hx
  apply hb
  cases inv
  · rw [hs.1] at hx
    simp only [List.mem_cons, List.mem_singleton, List.not_mem_nil, or_false] at hx
    rcases hx with rfl | rfl | rfl | rfl | rfl | rfl | rfl | rfl | rfl | rfl | rfl | rfl | rfl | rfl | rfl | rfl <;> simp
  · rw [hs.2] at hx
    simp only [List.mem_cons, List.mem_singleton, List.not_mem_nil, or_false] at hx
    rcases hx with rfl | rfl | rfl | rfl | rfl | rfl | rfl | rfl | rfl | rfl | rfl | rfl | rfl | rfl | rfl | rfl <;> simp

theorem transpose_length (b : List Nat) : (transpose b).length = 16 := by
  simp [transpose]

theorem transpose_transpose (m : List Nat) (hm : m.length = 16) :
    transpose (transpose m) = m := by
  obtain ⟨a0, a1, a2, a3, a4, a5, a6, a7, a8, a9, a10, a11, a12, a13, a14, a15, rfl⟩ := eq_of_length_16 m hm
  rfl

theorem transpose_isBytes (m : List Nat) (hm : m.length = 16) (hb : IsBytes m) :
    IsBytes (transpose m) := by
  obtain ⟨a0, a1, a2, a3, a4, a5, a6, a7, a8, a9, a10, a11, a12, a13, a14, a15, rfl⟩ := eq_of_length_16 m hm
  intro x hx
  apply hb
  have ht : transpose [a0, a1, a2, a3, a4, a5, a6, a7, a8, a9, a10, a11, a12, a13, a14, a15]
      = [a0, a4, a8, a12, a1, a5, a9, a13, a2, a6, a10, a14, a3, a7, a11, a15] := rfl
  rw [ht] at hx
  simp only [List.mem_cons, List.mem_singleton, List.not_mem_nil, or_false] at hx
  rcases hx with rfl | rfl | rfl | rfl | rfl | rfl | rfl | rfl | rfl | rfl | rfl | rfl | rfl | rfl | rfl | rfl <;> simp


set_option maxRecDepth 100000 in
theorem sbox_mem_lt : ∀ x ∈ sbox, x < 256 := by decide

set_option maxRecDepth 100000 in
theorem inv_sbox_mem_lt : ∀ x ∈ inv_sbox, x < 256 := by decide

theorem getD_lt (l : List Nat) (hl : ∀ x ∈ l, x < 256) (i : Nat) : l.getD i 0 < 256 := by
  rw [List.getD_eq_getElem?_getD]
  cases h : l[i]? with
  | none => simp
  | some v => simpa using hl v (List.getElem?_mem h)

set_option maxRecDepth 100000 in
theorem inv_sbox_sbox : ∀ b, b < 256 → inv_sbox.getD (sbox.getD b 0) 0 = b := by decide

theorem substitute_bytes_isBytes (bytes : List Nat) (inv : Bool) :
    IsBytes (substitute_bytes bytes inv) := by
  intro x hx
  simp only [substitute_bytes, List.mem_map] at hx
  obtain ⟨b, -, rfl⟩ := hx
  cases inv
  · simpa using getD_lt sbox sbox_mem_lt b
  · simpa using getD_lt inv_sbox inv_sbox_mem_lt b

theorem substitute_bytes_length (bytes : List Nat) (inv : Bool) :
    (substitute_bytes bytes inv).length = bytes.length := by
  simp [substitute_bytes]

theorem substitute_bytes_inv (bytes : List Nat) (hb : IsBytes bytes) :
    substitute_bytes (substitute_bytes bytes false) true = bytes := by
  simp only [substitute_bytes, List.map_map]
  conv_rhs => rw [← List.map_id bytes]
  apply List.map_congr_left
  intro b hb'
  simpa using inv_sbox_sbox b (hb b hb')

theorem xor_bufs_length (a b : List Nat) (h : a.length = b.length) :
    (xor_bufs a b).length = a.length := by
  induction a generalizing b with
  | nil => cases b <;> simp_all [xor_bufs]
  | cons x a ih =>
    cases b with
    | nil => simp at h
    | cons y b =>
      simp only [xor_bufs, List.length_cons]
      rw [ih b (by simpa using h)]

theorem xor_bufs_isBytes (a b : List Nat) (ha : IsBytes a) (hb : IsBytes b) :
    IsBytes (xor_bufs a b) := by
  induction a generalizing b with
  | nil => cases b <;> simpa [xor_bufs] using hb
  | cons x a ih =>
    cases b with
    | nil => simpa [xor_bufs] using ha
    | cons y b =>
      intro z hz
      simp only [xor_bufs, List.mem_cons] at hz
      rcases hz with rfl | hz
      · exact Nat.xor_lt_two_pow (n := 8) (ha x (List.mem_cons_self _ _))
          (hb y (List.mem_cons_self _ _))
      · exact ih b (fun w hw => ha w (List.mem_cons_of_mem _ hw))
          (fun w hw => hb w (List.mem_cons_of_mem _ hw)) z hz

theorem xor_bufs_cancel (a b : List Nat) (h : a.length = b.length) :
    xor_bufs (xor_bufs a b) b = a := by
  induction a generalizing b with
  | nil => cases b <;> simp_all [xor_bufs]
  | cons x a ih =>
    cases b with
    | nil => simp at h
    | cons y b =>
      simp only [xor_bufs]
      rw [ih b (by simpa using h), Nat.xor_assoc, Nat.xor_self, Nat.xor_zero]

theorem mix_columns_eq (block : List Nat) (inv : Bool) : mix_columns block inv = block := by
  simp [mix_columns, List.range, List.range.loop]

theorem get_round_key_length (ek : List Nat) (off : Nat) : (get_round_key ek off).length = 16 := by
  simp [get_round_key]

theorem get_round_key_isBytes (ek : List Nat) (off : Nat) (hek : IsBytes ek) :
    IsBytes (get_round_key ek off) := by
  intro x hx
  simp only [get_round_key, List.mem_map] at hx
  obtain ⟨m, -, rfl⟩ := hx
  exact getD_lt ek hek _

theorem on_state_append (f : List Nat → List Nat) (m adj : List Nat) (hm : m.length = 16) :
    on_state f (m ++ adj) = f m ++ adj := by
  unfold on_state
  rw [List.take_left' hm, List.drop_left' hm]

theorem round_state_length (ek : List Nat) (n : Nat) (m : List Nat) (r : Nat)
    (hm : m.length = 16) : (round_state ek n m r).length = 16 := by
  unfold round_state add_round_key
  simp only [mix_columns_eq, ite_self]
  rw [xor_bufs_length _ _ (by
    rw [get_round_key_length, shift_rows_state_length _ _ (by rw [substitute_bytes_length, hm])])]
  exact shift_rows_state_length _ _ (by rw [substitute_bytes_length, hm])

theorem round_state_isBytes (ek : List Nat) (n : Nat) (m : List Nat) (r : Nat)
    (hm : m.length = 16) (hek : IsBytes ek) : IsBytes (round_state ek n m r) := by
  unfold round_state add_round_key
  simp only [mix_columns_eq, ite_self]
  exact xor_bufs_isBytes _ _
    (shift_rows_state_isBytes _ _ (by rw [substitute_bytes_length, hm])
      (substitute_bytes_isBytes _ _))
    (get_round_key_isBytes _ _ hek)

theorem inv_round_state_round_state (ek : List Nat) (n : Nat) (m : List Nat) (r : Nat)
    (hr : r < n) (hm : m.length = 16) (hb : IsBytes m) :
    inv_round_state ek n (round_state ek n m r) (n - 1 - r) = m := by
  unfold inv_round_state round_state add_round_key
  simp only [mix_columns_eq, ite_self]
  have hidx : n - (n - 1 - r) = r + 1 := by omega
  have hl : (shift_rows_state (substitute_bytes m false) false).length = 16 :=
    shift_rows_state_length _ _ (by rw [substitute_bytes_length, hm])
  rw [hidx, xor_bufs_cancel _ _ (by rw [hl, get_round_key_length]),
    shift_rows_state_inv _ (by rw [substitute_bytes_length, hm]), substitute_bytes_inv _ hb]

theorem rijndael_round_append (ek : List Nat) (n : Nat) (m adj : List Nat) (r : Nat)
    (hm : m.length = 16) (hadj : 12 ≤ adj.length) :
    ∃ adj', rijndael_round ek n (m ++ adj) r = .ok (round_state ek n m r ++ adj')
      ∧ adj'.length = adj.length := by
  unfold rijndael_round round_state
  simp only [on_state_append _ _ _ hm]
  obtain ⟨adj', h1, h2⟩ := shift_rows_append (substitute_bytes m false) adj false
    (by rw [substitute_bytes_length, hm]) hadj
  have hl := shift_rows_state_length (substitute_bytes m false) false
    (by rw [substitute_bytes_length, hm])
  refine ⟨adj', ?_, h2⟩
  rw [h1]
  simp only [Except.bind, mix_columns_eq, ite_self, on_state_append _ _ _ hl,
    on_state_append (fun m => m) _ _ hl]

theorem inv_rijndael_round_append (ek : List Nat) (n : Nat) (m adj : List Nat) (r : Nat)
    (hm : m.length = 16) (hadj : 12 ≤ adj.length) :
    ∃ adj', inv_rijndael_round ek n (m ++ adj) r = .ok (inv_round_state ek n m r ++ adj')
      ∧ adj'.length = adj.length := by
  unfold inv_rijndael_round inv_round_state
  have hl1 : (add_round_key (get_round_key ek ((n - r) * block_size)) m).length = 16 := by
    unfold add_round_key
    rw [xor_bufs_length _ _ (by rw [hm, get_round_key_length]), hm]
  simp only [on_state_append _ _ _ hm, mix_columns_eq, ite_self, on_state_append _ _ _ hl1]
  obtain ⟨adj', h1, h2⟩ := shift_rows_append _ adj true hl1 hadj
  have hl := shift_rows_state_length _ true hl1
  refine ⟨adj', ?_, h2⟩
  rw [h1]
  simp only [Except.bind, on_state_append _ _ _ hl]


theorem for_loop_rijndael_round (ek : List Nat) (n : Nat) (rs : List Nat) :
    ∀ m adj : List Nat, m.length = 16 → 12 ≤ adj.length →
      ∃ adj', for_loop (rijndael_round ek n) (m ++ adj) rs
          = .ok (rs.foldl (round_state ek n) m ++ adj')
        ∧ adj'.length = adj.length := by
  induction rs with
  | nil => intro m adj _ _; exact ⟨adj, rfl, rfl⟩
  | cons r rs ih =>
    intro m adj hm hadj
    obtain ⟨adj1, h1, hl1⟩ := rijndael_round_append ek n m adj r hm hadj
    obtain ⟨adj2, h2, hl2⟩ := ih (round_state ek n m r) adj1
      (round_state_length ek n m r hm) (by omega)
    refine ⟨adj2, ?_, by omega⟩
    simp only [for_loop, h1, Except.bind, h2, List.foldl_cons]

theorem for_loop_inv_rijndael_round (ek : List Nat) (n : Nat) (rs : List Nat) :
    ∀ m adj : List Nat, m.length = 16 → 12 ≤ adj.length →
      ∃ adj', for_loop (inv_rijndael_round ek n) (m ++ adj) rs
          = .ok (rs.foldl (inv_round_state ek n) m ++ adj')
        ∧ adj'.length = adj.length := by
  induction rs with
  | nil => intro m adj _ _; exact ⟨adj, rfl, rfl⟩
  | cons r rs ih =>
    intro m adj hm hadj
    obtain ⟨adj1, h1, hl1⟩ := inv_rijndael_round_append ek n m adj r hm hadj
    have hl : (inv_round_state ek n m r).length = 16 := by
      unfold inv_round_state add_round_key
      simp only [mix_columns_eq, ite_self]
      rw [substitute_bytes_length]
      exact shift_rows_state_length _ _ (by
        rw [xor_bufs_length _ _ (by rw [hm, get_round_key_length]), hm])
    obtain ⟨adj2, h2, hl2⟩ := ih (inv_round_state ek n m r) adj1 hl (by omega)
    refine ⟨adj2, ?_, by omega⟩
    simp only [for_loop, h1, Except.bind, h2, List.foldl_cons]

theorem foldl_round_state_length (ek : List Nat) (n : Nat) (rs : List Nat) :
    ∀ m : List Nat, m.length = 16 → (rs.foldl (round_state ek n) m).length = 16 := by
  induction rs with
  | nil => intro m hm; exact hm
  | cons r rs ih => intro m hm; exact ih _ (round_state_length ek n m r hm)

theorem foldl_round_state_isBytes (ek : List Nat) (n : Nat) (hek : IsBytes ek) (rs : List Nat) :
    ∀ m : List Nat, m.length = 16 → IsBytes m → IsBytes (rs.foldl (round_state ek n) m) := by
  induction rs with
  | nil => intro m _ hb; exact hb
  | cons r rs ih =>
    intro m hm _
    exact ih _ (round_state_length ek n m r hm) (round_state_isBytes ek n m r hm hek)

theorem foldl_inv_round_state (ek : List Nat) (n : Nat) (hek : IsBytes ek) (k : Nat) :
    k ≤ n → ∀ m : List Nat, m.length = 16 → IsBytes m →
      (List.range' (n - k) k).foldl (inv_round_state ek n)
        ((List.range k).foldl (round_state ek n) m) = m := by
  induction k with
  | zero => intro _ m _ _; rfl
  | succ k ih =>
    intro hk m hm hb
    have hlen := foldl_round_state_length ek n (List.range k) m hm
    have hbytes := foldl_round_state_isBytes ek n hek (List.range k) m hm hb
    rw [List.range_succ, List.foldl_append, List.foldl_cons, List.foldl_nil, List.range'_succ,
      List.foldl_cons]
    have h1 : n - (k + 1) = n - 1 - k := by omega
    have h2 : n - (k + 1) + 1 = n - k := by omega
    rw [h2, h1, inv_round_state_round_state ek n _ k (by omega) hlen hbytes]
    exact ih (by omega) m hm hb

theorem rijndael_eq (adj blk ek : List Nat) (ekb N : Nat)
    (hN : ((ekb >>> 4) + U32 - 1) % U32 = N) (hadj : 12 ≤ adj.length) :
    rijndael adj blk ek ekb = .ok (transpose
      ((List.range N).foldl (round_state ek N)
        (add_round_key (get_round_key ek 0) (transpose blk)))) := by
  unfold rijndael
  simp only [hN]
  have hl : (add_round_key (get_round_key ek 0) (transpose blk)).length = 16 := by
    unfold add_round_key
    rw [xor_bufs_length _ _ (by rw [transpose_length, get_round_key_length]), transpose_length]
  obtain ⟨adj', h, -⟩ := for_loop_rijndael_round ek N (List.range N) _ adj hl hadj
  have hl2 := foldl_round_state_length ek N (List.range N) _ hl
  rw [h]
  show Except.ok (transpose (List.take 16 _)) = _
  rw [List.take_left' hl2]

theorem inv_round_state_length (ek : List Nat) (n : Nat) (m : List Nat) (r : Nat)
    (hm : m.length = 16) : (inv_round_state ek n m r).length = 16 := by
  unfold inv_round_state add_round_key
  simp only [mix_columns_eq, ite_self]
  rw [substitute_bytes_length]
  exact shift_rows_state_length _ _ (by
    rw [xor_bufs_length _ _ (by rw [hm, get_round_key_length]), hm])

theorem foldl_inv_round_state_length (ek : List Nat) (n : Nat) (rs : List Nat) :
    ∀ m : List Nat, m.length = 16 → (rs.foldl (inv_round_state ek n) m).length = 16 := by
  induction rs with
  | nil => intro m hm; exact hm
  | cons r rs ih => intro m hm; exact ih _ (inv_round_state_length ek n m r hm)

theorem inv_rijndael_eq (adj blk ek : List Nat) (ekb N : Nat)
    (hN : ((ekb >>> 4) + U32 - 1) % U32 = N) (hadj : 12 ≤ adj.length) :
    inv_rijndael adj blk ek ekb = .ok (transpose (add_round_key (get_round_key ek 0)
      ((List.range N).foldl (inv_round_state ek N) (transpose blk)))) := by
  unfold inv_rijndael
  simp only [hN]
  obtain ⟨adj', h, -⟩ := for_loop_inv_rijndael_round ek N (List.range N) _ adj
    (transpose_length blk) hadj
  have hl2 := foldl_inv_round_state_length ek N (List.range N) _ (transpose_length blk)
  rw [h]
  show Except.ok (transpose (add_round_key _ (List.take 16 _))) = _
  rw [List.take_left' hl2]

/-- One block: when the twelve bytes behind the state array are addressable in both
calls, `inv_rijndael` undoes `rijndael` on every block of 16 bytes. -/
theorem inv_rijndael_rijndael (adjE adjD blk ek : List Nat) (ekb : Nat)
    (hE : 12 ≤ adjE.length) (hD : 12 ≤ adjD.length) (hblk : blk.length = 16)
    (hb : IsBytes blk) (hek : IsBytes ek) :
    ∃ ct, rijndael adjE blk ek ekb = .ok ct ∧ ct.length = 16 ∧ IsBytes ct
      ∧ inv_rijndael adjD ct ek ekb = .ok blk := by
  obtain ⟨N, hN⟩ : ∃ N, ((ekb >>> 4) + U32 - 1) % U32 = N := ⟨_, rfl⟩
  have hm0l : (add_round_key (get_round_key ek 0) (transpose blk)).length = 16 := by
    unfold add_round_key
    rw [xor_bufs_length _ _ (by rw [transpose_length, get_round_key_length]), transpose_length]
  have hm0b : IsBytes (add_round_key (get_round_key ek 0) (transpose blk)) :=
    xor_bufs_isBytes _ _ (transpose_isBytes blk hblk hb) (get_round_key_isBytes ek 0 hek)
  have hEl := foldl_round_state_length ek N (List.range N) _ hm0l
  have hEb := foldl_round_state_isBytes ek N hek (List.range N) _ hm0l hm0b
  refine ⟨_, rijndael_eq adjE blk ek ekb N hN hE, transpose_length _,
    transpose_isBytes _ hEl hEb, ?_⟩
  rw [inv_rijndael_eq _ _ _ _ N hN hD, transpose_transpose _ hEl]
  have hfold := foldl_inv_round_state ek N hek N (le_refl _) _ hm0l hm0b
  rw [Nat.sub_self, ← List.range_eq_range'] at hfold
  rw [hfold]
  unfold add_round_key
  rw [xor_bufs_cancel _ _ (by rw [transpose_length, get_round_key_length]),
    transpose_transpose _ hblk]


theorem isBytes_append (a b : List Nat) (ha : IsBytes a) (hb : IsBytes b) : IsBytes (a ++ b) := by
  intro x hx
  rcases List.mem_append.mp hx with h | h
  · exact ha x h
  · exact hb x h

theorem isBytes_take (a : List Nat) (n : Nat) (ha : IsBytes a) : IsBytes (a.take n) :=
  fun x hx => ha x (List.mem_of_mem_take hx)

theorem isBytes_drop (a : List Nat) (n : Nat) (ha : IsBytes a) : IsBytes (a.drop n) :=
  fun x hx => ha x (List.mem_of_mem_drop hx)

theorem rot_bytes_isBytes (a : List Nat) (shift : Nat) (inv : Bool) (ha : IsBytes a) :
    IsBytes (rot_bytes a shift inv) := by
  unfold rot_bytes
  simp only
  split_ifs <;>
    first
    | exact ha
    | exact isBytes_append _ _ (isBytes_drop _ _ ha) (isBytes_take _ _ ha)

theorem rcon_isBytes : ∀ row ∈ rcon, IsBytes row := by decide

theorem rcon_getD_isBytes (i : Nat) : IsBytes (rcon.getD i []) := by
  rw [List.getD_eq_getElem?_getD]
  cases h : rcon[i]? with
  | none => intro x hx; simp at hx
  | some row => simpa using rcon_isBytes row (List.getElem?_mem h)

theorem expand_key_word_isBytes (key w : List Nat) (n_words i : Nat) (hk : IsBytes key)
    (hw : IsBytes w) : IsBytes (expand_key_word key w n_words i) := by
  unfold expand_key_word
  simp only
  split_ifs
  · exact isBytes_take _ _ (isBytes_drop _ _ hk)
  · exact xor_bufs_isBytes _ _
      (xor_bufs_isBytes _ _ (substitute_bytes_isBytes _ _)
        (isBytes_take _ _ (isBytes_drop _ _ hw)))
      (rcon_getD_isBytes _)
  · exact xor_bufs_isBytes _ _ (substitute_bytes_isBytes _ _)
      (isBytes_take _ _ (isBytes_drop _ _ hw))
  · exact xor_bufs_isBytes _ _ (isBytes_take _ _ (isBytes_drop _ _ hw))
      (isBytes_take _ _ (isBytes_drop _ _ hw))

theorem expand_key_loop_isBytes (key : List Nat) (n_words : Nat) (hk : IsBytes key)
    (rs : List Nat) : ∀ w, IsBytes w →
      IsBytes (rs.foldl (fun w i => w ++ expand_key_word key w n_words i) w) := by
  induction rs with
  | nil => intro w hw; exact hw
  | cons r rs ih =>
    intro w hw
    exact ih _ (isBytes_append _ _ hw (expand_key_word_isBytes key w n_words r hk hw))

theorem expand_key_isBytes (key : List Nat) (ek : List Nat × Nat) (hk : IsBytes key)
    (h : expand_key key = .ok ek) : IsBytes ek.1 := by
  unfold expand_key at h
  simp only at h
  split_ifs at h
  simp only [Except.ok.injEq] at h
  rw [← h]
  exact expand_key_loop_isBytes key _ hk _ [] (fun x hx => by simp at hx)

theorem expand_key_ok (key : List Nat)
    (hk : key.length = 16 ∨ key.length = 24 ∨ key.length = 32) :
    ∃ ek, expand_key key = .ok ek := by
  unfold expand_key
  rcases hk with h | h | h <;> rw [h] <;> exact ⟨_, rfl⟩

theorem decrypt_blocks_encrypt_blocks (adjE adjD : Nat → List Nat) (ek : List Nat) (ekb : Nat)
    (hE : ∀ i, 12 ≤ (adjE i).length) (hD : ∀ i, 12 ≤ (adjD i).length) (hek : IsBytes ek)
    (n : Nat) : ∀ (i j : Nat) (iv buf : List Nat), iv.length = 16 → IsBytes iv →
      buf.length = 16 * n → IsBytes buf →
      ∃ ct, encrypt_blocks adjE ek ekb n i iv buf = .ok ct ∧ ct.length = buf.length
        ∧ IsBytes ct ∧ decrypt_blocks adjD ek ekb n j iv ct = .ok buf := by
  induction n with
  | zero =>
    intro i j iv buf _ _ hlen
    intro hb
    exact ⟨buf, rfl, rfl, hb, rfl⟩
  | succ n ih =>
    intro i j iv buf hiv hivb hlen hbuf
    have htake : (buf.take 16).length = 16 := by rw [List.length_take]; omega
    have hdrop : (buf.drop 16).length = 16 * n := by rw [List.length_drop]; omega
    have hxl : (xor_bufs (buf.take 16) iv).length = 16 := by
      rw [xor_bufs_length _ _ (by rw [htake, hiv]), htake]
    have hxb : IsBytes (xor_bufs (buf.take 16) iv) :=
      xor_bufs_isBytes _ _ (isBytes_take _ _ hbuf) hivb
    obtain ⟨c0, hc0, hc0l, hc0b, hinv⟩ := inv_rijndael_rijndael (adjE i) (adjD j)
      (xor_bufs (buf.take 16) iv) ek ekb (hE i) (hD j) hxl hxb hek
    obtain ⟨cr, hcr, hcrl, hcrb, hdec⟩ := ih (i + 1) (j + 1) c0 (buf.drop 16) hc0l hc0b hdrop
      (isBytes_drop _ _ hbuf)
    refine ⟨c0 ++ cr, ?_, ?_, isBytes_append _ _ hc0b hcrb, ?_⟩
    · rw [encrypt_blocks, hc0]
      simp only [Except.bind, hcr]
    · rw [List.length_append, hc0l, hcrl, hdrop, hlen]; omega
    · rw [decrypt_blocks, List.take_left' hc0l, List.drop_left' hc0l, hinv]
      simp only [Except.bind, hdec]
      rw [xor_bufs_cancel _ _ (by rw [htake, hiv]), List.take_append_drop]

/-- The data flow of CBC: when, in every call of `rijndael` and `inv_rijndael`, the
twelve bytes behind the 16-byte state array are addressable memory, `decrypt` returns
the plaintext that `encrypt` was given, for keys of 16, 24 or 32 bytes, a 16-byte IV and
a plaintext whose length is a positive multiple of 16. -/
theorem decrypt_encrypt_of_addressable (adjE adjD : Nat → List Nat) (pt key iv : List Nat)
    (hE : ∀ i, 12 ≤ (adjE i).length) (hD : ∀ i, 12 ≤ (adjD i).length)
    (hkey : key.length = 16 ∨ key.length = 24 ∨ key.length = 32) (hkb : IsBytes key)
    (hiv : iv.length = 16) (hivb : IsBytes iv)
    (hpt0 : pt ≠ []) (hpt : pt.length % 16 = 0) (hptb : IsBytes pt) :
    ∃ ct, encrypt adjE pt key iv = .ok ct ∧ ct.length = pt.length ∧ IsBytes ct
      ∧ decrypt adjD ct key iv = .ok pt := by
  have hn : pt.length ≠ 0 := by simpa using hpt0
  have hkv : ¬ (key.length < block_size ∨ key.length &&& 0x07 ≠ 0) := by
    rw [and7_eq_mod]
    unfold block_size
    omega
  obtain ⟨ek, hek⟩ := expand_key_ok key hkey
  have hekb := expand_key_isBytes key ek hkb hek
  have hivt : iv.take 16 = iv := List.take_of_length_le (by omega)
  obtain ⟨ct, hct, hctl, hctb, hdec⟩ := decrypt_blocks_encrypt_blocks adjE adjD ek.1 ek.2 hE hD hekb
    (pt.length / 16) 0 0 iv pt hiv hivb (by omega) hptb
  have hal : ¬ (pt.length % block_size ≠ 0) := by
    unfold block_size; omega
  refine ⟨ct, ?_, hctl, hctb, ?_⟩
  · simp only [encrypt]
    rw [if_neg hn, if_neg hal, if_neg hkv, hek]
    simp only [Except.bind, hivt, block_size]
    exact hct
  · have hctn : ct.length ≠ 0 := by omega
    simp only [decrypt]
    rw [if_neg hctn, if_neg hkv, hek]
    simp only [Except.bind, hivt, block_size, hctl]
    exact hdec


/-- On a state array of exactly 16 bytes `shift_rows` leaves the array, in both
directions: its last rotation acts on the bytes at offsets 24 to 27. -/
theorem shift_rows_of_length_16 (mem : List Nat) (inv : Bool) (h : mem.length = 16) :
    shift_rows mem inv = .error .fault := by
  obtain ⟨a0, a1, a2, a3, a4, a5, a6, a7, a8, a9, a10, a11, a12, a13, a14, a15, rfl⟩ := eq_of_length_16 mem h
  cases inv <;> simp [shift_rows, rot_bytes_at, rot_bytes, Except.bind]

theorem for_loop_cons_error {σ α : Type} (f : σ → α → Except Error σ) (s : σ) (x : α)
    (xs : List α) (e : Error) (h : f s x = .error e) : for_loop f s (x :: xs) = .error e := by
  simp only [for_loop, h, Except.bind]

theorem rijndael_of_no_adjacent (blk ek : List Nat) (ekb N : Nat)
    (hN : ((ekb >>> 4) + U32 - 1) % U32 = N + 1) :
    rijndael [] blk ek ekb = .error .fault := by
  unfold rijndael
  simp only [hN, List.append_nil]
  have hl : (add_round_key (get_round_key ek 0) (transpose blk)).length = 16 := by
    unfold add_round_key
    rw [xor_bufs_length _ _ (by rw [transpose_length, get_round_key_length]), transpose_length]
  have hr : rijndael_round ek (N + 1) (add_round_key (get_round_key ek 0) (transpose blk)) 0
      = .error .fault := by
    unfold rijndael_round
    have hs : (on_state (fun m => substitute_bytes m false)
        (add_round_key (get_round_key ek 0) (transpose blk))).length = 16 := by
      have := on_state_append (fun m => substitute_bytes m false) _ [] hl
      rw [List.append_nil, List.append_nil] at this
      rw [this, substitute_bytes_length, hl]
    simp only [shift_rows_of_length_16 _ false hs, Except.bind]
  rw [List.range_succ_eq_map, for_loop_cons_error _ _ _ _ _ hr]
  rfl

theorem expand_key_snd (key : List Nat) (ek : List Nat × Nat) (h : expand_key key = .ok ek)
    (hk : key.length ≤ 32) : ek.2 = 16 * (key.length / 4 + 7) := by
  unfold expand_key at h
  simp only at h
  split_ifs at h
  simp only [Except.ok.injEq] at h
  rw [← h]
  simp only [Nat.shiftLeft_eq, Nat.shiftRight_eq_div_pow]
  unfold U32
  omega

theorem inv_rijndael_of_no_adjacent (blk ek : List Nat) (ekb N : Nat)
    (hN : ((ekb >>> 4) + U32 - 1) % U32 = N + 1) :
    inv_rijndael [] blk ek ekb = .error .fault := by
  unfold inv_rijndael
  simp only [hN, List.append_nil]
  have hr : inv_rijndael_round ek (N + 1) (transpose blk) 0 = .error .fault := by
    unfold inv_rijndael_round
    have hl : (add_round_key (get_round_key ek ((N + 1 - 0) * block_size))
        (transpose blk)).length = 16 := by
      unfold add_round_key
      rw [xor_bufs_length _ _ (by rw [transpose_length, get_round_key_length]), transpose_length]
    have hs : (on_state (add_round_key (get_round_key ek ((N + 1 - 0) * block_size)))
        (transpose blk)).length = 16 := by
      have := on_state_append (add_round_key (get_round_key ek ((N + 1 - 0) * block_size)))
        (transpose blk) [] (transpose_length blk)
      rw [List.append_nil, List.append_nil] at this
      rw [this, hl]
    simp only [gt_iff_lt, lt_irrefl, if_false, shift_rows_of_length_16 _ true hs, Except.bind]
  rw [List.range_succ_eq_map, for_loop_cons_error _ _ _ _ _ hr]
  rfl

theorem n_rounds_pos (key : List Nat) (ek : List Nat × Nat)
    (hkey : key.length = 16 ∨ key.length = 24 ∨ key.length = 32)
    (hek : expand_key key = .ok ek) :
    ∃ N, ((ek.2 >>> 4) + U32 - 1) % U32 = N + 1 := by
  have hsz := expand_key_snd key ek hek (by omega)
  refine ⟨key.length / 4 + 5, ?_⟩
  rw [hsz, Nat.shiftRight_eq_div_pow]
  unfold U32
  omega

theorem encrypt_fault_of_no_adjacent (pt key iv : List Nat)
    (hkey : key.length = 16 ∨ key.length = 24 ∨ key.length = 32)
    (hpt0 : pt ≠ []) (hpt : pt.length % 16 = 0) :
    encrypt (fun _ => []) pt key iv = .error .fault := by
  have hn : pt.length ≠ 0 := by simpa using hpt0
  have hal : ¬ (pt.length % block_size ≠ 0) := by unfold block_size; omega
  have hkv : ¬ (key.length < block_size ∨ key.length &&& 0x07 ≠ 0) := by
    rw [and7_eq_mod]; unfold block_size; omega
  obtain ⟨k, hk⟩ : ∃ k, pt.length / block_size = k + 1 :=
    ⟨pt.length / 16 - 1, by unfold block_size; omega⟩
  obtain ⟨ek, hek⟩ := expand_key_ok key hkey
  obtain ⟨N, hN⟩ := n_rounds_pos key ek hkey hek
  simp only [encrypt]
  rw [if_neg hn, if_neg hal, if_neg hkv, hek]
  simp only [Except.bind, hk]
  rw [encrypt_blocks, rijndael_of_no_adjacent _ _ _ N hN]
  rfl

theorem decrypt_fault_of_no_adjacent (ct key iv : List Nat)
    (hkey : key.length = 16 ∨ key.length = 24 ∨ key.length = 32)
    (hct : 16 ≤ ct.length) :
    decrypt (fun _ => []) ct key iv = .error .fault := by
  have hn : ct.length ≠ 0 := by omega
  have hkv : ¬ (key.length < block_size ∨ key.length &&& 0x07 ≠ 0) := by
    rw [and7_eq_mod]; unfold block_size; omega
  obtain ⟨k, hk⟩ : ∃ k, ct.length / block_size = k + 1 :=
    ⟨ct.length / 16 - 1, by unfold block_size; omega⟩
  obtain ⟨ek, hek⟩ := expand_key_ok key hkey
  obtain ⟨N, hN⟩ := n_rounds_pos key ek hkey hek
  simp only [decrypt]
  rw [if_neg hn, if_neg hkv, hek]
  simp only [Except.bind, hk]
  rw [decrypt_blocks, inv_rijndael_of_no_adjacent _ _ _ N hN]
  rfl

/-- C1 on the code: in the C++ object model nothing lies behind the 16-byte state array
of `rijndael` and `inv_rijndael`, and then, for every key of 16, 24 or 32 bytes and
every plaintext whose length is a positive multiple of 16, `encrypt` leaves the array in
`shift_rows` (offsets 24 to 27) and returns no ciphertext, and `decrypt` does the same
on every buffer of that length. -/
theorem encrypt_of_no_adjacent (pt key iv : List Nat)
    (hkey : key.length = 16 ∨ key.length = 24 ∨ key.length = 32)
    (hpt0 : pt ≠ []) (hpt : pt.length % 16 = 0) :
    encrypt (fun _ => []) pt key iv = .error .fault
    ∧ ∀ ct : List Nat, ct.length = pt.length →
        decrypt (fun _ => []) ct key iv = .error .fault := by
  have hn : pt.length ≠ 0 := by simpa using hpt0
  refine ⟨encrypt_fault_of_no_adjacent pt key iv hkey hpt0 hpt, fun ct hct => ?_⟩
  exact decrypt_fault_of_no_adjacent ct key iv hkey (by omega)

theorem decrypt_of_short_aux (adj : Nat → List Nat) (ct key iv : List Nat)
    (hkey : key.length = 16 ∨ key.length = 24 ∨ key.length = 32)
    (h0 : ct ≠ []) (h16 : ct.length < 16) :
    decrypt adj ct key iv = .ok ct := by
  have hn : ct.length ≠ 0 := by simpa using h0
  have hkv : ¬ (key.length < block_size ∨ key.length &&& 0x07 ≠ 0) := by
    rw [and7_eq_mod]; unfold block_size; omega
  obtain ⟨ek, hek⟩ := expand_key_ok key hkey
  have hz : ct.length / block_size = 0 := by
    unfold block_size; omega
  simp only [decrypt]
  rw [if_neg hn, if_neg hkv, hek]
  simp only [Except.bind, hz, decrypt_blocks]

/-- C8 fails on the code: `decrypt` has no test of `ct_bytes % block_size`.  For every
key of 16, 24 or 32 bytes, every IV and every buffer of 1 to 15 bytes, no block is
processed and `decrypt` returns the buffer unchanged instead of failing. -/
theorem decrypt_of_short (adj : Nat → List Nat) (ct key iv : List Nat)
    (hkey : key.length = 16 ∨ key.length = 24 ∨ key.length = 32)
    (h0 : ct ≠ []) (h16 : ct.length < 16) :
    decrypt adj ct key iv = .ok ct :=
  decrypt_of_short_aux adj ct key iv hkey h0 h16

theorem decrypt_of_short_witness :
    decrypt (fun _ => []) [0] (List.replicate 16 0) (List.replicate 16 0) = .ok [0] :=
  decrypt_of_short (fun _ => []) [0] (List.replicate 16 0) (List.replicate 16 0)
    (by decide) (by decide) (by decide)

theorem encrypt_of_no_adjacent_witness :
    encrypt (fun _ => []) (List.replicate 16 0) (List.replicate 16 0) (List.replicate 16 0)
      = .error .fault
    ∧ ∀ ct : List Nat, ct.length = (List.replicate 16 0).length →
        decrypt (fun _ => []) ct (List.replicate 16 0) (List.replicate 16 0) = .error .fault :=
  encrypt_of_no_adjacent (List.replicate 16 0) (List.replicate 16 0) (List.replicate 16 0)
    (by decide) (by decide) (by decide)

end AES

/-! ## Frames -/

set_option maxRecDepth 100000 in
theorem recv_bytes_hex_setw2 :
    ∀ b, b < 256 → (hex_setw2 b).length = 2 ∧ recv_bytes (hex_setw2 b) = [b] := by
  decide

theorem recv_bytes_send_data (src : List Nat) (h : IsBytes src) :
    recv_bytes (send_data src) = src ∧ (send_data src).length = 2 * src.length := by
  induction src with
  | nil => exact ⟨rfl, rfl⟩
  | cons b src ih =>
    obtain ⟨ih1, ih2⟩ := ih (fun x hx => h x (List.mem_cons_of_mem _ hx))
    obtain ⟨hl, hr⟩ := recv_bytes_hex_setw2 b (h b (List.mem_cons_self _ _))
    obtain ⟨c0, c1, hc⟩ := List.length_eq_two.mp hl
    rw [hc] at hr
    simp only [recv_bytes, List.cons.injEq, and_true] at hr
    constructor
    · simp only [send_data, hc, List.cons_append, List.nil_append, recv_bytes, hr, ih1]
    · simp only [send_data, hc, List.cons_append, List.nil_append, List.length_cons, ih2]
      omega

theorem recv_data_send_data (slack : Nat) (src : List Nat) (h : IsBytes src)
    (hl : 2 * src.length < U32) :
    recv_data slack (send_data src) = .ok src := by
  obtain ⟨h1, h2⟩ := recv_bytes_send_data src h
  unfold recv_data
  rw [h2, if_neg (by omega), if_neg (by omega), h1]

/-- The data flow of one message: when the twelve bytes behind the state array are
addressable in every call of `rijndael` and `inv_rijndael`, the receiver's step applied
to the frame of the sender's step prints the bytes that `pad` was left with (the message,
unless `realloc` has moved the source), for key material made of a key of 16, 24 or 32
bytes followed by a 16-byte IV and a non-empty message other than the word exit. -/
theorem server_client_of_addressable (adjE adjD : Nat → List Nat) (r : PKCS7.Realloc)
    (slack : Nat) (key iv msg : List Nat)
    (hE : ∀ i, 12 ≤ (adjE i).length) (hD : ∀ i, 12 ≤ (adjD i).length)
    (hkey : key.length = 16 ∨ key.length = 24 ∨ key.length = 32) (hkb : IsBytes key)
    (hiv : iv.length = 16) (hivb : IsBytes iv)
    (hmsg0 : msg ≠ []) (hexit : msg ≠ [101, 120, 105, 116]) (hmsgb : IsBytes msg)
    (hmsgl : 2 * (msg.length + 16) < U32) :
    ∃ frame, Client.interactive_step adjE r (key ++ iv) msg = .ok (some frame)
      ∧ frame.length = 2 * (msg.length + (16 - msg.length % 16))
      ∧ Server.interactive_step adjD slack (key ++ iv) frame
          = .ok (PKCS7.copied (.source r) msg) := by
  unfold U32 at hmsgl
  have hkb' : ((key ++ iv).length + U32 - 16) % U32 = key.length := by
    rw [List.length_append, hiv]
    unfold U32
    omega
  have hptb : msg.length % U32 = msg.length := by
    unfold U32; omega
  have hmt : msg.take msg.length = msg := List.take_length _
  have hr : 16 - msg.length % 16 ≤ 16 := by omega
  have hpad := PKCS7.pad_eq (.source r) msg 16 hmsg0 (by omega) (by omega) (by omega)
  have hcl := PKCS7.copied_length (.source r) msg
  have hm0 := PKCS7.copied_ne_nil (.source r) msg hmsg0
  have hmb := PKCS7.copied_isBytes (.source r) msg hmsgb
  obtain ⟨m, hm⟩ : ∃ m, PKCS7.copied (.source r) msg = m := ⟨_, rfl⟩
  rw [hm] at hpad hcl hm0 hmb ⊢
  have hpl : (m ++ List.replicate (16 - msg.length % 16) (16 - msg.length % 16)).length
      = msg.length + (16 - msg.length % 16) := by simp [hcl]
  have hpb : IsBytes (m ++ List.replicate (16 - msg.length % 16) (16 - msg.length % 16)) := by
    intro x hx
    rcases List.mem_append.mp hx with h | h
    · exact hmb x h
    · have := (List.mem_replicate.mp h).2
      omega
  obtain ⟨ct, hct, hctl, hctb, hdec⟩ := AES.decrypt_encrypt_of_addressable adjE adjD
    (m ++ List.replicate (16 - msg.length % 16) (16 - msg.length % 16)) key iv hE hD hkey hkb
    hiv hivb (by simp [hm0]) (by rw [hpl]; exact PKCS7.pad_len_mod _ _ (by omega)) hpb
  have hnlt : ¬ (key ++ iv).length < key.length := by
    rw [List.length_append]; omega
  refine ⟨send_data ct, ?_, ?_, ?_⟩
  · simp only [Client.interactive_step, hexit, hkb', hptb, hmt, AES.block_size, hpad,
      Except.bind, List.take_left, List.drop_left, hct, hnlt, if_false]
  · rw [(recv_bytes_send_data ct hctb).2, hctl, hpl]
  · have hrecv := recv_data_send_data slack ct hctb (by rw [hctl, hpl]; unfold U32; omega)
    simp only [Server.interactive_step, hkb', AES.block_size, hrecv, Except.bind,
      List.take_left, List.drop_left, hdec, hnlt, if_false]
    have hu := PKCS7.unpad_append_replicate m 16 hm0 (by omega)
    rw [hcl] at hu
    exact hu

theorem client_step_fault_of_no_adjacent (r : PKCS7.Realloc) (key iv msg : List Nat)
    (hkey : key.length = 16 ∨ key.length = 24 ∨ key.length = 32) (hiv : iv.length = 16)
    (hmsg0 : msg ≠ []) (hexit : msg ≠ [101, 120, 105, 116])
    (hmsgl : msg.length + 16 < 4294967296) :
    Client.interactive_step (fun _ => []) r (key ++ iv) msg = .error .fault := by
  have hkb' : ((key ++ iv).length + U32 - 16) % U32 = key.length := by
    rw [List.length_append, hiv]
    unfold U32
    omega
  have hptb : msg.length % U32 = msg.length := by
    unfold U32; omega
  have hmt : msg.take msg.length = msg := List.take_length _
  have hpad := PKCS7.pad_eq (.source r) msg 16 hmsg0 (by omega) (by omega) (by omega)
  have hcl := PKCS7.copied_length (.source r) msg
  have hm0 := PKCS7.copied_ne_nil (.source r) msg hmsg0
  have henc := AES.encrypt_fault_of_no_adjacent
    (PKCS7.copied (.source r) msg
      ++ List.replicate (16 - msg.length % 16) (16 - msg.length % 16)) key iv hkey
    (by simp [hm0])
    (by rw [List.length_append, List.length_replicate, hcl]
        exact PKCS7.pad_len_mod _ _ (by omega))
  have hnlt : ¬ (key ++ iv).length < key.length := by
    rw [List.length_append]; omega
  simp only [Client.interactive_step, hexit, hkb', hptb, hmt, AES.block_size, hpad,
    Except.bind, List.take_left, List.drop_left, henc, hnlt, if_false]

theorem client_step_exit (adj : Nat → List Nat) (r : PKCS7.Realloc) (aeskey : List Nat) :
    Client.interactive_step adj r aeskey [101, 120, 105, 116] = .ok none := by
  unfold Client.interactive_step
  rw [if_pos rfl]

/-- C2 on the code: in the C++ object model nothing lies behind the 16-byte state array,
and then the sender's step leaves the array inside `AES::encrypt` for every non-empty
message, every key of 16, 24 or 32 bytes and every 16-byte IV, whatever `realloc` does
in `pad`; on the word exit the step returns before it pads; in no case is a frame
produced. -/
theorem client_step_of_no_adjacent (r : PKCS7.Realloc) (key iv msg : List Nat)
    (hkey : key.length = 16 ∨ key.length = 24 ∨ key.length = 32) (hiv : iv.length = 16)
    (hmsg0 : msg ≠ []) (hmsgl : msg.length + 16 < 4294967296) :
    (msg ≠ [101, 120, 105, 116] →
      Client.interactive_step (fun _ => []) r (key ++ iv) msg = .error .fault)
    ∧ (msg = [101, 120, 105, 116] →
      Client.interactive_step (fun _ => []) r (key ++ iv) msg = .ok none)
    ∧ ∀ frame, Client.interactive_step (fun _ => []) r (key ++ iv) msg ≠ .ok (some frame) := by
  have h1 : msg ≠ [101, 120, 105, 116] →
      Client.interactive_step (fun _ => []) r (key ++ iv) msg = .error .fault :=
    fun hexit => client_step_fault_of_no_adjacent r key iv msg hkey hiv hmsg0 hexit hmsgl
  have h2 : msg = [101, 120, 105, 116] →
      Client.interactive_step (fun _ => []) r (key ++ iv) msg = .ok none := by
    intro h
    rw [h]
    exact client_step_exit _ r _
  refine ⟨h1, h2, fun frame hf => ?_⟩
  by_cases h : msg = [101, 120, 105, 116]
  · rw [h2 h] at hf
    cases hf
  · rw [h1 h] at hf
    cases hf

theorem client_step_of_no_adjacent_witness :
    Client.interactive_step (fun _ => []) .in_place
      (List.replicate 16 0 ++ List.replicate 16 0) [104, 101, 108, 108, 111] = .error .fault :=
  (client_step_of_no_adjacent .in_place (List.replicate 16 0) (List.replicate 16 0)
    [104, 101, 108, 108, 111] (by decide) (by decide) (by decide) (by decide)).1 (by decide)

/-! ## RSA -/

theorem bit_length_eq (fuel : Nat) : ∀ x, x ≠ 0 → x ≤ fuel → bit_length fuel x = Nat.log2 x + 1 := by
  induction fuel with
  | zero => intro x h0 h; omega
  | succ f ih =>
    intro x h0 h
    rw [bit_length, if_neg h0]
    by_cases h2 : x / 2 = 0
    · have hx1 : x = 1 := by omega
      subst hx1
      cases f <;> simp [bit_length, Nat.log2]
    · rw [ih (x / 2) h2 (by omega)]
      conv_rhs => rw [Nat.log2]
      have : x ≥ 2 := by omega
      simp [this]

theorem mpz_sizeinbase2_eq (x : Nat) (hx : x ≠ 0) : mpz_sizeinbase2 x = Nat.log2 x + 1 := by
  unfold mpz_sizeinbase2
  rw [if_neg hx, bit_length_eq x x hx (le_refl _)]

theorem powm_aux_modEq (m : Nat) (fuel : Nat) : ∀ b e acc, e ≤ fuel →
    powm_aux fuel b e m acc ≡ acc * b ^ e [MOD m] := by
  induction fuel with
  | zero =>
    intro b e acc h
    have : e = 0 := by omega
    subst this
    simp [powm_aux, Nat.ModEq]
  | succ f ih =>
    intro b e acc h
    rw [powm_aux]
    by_cases he : e = 0
    · subst he; simp [Nat.ModEq]
    · rw [if_neg he]
      refine (ih _ _ _ (by omega)).trans ?_
      have hsq : (b * b % m) ^ (e / 2) ≡ (b * b) ^ (e / 2) [MOD m] :=
        (Nat.mod_modEq _ _).pow _
      have hb : (b * b) ^ (e / 2) = b ^ (2 * (e / 2)) := by
        rw [pow_mul, pow_two]
      by_cases hodd : e % 2 = 1
      · rw [if_pos hodd]
        have hacc : acc * b % m ≡ acc * b [MOD m] := Nat.mod_modEq _ _
        refine (hacc.mul hsq).trans ?_
        rw [hb]
        have : e = 2 * (e / 2) + 1 := by omega
        conv_rhs => rw [this, pow_succ]
        rw [Nat.ModEq]
        congr 1
        ring
      · rw [if_neg hodd]
        refine (Nat.ModEq.refl acc |>.mul hsq).trans ?_
        rw [hb]
        have : e = 2 * (e / 2) := by omega
        conv_rhs => rw [this]

theorem mpz_powm_eq (b e m : Nat) : mpz_powm b e m = b ^ e % m := by
  unfold mpz_powm
  have := powm_aux_modEq m e b e 1 (le_refl _)
  rw [Nat.ModEq] at this
  rw [this, Nat.one_mul]

theorem mpz_import_eq_ofDigits (buf : List Nat) :
    mpz_import buf = Nat.ofDigits 256 buf.reverse := by
  unfold mpz_import
  induction buf using List.reverseRecOn with
  | nil => simp [Nat.ofDigits]
  | append_singleton l a ih =>
    rw [List.foldl_append, ih]
    simp [Nat.ofDigits_cons, Nat.mul_comm, Nat.add_comm]

theorem export_aux_eq (fuel : Nat) : ∀ x acc, x < 256 ^ fuel →
    export_aux fuel x acc = (Nat.digits 256 x).reverse ++ acc := by
  induction fuel with
  | zero =>
    intro x acc h
    have : x = 0 := by simpa using h
    subst this
    simp [export_aux]
  | succ f ih =>
    intro x acc h
    rw [export_aux]
    by_cases hx : x = 0
    · subst hx; simp
    · rw [if_neg hx, ih (x / 256) _ (by
        rw [Nat.div_lt_iff_lt_mul (by norm_num)]
        rw [pow_succ] at h; exact h)]
      rw [Nat.digits_def' (by norm_num) (Nat.pos_of_ne_zero hx)]
      simp

theorem lt_two_pow_sizeinbase2 (x : Nat) : x < 2 ^ mpz_sizeinbase2 x := by
  by_cases h : x = 0
  · subst h; decide
  · rw [mpz_sizeinbase2_eq x h]; exact Nat.lt_log2_self

theorem lt_pow_sizeinbase2 (x : Nat) : x < 256 ^ mpz_sizeinbase2 x :=
  lt_of_lt_of_le (lt_two_pow_sizeinbase2 x) (Nat.pow_le_pow_left (by norm_num) _)

theorem mpz_export_eq_digits (x : Nat) : mpz_export x = (Nat.digits 256 x).reverse := by
  unfold mpz_export
  rw [export_aux_eq _ _ _ (lt_pow_sizeinbase2 x)]
  simp

theorem mpz_import_export (x : Nat) : mpz_import (mpz_export x) = x := by
  rw [mpz_import_eq_ofDigits, mpz_export_eq_digits, List.reverse_reverse, Nat.ofDigits_digits]

theorem mpz_export_import (m : List Nat) (hb : IsBytes m) (h0 : m.headD 0 ≠ 0) :
    mpz_export (mpz_import m) = m := by
  rw [mpz_export_eq_digits, mpz_import_eq_ofDigits, Nat.digits_ofDigits 256 (by norm_num),
    List.reverse_reverse]
  · intro l hl
    exact hb l (List.mem_reverse.mp hl)
  · intro hne
    cases m with
    | nil => simp at hne
    | cons a t => simpa using h0

theorem log256_eq (x : Nat) (hx : x ≠ 0) : Nat.log 256 x = Nat.log2 x / 8 := by
  rw [Nat.log_eq_iff (Or.inr ⟨by norm_num, hx⟩)]
  have h1 : 2 ^ x.log2 ≤ x := Nat.log2_self_le hx
  have h2 : x < 2 ^ (x.log2 + 1) := Nat.lt_log2_self
  have e : (256 : Nat) = 2 ^ 8 := by norm_num
  constructor
  · calc 256 ^ (x.log2 / 8) = 2 ^ (8 * (x.log2 / 8)) := by rw [e, ← pow_mul]
      _ ≤ 2 ^ x.log2 := Nat.pow_le_pow_right (by norm_num) (Nat.mul_div_le _ _)
      _ ≤ x := h1
  · calc x < 2 ^ (x.log2 + 1) := h2
      _ ≤ 2 ^ (8 * (x.log2 / 8 + 1)) := Nat.pow_le_pow_right (by norm_num) (by omega)
      _ = 256 ^ (x.log2 / 8 + 1) := by rw [e, ← pow_mul]

theorem mpz_export_length (x : Nat) (hx : x ≠ 0) :
    (mpz_export x).length = (mpz_sizeinbase2 x + (1 <<< 3) - 1) / (1 <<< 3) := by
  rw [mpz_export_eq_digits, List.length_reverse, Nat.digits_len 256 x (by norm_num) hx,
    log256_eq x hx]
  rw [mpz_sizeinbase2_eq x hx]
  have : (1 <<< 3 : Nat) = 8 := by decide
  rw [this]
  omega

theorem export_into_eq (stale : Nat → Nat) (x : Nat) :
    export_into stale (mpz_export x).length x = .ok (mpz_export x) := by
  unfold export_into
  simp only [lt_irrefl, if_false]
  congr 1
  apply List.ext_getElem
  · simp
  · intro i h1 h2
    simp only [List.getElem_map, List.getElem_range]
    rw [if_pos h2, List.getD_eq_getElem _ _ h2]

namespace RSA

theorem export_result_ok (stale : Nat → Nat) (x : Nat) (hx : x ≠ 0)
    (hsz : (mpz_sizeinbase2 x + (1 <<< 3) - 1) / (1 <<< 3) < U32) :
    export_result stale (.ok x) = .ok (mpz_export x) := by
  unfold export_result
  simp only
  rw [Nat.mod_eq_of_lt hsz, ← mpz_export_length x hx]
  exact export_into_eq stale x

end RSA

theorem pow_modEq_self_of_prime (p : Nat) (hp : p.Prime) (m k : Nat) (hk0 : 0 < k)
    (hk : k ≡ 1 [MOD (p - 1)]) : m ^ k ≡ m [MOD p] := by
  by_cases hdvd : p ∣ m
  · have h1 : m ≡ 0 [MOD p] := (Nat.modEq_zero_iff_dvd).mpr hdvd
    have h2 : m ^ k ≡ 0 [MOD p] :=
      (Nat.modEq_zero_iff_dvd).mpr (dvd_pow hdvd (by omega))
    exact h2.trans h1.symm
  · have hcop : Nat.Coprime m p := ((Nat.Prime.coprime_iff_not_dvd hp).mpr hdvd).symm
    have hf : m ^ (p - 1) ≡ 1 [MOD p] := by
      have := Nat.ModEq.pow_totient hcop
      rwa [Nat.totient_prime hp] at this
    obtain ⟨j, hj⟩ := (Nat.modEq_iff_dvd' (show 1 ≤ k by omega)).mp hk.symm
    have hkeq : k = 1 + (p - 1) * j := by omega
    rw [hkeq, pow_add, pow_one, pow_mul]
    have := (hf.pow j).mul_left m
    simpa using this

theorem rsa_pow_modEq (p q e d m : Nat) (hp : p.Prime) (hq : q.Prime) (hpq : p ≠ q)
    (hd : e * d ≡ 1 [MOD (p - 1) * (q - 1)]) :
    0 < e * d ∧ m ^ (e * d) ≡ m [MOD p * q] := by
  have hp2 := hp.two_le
  have hq2 := hq.two_le
  have hphi : 2 ≤ (p - 1) * (q - 1) := by
    rcases Nat.lt_or_gt_of_ne hpq with h | h
    · calc 2 = 1 * 2 := by norm_num
        _ ≤ (p - 1) * (q - 1) := Nat.mul_le_mul (by omega) (by omega)
    · calc 2 = 2 * 1 := by norm_num
        _ ≤ (p - 1) * (q - 1) := Nat.mul_le_mul (by omega) (by omega)
  have hpos : 0 < e * d := by
    rcases Nat.eq_zero_or_pos (e * d) with h0 | h0
    · exfalso
      rw [h0] at hd
      have hdvd : (p - 1) * (q - 1) ∣ 1 := (Nat.modEq_zero_iff_dvd).mp hd.symm
      have := Nat.le_of_dvd (by norm_num) hdvd
      omega
    · exact h0
  refine ⟨hpos, ?_⟩
  have h1 := pow_modEq_self_of_prime p hp m (e * d) hpos (Nat.ModEq.of_mul_right _ hd)
  have h2 := pow_modEq_self_of_prime q hq m (e * d) hpos (Nat.ModEq.of_mul_left _ hd)
  exact (Nat.modEq_and_modEq_iff_modEq_mul ((Nat.coprime_primes hp hq).mpr hpq)).mp ⟨h1, h2⟩

theorem mpz_powm_powm (p q e d m : Nat) (hp : p.Prime) (hq : q.Prime) (hpq : p ≠ q)
    (hd : e * d ≡ 1 [MOD (p - 1) * (q - 1)]) (hm : m < p * q) :
    mpz_powm (mpz_powm m e (p * q)) d (p * q) = m := by
  rw [mpz_powm_eq, mpz_powm_eq, ← Nat.pow_mod, ← pow_mul]
  have h := (rsa_pow_modEq p q e d m hp hq hpq hd).2
  rw [Nat.ModEq] at h
  rw [h, Nat.mod_eq_of_lt hm]

theorem sizeinbase2_bound (p q x : Nat) (hx : x < p * q)
    (hpb : mpz_sizeinbase2 p < U32) (hqb : mpz_sizeinbase2 q < U32) :
    (mpz_sizeinbase2 x + (1 <<< 3) - 1) / (1 <<< 3) < U32 := by
  have h8 : (1 <<< 3 : Nat) = 8 := by decide
  have hlt := lt_two_pow_sizeinbase2
  have hx2 : x < 2 ^ (mpz_sizeinbase2 p + mpz_sizeinbase2 q) := by
    rw [pow_add]
    exact lt_trans hx (Nat.mul_lt_mul'' (hlt p) (hlt q))
  have hsz : mpz_sizeinbase2 x ≤ mpz_sizeinbase2 p + mpz_sizeinbase2 q + 1 := by
    by_cases h0 : x = 0
    · subst h0; simp [mpz_sizeinbase2]
    · have := (Nat.log2_lt h0).mpr hx2
      rw [mpz_sizeinbase2_eq x h0]
      omega
  rw [h8]
  unfold U32 at *
  omega

theorem mpz_export_isBytes (x : Nat) : IsBytes (mpz_export x) := by
  intro b hb
  rw [mpz_export_eq_digits] at hb
  exact Nat.digits_lt_base (by norm_num) (List.mem_reverse.mp hb)

theorem sizeinbase2_le_add (p q x : Nat) (hx : x < p * q) :
    mpz_sizeinbase2 x ≤ mpz_sizeinbase2 p + mpz_sizeinbase2 q + 1 := by
  have hlt := lt_two_pow_sizeinbase2
  have hx2 : x < 2 ^ (mpz_sizeinbase2 p + mpz_sizeinbase2 q) := by
    rw [pow_add]
    exact lt_trans hx (Nat.mul_lt_mul'' (hlt p) (hlt q))
  by_cases h0 : x = 0
  · subst h0; simp [mpz_sizeinbase2]
  · have := (Nat.log2_lt h0).mpr hx2
    rw [mpz_sizeinbase2_eq x h0]
    omega

namespace RSA

/-- The two steps of the round trip: `encrypt` with the public key returns a buffer of
bytes, of at most `(bits p + bits q + 8) / 8` bytes, from which `decrypt` with the
private key returns `m`. -/
theorem encrypt_decrypt_steps (key : PrivKey) (m : List Nat) (stale_ct stale_pt : Nat → Nat)
    (hp : key.p.Prime) (hq : key.q.Prime) (hpq : key.p ≠ key.q)
    (hn : key.n = key.p * key.q) (he : key.e = 65537)
    (hd : key.e * key.d ≡ 1 [MOD (key.p - 1) * (key.q - 1)])
    (hpb : mpz_sizeinbase2 key.p < U32) (hqb : mpz_sizeinbase2 key.q < U32)
    (hbytes : IsBytes m) (hm0 : m.headD 0 ≠ 0) (hlt : mpz_import m < key.n) :
    ∃ ct, encrypt_pub stale_ct m (PubKey.of_priv key) = .ok ct ∧ IsBytes ct
      ∧ 8 * ct.length ≤ mpz_sizeinbase2 key.p + mpz_sizeinbase2 key.q + 8
      ∧ decrypt_priv stale_pt ct key = .ok m := by
  have hexp := mpz_export_import m hbytes hm0
  have hmne : mpz_import m ≠ 0 := by
    intro h0
    rw [h0] at hexp
    have : m = [] := by rw [← hexp]; decide
    subst this
    simp at hm0
  rw [hn] at hlt
  rw [he] at hd
  have hround := mpz_powm_powm key.p key.q 65537 key.d (mpz_import m) hp hq hpq hd hlt
  have hnpos : 0 < key.p * key.q := Nat.mul_pos hp.pos hq.pos
  have hctlt : mpz_powm (mpz_import m) 65537 (key.p * key.q) < key.p * key.q :=
    Nat.mod_lt _ hnpos
  have hdpos : 0 < key.d := by
    have := (rsa_pow_modEq key.p key.q 65537 key.d 0 hp hq hpq hd).1
    rcases Nat.eq_zero_or_pos key.d with h0 | h0
    · rw [h0] at this; simp at this
    · exact h0
  have hctne : mpz_powm (mpz_import m) 65537 (key.p * key.q) ≠ 0 := by
    intro h0
    rw [h0] at hround
    rw [mpz_powm_eq 0, Nat.zero_pow hdpos, Nat.zero_mod] at hround
    exact hmne hround.symm
  have henc : encrypt_pub stale_ct m (PubKey.of_priv key)
      = .ok (mpz_export (mpz_powm (mpz_import m) 65537 (key.p * key.q))) := by
    unfold encrypt_pub encrypt_mpz_pub PubKey.of_priv
    simp only [ge_iff_le, Nat.not_le.mpr hlt, if_false]
    exact export_result_ok _ _ hctne (sizeinbase2_bound _ _ _ hctlt hpb hqb)
  refine ⟨_, henc, mpz_export_isBytes _, ?_, ?_⟩
  · have h8 : (1 <<< 3 : Nat) = 8 := by decide
    have hle := sizeinbase2_le_add _ _ _ hctlt
    rw [mpz_export_length _ hctne, h8]
    omega
  · unfold decrypt_priv decrypt_mpz_priv
    rw [mpz_import_export, hn]
    simp only [ge_iff_le, Nat.not_le.mpr hctlt, if_false]
    rw [hround, export_result_ok _ _ hmne (sizeinbase2_bound _ _ _ hlt hpb hqb), hexp]

/-- C10, as amended: for distinct primes `p`, `q` of at most `2^32 - 1` bits,
`n = p * q`, `e = 65537`, `e * d ≡ 1 (mod (p-1)(q-1))`, and every byte buffer `m` whose
first byte is not zero and whose big-endian value is below `n`,
`decrypt (encrypt m pub) priv` returns `m` byte for byte, whatever the destination
buffers held before. -/
theorem decrypt_encrypt (key : PrivKey) (m : List Nat) (stale_ct stale_pt : Nat → Nat)
    (hp : key.p.Prime) (hq : key.q.Prime) (hpq : key.p ≠ key.q)
    (hn : key.n = key.p * key.q) (he : key.e = 65537)
    (hd : key.e * key.d ≡ 1 [MOD (key.p - 1) * (key.q - 1)])
    (hpb : mpz_sizeinbase2 key.p < U32) (hqb : mpz_sizeinbase2 key.q < U32)
    (hbytes : IsBytes m) (hm0 : m.headD 0 ≠ 0) (hlt : mpz_import m < key.n) :
    (encrypt_pub stale_ct m (PubKey.of_priv key)).bind
      (fun ct => decrypt_priv stale_pt ct key) = .ok m := by
  obtain ⟨ct, h1, -, -, h2⟩ := encrypt_decrypt_steps key m stale_ct stale_pt hp hq hpq hn he hd
    hpb hqb hbytes hm0 hlt
  rw [h1]
  exact h2


theorem decrypt_encrypt_witness :
    (encrypt_pub (fun _ => 0) [65, 110, 117, 114, 97, 103]
        (PubKey.of_priv ⟨16777259, 16777289, 190441533014545, 281476922870851, 65537⟩)).bind
      (fun ct => decrypt_priv (fun _ => 0) ct
        ⟨16777259, 16777289, 190441533014545, 281476922870851, 65537⟩)
      = .ok [65, 110, 117, 114, 97, 103] :=
  decrypt_encrypt ⟨16777259, 16777289, 190441533014545, 281476922870851, 65537⟩
    [65, 110, 117, 114, 97, 103] (fun _ => 0) (fun _ => 0)
    (by norm_num) (by norm_num) (by decide) (by decide) rfl (by decide) (by decide) (by decide)
    (by decide) (by decide) (by decide)

/-- C10 as stated fails.  (1) A leading zero byte is lost: with `p = 3`, `q = 5`,
`d = 1` the buffer `[0, 5]` (value 5 < 15) comes back as `[5]`.  (2) With `p = q = 3`,
`n = 9`, `d = 1` (`65537 * 1 ≡ 1 mod 4`) the buffer `[2]` comes back as `[5]`.
(3) The buffer `[0]` is encrypted to one byte that `mpz_export` never writes. -/
theorem decrypt_encrypt_fails :
    (Nat.Prime 3 ∧ Nat.Prime 5 ∧ 65537 * 1 ≡ 1 [MOD (3 - 1) * (5 - 1)]
      ∧ mpz_import [0, 5] < 3 * 5
      ∧ (encrypt_pub (fun _ => 0) [0, 5] ⟨3 * 5, 65537⟩).bind
          (fun ct => decrypt_priv (fun _ => 0) ct ⟨3, 5, 1, 3 * 5, 65537⟩) = .ok [5])
    ∧ (65537 * 1 ≡ 1 [MOD (3 - 1) * (3 - 1)] ∧ mpz_import [2] < 3 * 3
      ∧ (encrypt_pub (fun _ => 0) [2] ⟨3 * 3, 65537⟩).bind
          (fun ct => decrypt_priv (fun _ => 0) ct ⟨3, 3, 1, 3 * 3, 65537⟩) = .ok [5])
    ∧ (encrypt_pub (fun _ => 99) [0] ⟨3 * 5, 65537⟩ = .ok [99]) := by
  refine ⟨⟨Nat.prime_three, Nat.prime_five, by decide, by decide, by decide⟩,
    ⟨by decide, by decide, by decide⟩, by decide⟩

end RSA

/-! ## The text of a frame -/

set_option maxRecDepth 100000 in
theorem hex_setw2_eq :
    ∀ b, b < 256 → hex_setw2 b = [Nat.digitChar (b / 16), Nat.digitChar (b % 16)] := by
  decide

theorem hex_val_digitChar :
    ∀ d, d < 16 → hex_val (Nat.digitChar d) = some d
      ∧ ((48 ≤ (Nat.digitChar d).toNat ∧ (Nat.digitChar d).toNat ≤ 57)
        ∨ (97 ≤ (Nat.digitChar d).toNat ∧ (Nat.digitChar d).toNat ≤ 102)) := by
  decide

theorem send_data_cons (x : Nat) (t : List Nat) (hx : x < 256) :
    send_data (x :: t) = Nat.digitChar (x / 16) :: Nat.digitChar (x % 16) :: send_data t := by
  simp only [send_data, hex_setw2_eq x hx, List.cons_append, List.nil_append]

theorem send_data_getElem? (b : List Nat) (hb : IsBytes b) :
    ∀ i, i < b.length →
      (send_data b)[2 * i]? = some (Nat.digitChar (b.getD i 0 / 16))
      ∧ (send_data b)[2 * i + 1]? = some (Nat.digitChar (b.getD i 0 % 16)) := by
  induction b with
  | nil => intro i hi; simp at hi
  | cons x t ih =>
    intro i hi
    rw [send_data_cons x t (hb x (List.mem_cons_self _ _))]
    cases i with
    | zero => simp
    | succ i =>
      have h := ih (fun y hy => hb y (List.mem_cons_of_mem _ hy)) i (by simpa using hi)
      have e1 : 2 * (i + 1) = 2 * i + 1 + 1 := by omega
      have e2 : 2 * (i + 1) + 1 = 2 * i + 1 + 1 + 1 := by omega
      rw [e2, e1]
      simpa using h

theorem send_data_mem (b : List Nat) (hb : IsBytes b) :
    ∀ c ∈ send_data b, ∃ d, d < 16 ∧ c = Nat.digitChar d := by
  induction b with
  | nil => intro c hc; simp [send_data] at hc
  | cons x t ih =>
    intro c hc
    have hx := hb x (List.mem_cons_self _ _)
    rw [send_data_cons x t hx] at hc
    simp only [List.mem_cons] at hc
    rcases hc with rfl | rfl | hc
    · exact ⟨x / 16, by omega, rfl⟩
    · exact ⟨x % 16, by omega, rfl⟩
    · exact ih (fun y hy => hb y (List.mem_cons_of_mem _ hy)) c hc

/-- C16: for every byte buffer `b` the text built by `send_data` has `2 * len(b)`
characters, each of them one of `0-9a-f`, and the characters at positions `2i` and
`2i + 1` are the digits of the high and of the low nibble of byte `i`. -/
theorem send_data_format (b : List Nat) (hb : IsBytes b) :
    (send_data b).length = 2 * b.length
    ∧ (∀ c ∈ send_data b,
        (48 ≤ c.toNat ∧ c.toNat ≤ 57) ∨ (97 ≤ c.toNat ∧ c.toNat ≤ 102))
    ∧ ∀ i, i < b.length →
        ((send_data b)[2 * i]?).bind hex_val = some (b.getD i 0 / 16)
        ∧ ((send_data b)[2 * i + 1]?).bind hex_val = some (b.getD i 0 % 16) := by
  refine ⟨(recv_bytes_send_data b hb).2, fun c hc => ?_, fun i hi => ?_⟩
  · obtain ⟨d, hd, rfl⟩ := send_data_mem b hb c hc
    exact (hex_val_digitChar d hd).2
  · obtain ⟨h1, h2⟩ := send_data_getElem? b hb i hi
    have hlt : b.getD i 0 < 256 := by
      rw [List.getD_eq_getElem _ _ hi]
      exact hb _ (List.getElem_mem _)
    rw [h1, h2]
    exact ⟨(hex_val_digitChar _ (by omega)).1, (hex_val_digitChar _ (by omega)).1⟩

theorem send_data_format_witness :
    IsBytes [0, 10, 171, 255]
    ∧ ((send_data [0, 10, 171, 255]).length = 2 * [0, 10, 171, 255].length
      ∧ (∀ c ∈ send_data [0, 10, 171, 255],
          (48 ≤ c.toNat ∧ c.toNat ≤ 57) ∨ (97 ≤ c.toNat ∧ c.toNat ≤ 102))
      ∧ ∀ i, i < [0, 10, 171, 255].length →
          ((send_data [0, 10, 171, 255])[2 * i]?).bind hex_val
            = some ([0, 10, 171, 255].getD i 0 / 16)
          ∧ ((send_data [0, 10, 171, 255])[2 * i + 1]?).bind hex_val
            = some ([0, 10, 171, 255].getD i 0 % 16)) :=
  ⟨by decide, send_data_format [0, 10, 171, 255] (by decide)⟩

/-- C15, as amended: for every byte buffer `b` of fewer than `2^31` bytes, the decoding
of `recv_data` applied to the text of `send_data` returns a buffer of the length of `b`
that equals `b` byte for byte. -/
theorem wire_round_trip (slack : Nat) (b : List Nat) (hb : IsBytes b)
    (hl : b.length < 2147483648) :
    recv_data slack (send_data b) = .ok b :=
  recv_data_send_data slack b hb (by unfold U32; omega)

theorem wire_round_trip_witness :
    IsBytes [0, 10, 171, 255] ∧ [0, 10, 171, 255].length < 2147483648
    ∧ recv_data 0 (send_data [0, 10, 171, 255]) = .ok [0, 10, 171, 255] :=
  ⟨by decide, by decide, wire_round_trip 0 [0, 10, 171, 255] (by decide) (by decide)⟩

/-- C15 as stated fails on the largest buffers: the text of a buffer of `2^31` bytes has
`2^32` characters, and in `recv_data` the `uint32_t` counter `i` never reaches
`buffer.length()`, so no buffer is returned. -/
theorem wire_round_trip_fails :
    IsBytes (List.replicate 2147483648 0)
    ∧ (send_data (List.replicate 2147483648 0)).length = 4294967296
    ∧ ∀ slack, recv_data slack (send_data (List.replicate 2147483648 0)) = .error .fault := by
  have hb : IsBytes (List.replicate 2147483648 0) := by
    intro x hx
    rw [(List.mem_replicate.mp hx).2]
    decide
  have hlen := (recv_bytes_send_data _ hb).2
  rw [List.length_replicate] at hlen
  refine ⟨hb, hlen, fun slack => ?_⟩
  unfold recv_data
  rw [hlen, if_pos (by unfold U32; decide)]

theorem recv_bytes_length : ∀ buffer : List Char,
    (recv_bytes buffer).length = (buffer.length + 1) / 2
  | [] => rfl
  | [_] => by simp [recv_bytes]
  | _ :: _ :: rest => by
    simp only [recv_bytes, List.length_cons, recv_bytes_length rest]
    omega

theorem recv_bytes_append_singleton (c : Char) : ∀ buffer : List Char,
    buffer.length % 2 = 0 →
      recv_bytes (buffer ++ [c]) = recv_bytes buffer ++ [(strtol16 [c] % 256).toNat]
  | [], _ => rfl
  | [_], h => by simp at h
  | c0 :: c1 :: rest, h => by
    have h2 : rest.length % 2 = 0 := by
      simp only [List.length_cons] at h
      omega
    have ih := recv_bytes_append_singleton c rest h2
    show recv_bytes (c0 :: c1 :: (rest ++ [c])) = _
    simp only [recv_bytes, ih, List.cons_append]

theorem recv_data_append_singleton (slack : Nat) (frame : List Char) (c : Char)
    (hs : 0 < slack) (heven : frame.length % 2 = 0) (hlen : frame.length + 1 < 4294967296) :
    recv_data slack (frame ++ [c]) = .ok (recv_bytes frame)
    ∧ recv_data slack frame = .ok (recv_bytes frame) := by
  have hl : (frame ++ [c]).length = frame.length + 1 := by simp
  have ht : (frame.length + 1) >>> 1 = (recv_bytes frame).length := by
    rw [recv_bytes_length, Nat.shiftRight_eq_div_pow]
  constructor
  · unfold recv_data
    rw [hl, if_neg (by unfold U32; omega), if_pos (by omega), if_neg (by omega),
      recv_bytes_append_singleton c frame heven, ht, List.take_left]
  · unfold recv_data
    rw [if_neg (by unfold U32; omega), if_neg (by omega)]

/-! ## ShiftRows -/

namespace AES

set_option maxRecDepth 100000 in
/-- C20 on the code, at the state `0, 1, .., 15`.  On the 16-byte state alone
`shift_rows` leaves the array in both directions.  Where the twelve bytes behind the
state are addressable, the rows at indices 0 and 4 come out as specified, the row at
index 8 is not rotated at all, and the row at index 12 is rotated by two positions
instead of three; `shift_rows_spec` gives the rotation by `r` positions. -/
theorem shift_rows_rotations :
    shift_rows (List.range 16) false = .error .fault
    ∧ shift_rows (List.range 16) true = .error .fault
    ∧ shift_rows (List.range 16 ++ List.replicate 12 99) false
        = .ok ([0, 1, 2, 3, 5, 6, 7, 4, 8, 9, 10, 11, 14, 15, 12, 13] ++ List.replicate 12 99)
    ∧ shift_rows_spec (List.range 16) false
        = [0, 1, 2, 3, 5, 6, 7, 4, 10, 11, 8, 9, 15, 12, 13, 14]
    ∧ shift_rows (List.range 16 ++ List.replicate 12 99) true
        = .ok ([0, 1, 2, 3, 7, 4, 5, 6, 8, 9, 10, 11, 14, 15, 12, 13] ++ List.replicate 12 99)
    ∧ shift_rows_spec (List.range 16) true
        = [0, 1, 2, 3, 7, 4, 5, 6, 10, 11, 8, 9, 13, 14, 15, 12] := by
  decide

end AES

/-! ## RSA: range checks and key generation -/

namespace RSA

/-- The integer-level functions make the range test as specified: `encrypt` with a
public key throws `invalid_pt` exactly when `pt ≥ n` and otherwise returns
`pt ^ e mod n`; `decrypt` with a private key throws `invalid_ct` exactly when `ct ≥ n`
and otherwise returns `ct ^ d mod n`. -/
theorem range_check_mpz (x : Nat) (pub : PubKey) (priv : PrivKey) :
    (encrypt_mpz_pub x pub = .error .invalid_pt ↔ x ≥ pub.n)
    ∧ (x < pub.n → encrypt_mpz_pub x pub = .ok (x ^ pub.e % pub.n))
    ∧ (decrypt_mpz_priv x priv = .error .invalid_ct ↔ x ≥ priv.n)
    ∧ (x < priv.n → decrypt_mpz_priv x priv = .ok (x ^ priv.d % priv.n)) := by
  unfold encrypt_mpz_pub decrypt_mpz_priv
  refine ⟨?_, ?_, ?_, ?_⟩
  · by_cases h : x ≥ pub.n <;> simp [h]
  · intro h
    rw [if_neg (by omega), mpz_powm_eq]
  · by_cases h : x ≥ priv.n <;> simp [h]
  · intro h
    rw [if_neg (by omega), mpz_powm_eq]

/-- The byte-level functions in range: when the value of the buffer is below `n` and
the result `r` is not zero, they return the big-endian bytes of `r = value ^ e mod n`
(`value ^ d mod n`). -/
theorem range_check_bytes_ok (stale : Nat → Nat) (buf : List Nat) (pub : PubKey)
    (priv : PrivKey) :
    (mpz_import buf < pub.n → mpz_import buf ^ pub.e % pub.n ≠ 0 →
      mpz_sizeinbase2 pub.n < U32 →
      encrypt_pub stale buf pub = .ok (mpz_export (mpz_import buf ^ pub.e % pub.n)))
    ∧ (mpz_import buf < priv.n → mpz_import buf ^ priv.d % priv.n ≠ 0 →
      mpz_sizeinbase2 priv.n < U32 →
      decrypt_priv stale buf priv = .ok (mpz_export (mpz_import buf ^ priv.d % priv.n))) := by
  have key : ∀ n r : Nat, r < n → r ≠ 0 → mpz_sizeinbase2 n < U32 →
      (mpz_sizeinbase2 r + (1 <<< 3) - 1) / (1 <<< 3) < U32 := by
    intro n r hr h0 hn
    have h8 : (1 <<< 3 : Nat) = 8 := by decide
    have hn0 : n ≠ 0 := by omega
    have hle : mpz_sizeinbase2 r ≤ mpz_sizeinbase2 n := by
      rw [mpz_sizeinbase2_eq r h0, mpz_sizeinbase2_eq n hn0]
      have h1 : r < 2 ^ (n.log2 + 1) := lt_trans hr Nat.lt_log2_self
      have := (Nat.log2_lt h0).mpr h1
      omega
    rw [h8]
    unfold U32 at *
    omega
  constructor
  · intro hlt hne hsz
    have hn0 : 0 < pub.n := by omega
    unfold encrypt_pub encrypt_mpz_pub
    rw [if_neg (by omega), mpz_powm_eq]
    exact export_result_ok _ _ hne (key pub.n _ (Nat.mod_lt _ hn0) hne hsz)
  · intro hlt hne hsz
    have hn0 : 0 < priv.n := by omega
    unfold decrypt_priv decrypt_mpz_priv
    rw [if_neg (by omega), mpz_powm_eq]
    exact export_result_ok _ _ hne (key priv.n _ (Nat.mod_lt _ hn0) hne hsz)

/-- C11 on the code: when the value of the buffer is `≥ n`, the integer-level function
throws `invalid_pt` (`invalid_ct`), but the byte-level function catches it as
`const std::exception &exc` and executes `throw exc;`, which throws a copy of static
type `std::exception`: the caller of the byte-level `encrypt` and `decrypt` receives
neither a `runtime_error` nor the message. -/
theorem range_error_sliced (stale : Nat → Nat) (buf : List Nat) (pub : PubKey)
    (priv : PrivKey) (hpt : mpz_import buf ≥ pub.n) (hct : mpz_import buf ≥ priv.n) :
    encrypt_mpz_pub (mpz_import buf) pub = .error .invalid_pt
    ∧ encrypt_pub stale buf pub = .error .std_exception
    ∧ encrypt_pub stale buf pub ≠ .error .invalid_pt
    ∧ decrypt_mpz_priv (mpz_import buf) priv = .error .invalid_ct
    ∧ decrypt_priv stale buf priv = .error .std_exception
    ∧ decrypt_priv stale buf priv ≠ .error .invalid_ct := by
  have h1 : encrypt_mpz_pub (mpz_import buf) pub = .error .invalid_pt := by
    unfold encrypt_mpz_pub; rw [if_pos hpt]
  have h2 : decrypt_mpz_priv (mpz_import buf) priv = .error .invalid_ct := by
    unfold decrypt_mpz_priv; rw [if_pos hct]
  have h3 : encrypt_pub stale buf pub = .error .std_exception := by
    unfold encrypt_pub; rw [h1]; rfl
  have h4 : decrypt_priv stale buf priv = .error .std_exception := by
    unfold decrypt_priv; rw [h2]; rfl
  refine ⟨h1, h3, ?_, h2, h4, ?_⟩
  · rw [h3]; decide
  · rw [h4]; decide

theorem range_error_sliced_witness :
    mpz_import [16] ≥ (⟨15, 65537⟩ : PubKey).n
    ∧ mpz_import [16] ≥ (⟨3, 5, 1, 15, 65537⟩ : PrivKey).n
    ∧ (encrypt_mpz_pub (mpz_import [16]) ⟨15, 65537⟩ = .error .invalid_pt
      ∧ encrypt_pub (fun _ => 0) [16] ⟨15, 65537⟩ = .error .std_exception
      ∧ encrypt_pub (fun _ => 0) [16] ⟨15, 65537⟩ ≠ .error .invalid_pt
      ∧ decrypt_mpz_priv (mpz_import [16]) ⟨3, 5, 1, 15, 65537⟩ = .error .invalid_ct
      ∧ decrypt_priv (fun _ => 0) [16] ⟨3, 5, 1, 15, 65537⟩ = .error .std_exception
      ∧ decrypt_priv (fun _ => 0) [16] ⟨3, 5, 1, 15, 65537⟩ ≠ .error .invalid_ct) :=
  ⟨by decide, by decide,
    range_error_sliced (fun _ => 0) [16] ⟨15, 65537⟩ ⟨3, 5, 1, 15, 65537⟩
      (by decide) (by decide)⟩

end RSA

theorem no_inverse_of_gcd_ne_one (e phi : Nat) (h : Nat.gcd e phi ≠ 1) (d : Nat) :
    ¬ e * d ≡ 1 [MOD phi] := by
  intro hd
  have h1 : Nat.gcd (e * d) phi = Nat.gcd 1 phi := Nat.ModEq.gcd_eq hd
  rw [Nat.gcd_one_left] at h1
  have h2 : Nat.gcd e phi ∣ Nat.gcd (e * d) phi :=
    Nat.gcd_dvd_gcd_mul_right e phi d
  rw [h1] at h2
  exact h (Nat.dvd_one.mp h2)

/-- C12 on the code: `PrivKey::random` has no failure path.  For every pair `p`, `q`
for which `e` is not invertible modulo `(p-1)(q-1)` it returns a key with `n = p * q`
whose `d` is whatever `mpz_invert` left in it, and no such `d` satisfies
`e * d ≡ 1 (mod (p-1)(q-1))`; `incompatible_keys_exc` is not called. -/
theorem PrivKey.random_of_not_invertible (key : PrivKey) (p q undef : Nat)
    (hinv : Nat.gcd key.e ((q - 1) * (p - 1)) ≠ 1) :
    PrivKey.random key p q undef = { p := p, q := q, d := undef, n := p * q, e := key.e }
    ∧ ¬ key.e * undef ≡ 1 [MOD (q - 1) * (p - 1)] := by
  refine ⟨?_, no_inverse_of_gcd_ne_one _ _ hinv undef⟩
  unfold PrivKey.random mpz_invert
  simp only [if_neg hinv]

theorem PrivKey.random_of_not_invertible_witness :
    Nat.gcd (⟨0, 0, 0, 0, 65537⟩ : PrivKey).e ((2164261009 - 1) * (2173469069 - 1)) ≠ 1
    ∧ (PrivKey.random ⟨0, 0, 0, 0, 65537⟩ 2173469069 2164261009 0
        = { p := 2173469069, q := 2164261009, d := 0, n := 2173469069 * 2164261009,
            e := 65537 }
      ∧ ¬ 65537 * 0 ≡ 1 [MOD (2164261009 - 1) * (2173469069 - 1)]) :=
  ⟨by decide,
    PrivKey.random_of_not_invertible ⟨0, 0, 0, 0, 65537⟩ 2173469069 2164261009 0 (by decide)⟩

/-! ## The handshake -/

theorem strtol_digits_digitChar (d : Nat) (hd : d < 16) (rest : List Char) (acc : Nat) :
    strtol_digits (Nat.digitChar d :: rest) acc = strtol_digits rest (acc * 16 + d) := by
  simp only [strtol_digits, (hex_val_digitChar d hd).1]

theorem toDigitsCore_spec (fuel : Nat) : ∀ n ds, n < fuel →
    ∃ pre, Nat.toDigitsCore 16 fuel n ds = pre ++ ds
      ∧ (∀ c ∈ pre, ∃ d, d < 16 ∧ c = Nat.digitChar d)
      ∧ ∀ acc rest, strtol_digits (pre ++ rest) acc
          = strtol_digits rest (acc * 16 ^ pre.length + n) := by
  induction fuel with
  | zero => intro n ds h; omega
  | succ f ih =>
    intro n ds hn
    have hmod : n % 16 < 16 := Nat.mod_lt _ (by norm_num)
    by_cases h0 : n / 16 = 0
    · refine ⟨[Nat.digitChar (n % 16)], ?_, ?_, ?_⟩
      · simp [Nat.toDigitsCore, h0]
      · intro c hc
        exact ⟨n % 16, hmod, by simpa using hc⟩
      · intro acc rest
        have : n % 16 = n := Nat.mod_eq_of_lt (by omega)
        rw [List.singleton_append, strtol_digits_digitChar _ hmod, this]
        simp
    · obtain ⟨pre, h1, h2, h3⟩ := ih (n / 16) (Nat.digitChar (n % 16) :: ds) (by omega)
      refine ⟨pre ++ [Nat.digitChar (n % 16)], ?_, ?_, ?_⟩
      · simp [Nat.toDigitsCore, h0, h1]
      · intro c hc
        rcases List.mem_append.mp hc with h | h
        · exact h2 c h
        · exact ⟨n % 16, hmod, by simpa using h⟩
      · intro acc rest
        rw [List.append_assoc, h3, List.singleton_append, strtol_digits_digitChar _ hmod,
          List.length_append, List.length_singleton, pow_succ]
        congr 1
        have := Nat.div_add_mod n 16
        nlinarith

/-- The text returned by `mpz_get_str` in base 16 consists of lowercase hexadecimal
digits, and read as a number in base 16 it is `x`. -/
theorem mpz_get_str_spec (x : Nat) :
    (∀ c ∈ mpz_get_str 16 x,
      (48 ≤ c.toNat ∧ c.toNat ≤ 57) ∨ (97 ≤ c.toNat ∧ c.toNat ≤ 102))
    ∧ strtol_digits (mpz_get_str 16 x) 0 = x := by
  obtain ⟨pre, h1, h2, h3⟩ := toDigitsCore_spec (x + 1) x [] (by omega)
  unfold mpz_get_str Nat.toDigits
  rw [h1, List.append_nil]
  constructor
  · intro c hc
    obtain ⟨d, hd, rfl⟩ := h2 c hc
    exact (hex_val_digitChar d hd).2
  · have := h3 0 []
    rw [List.append_nil] at this
    rw [this]
    simp [strtol_digits]

theorem mpz_get_str_isBytes (x : Nat) : IsBytes ((mpz_get_str 16 x).map Char.toNat) := by
  intro b hb
  obtain ⟨c, hc, rfl⟩ := List.mem_map.mp hb
  have := (mpz_get_str_spec x).1 c hc
  omega

namespace Client

/-- C14, as amended: for every public key `(n, e)` the first text the client sends is
the hex encoding by `send_data` of the characters of `n` written in base 16 (the string
of `mpz_get_str`: lowercase digits, the value `n`), two characters of the frame for every
hexadecimal digit of `n`, and the second text is the same encoding of `e`; `recv_data`
decodes each of them to the characters of the number.  Stated for numbers of fewer than
`2^31` hexadecimal digits. -/
theorem share_pub_key_format (slack : Nat) (pubkey : PubKey)
    (hn : (mpz_get_str 16 pubkey.n).length < 2147483648)
    (he : (mpz_get_str 16 pubkey.e).length < 2147483648) :
    (share_pub_key pubkey).1 = send_data ((mpz_get_str 16 pubkey.n).map Char.toNat)
    ∧ (share_pub_key pubkey).2 = send_data ((mpz_get_str 16 pubkey.e).map Char.toNat)
    ∧ (share_pub_key pubkey).1.length = 2 * (mpz_get_str 16 pubkey.n).length
    ∧ (share_pub_key pubkey).2.length = 2 * (mpz_get_str 16 pubkey.e).length
    ∧ recv_data slack (share_pub_key pubkey).1
        = .ok ((mpz_get_str 16 pubkey.n).map Char.toNat)
    ∧ recv_data slack (share_pub_key pubkey).2
        = .ok ((mpz_get_str 16 pubkey.e).map Char.toNat)
    ∧ strtol_digits (mpz_get_str 16 pubkey.n) 0 = pubkey.n
    ∧ strtol_digits (mpz_get_str 16 pubkey.e) 0 = pubkey.e := by
  have key : ∀ x : Nat, (mpz_get_str 16 x).length < 2147483648 →
      List.take (((mpz_get_str 16 x).map Char.toNat).length % U32)
        ((mpz_get_str 16 x).map Char.toNat) = (mpz_get_str 16 x).map Char.toNat := by
    intro x hx
    apply List.take_of_length_le
    rw [Nat.mod_eq_of_lt (by rw [List.length_map]; unfold U32; omega)]
  have h1 : (share_pub_key pubkey).1 = send_data ((mpz_get_str 16 pubkey.n).map Char.toNat) := by
    simp only [share_pub_key, key _ hn]
  have h2 : (share_pub_key pubkey).2 = send_data ((mpz_get_str 16 pubkey.e).map Char.toNat) := by
    simp only [share_pub_key, key _ he]
  have l1 := (recv_bytes_send_data _ (mpz_get_str_isBytes pubkey.n)).2
  have l2 := (recv_bytes_send_data _ (mpz_get_str_isBytes pubkey.e)).2
  rw [List.length_map] at l1 l2
  refine ⟨h1, h2, by rw [h1, l1], by rw [h2, l2], ?_, ?_, (mpz_get_str_spec _).2,
    (mpz_get_str_spec _).2⟩
  · rw [h1]
    exact recv_data_send_data slack _ (mpz_get_str_isBytes _)
      (by rw [List.length_map]; unfold U32; omega)
  · rw [h2]
    exact recv_data_send_data slack _ (mpz_get_str_isBytes _)
      (by rw [List.length_map]; unfold U32; omega)

theorem share_pub_key_format_witness :
    (mpz_get_str 16 (⟨171, 65537⟩ : PubKey).n).length < 2147483648
    ∧ (mpz_get_str 16 (⟨171, 65537⟩ : PubKey).e).length < 2147483648
    ∧ ((share_pub_key ⟨171, 65537⟩).1
          = send_data ((mpz_get_str 16 (⟨171, 65537⟩ : PubKey).n).map Char.toNat)
      ∧ (share_pub_key ⟨171, 65537⟩).2
          = send_data ((mpz_get_str 16 (⟨171, 65537⟩ : PubKey).e).map Char.toNat)
      ∧ (share_pub_key ⟨171, 65537⟩).1.length
          = 2 * (mpz_get_str 16 (⟨171, 65537⟩ : PubKey).n).length
      ∧ (share_pub_key ⟨171, 65537⟩).2.length
          = 2 * (mpz_get_str 16 (⟨171, 65537⟩ : PubKey).e).length
      ∧ recv_data 0 (share_pub_key ⟨171, 65537⟩).1
          = .ok ((mpz_get_str 16 (⟨171, 65537⟩ : PubKey).n).map Char.toNat)
      ∧ recv_data 0 (share_pub_key ⟨171, 65537⟩).2
          = .ok ((mpz_get_str 16 (⟨171, 65537⟩ : PubKey).e).map Char.toNat)
      ∧ strtol_digits (mpz_get_str 16 (⟨171, 65537⟩ : PubKey).n) 0 = (⟨171, 65537⟩ : PubKey).n
      ∧ strtol_digits (mpz_get_str 16 (⟨171, 65537⟩ : PubKey).e) 0
          = (⟨171, 65537⟩ : PubKey).e) :=
  ⟨by decide, by decide, share_pub_key_format 0 ⟨171, 65537⟩ (by decide) (by decide)⟩

/-- C14 as stated fails: for `n = 171 = 0xab`, `e = 65537 = 0x10001` the client sends
the texts `6162` and `3130303031`, the hex encoding of the characters `a`, `b` and of
`1`, `0`, `0`, `0`, `1`; the hex encoding of the minimal big-endian bytes of `n` and `e`
would be `ab` and `010001`. -/
theorem share_pub_key_is_text :
    share_pub_key ⟨171, 65537⟩
      = (['6', '1', '6', '2'], ['3', '1', '3', '0', '3', '0', '3', '0', '3', '1'])
    ∧ mpz_export 171 = [171] ∧ mpz_export 65537 = [1, 0, 1]
    ∧ send_data (mpz_export 171) = ['a', 'b']
    ∧ send_data (mpz_export 65537) = ['0', '1', '0', '0', '0', '1']
    ∧ (share_pub_key ⟨171, 65537⟩).1 ≠ send_data (mpz_export 171)
    ∧ (share_pub_key ⟨171, 65537⟩).2 ≠ send_data (mpz_export 65537) := by
  decide

end Client

theorem mpz_export_head_ne_zero (x : Nat) (hx : x ≠ 0) : (mpz_export x).headD 0 ≠ 0 := by
  rw [mpz_export_eq_digits]
  have hne : Nat.digits 256 x ≠ [] := Nat.digits_ne_nil_iff_ne_zero.mpr hx
  have hlast := Nat.getLast_digit_ne_zero 256 hx
  rw [List.headD_eq_head?_getD, List.head?_reverse, List.getLast?_eq_getLast _ hne]
  exact hlast

namespace RSA

/-- What the export step can return: one byte that `mpz_export` has not written when
the result is zero, and otherwise the minimal big-endian bytes of the result, which do
not start with a zero byte. -/
theorem export_result_ok_cases (stale : Nat → Nat) (x : Nat) (out : List Nat)
    (h : export_result stale (.ok x) = .ok out) :
    (x = 0 ∧ out = [stale 0]) ∨ (x ≠ 0 ∧ out = mpz_export x) := by
  by_cases hx : x = 0
  · subst hx
    left
    have h0 : export_result stale (.ok 0) = .ok [stale 0] := rfl
    rw [h0] at h
    exact ⟨rfl, (Except.ok.inj h).symm⟩
  · right
    refine ⟨hx, ?_⟩
    unfold export_result at h
    simp only at h
    rw [← mpz_export_length x hx] at h
    have hle : (mpz_export x).length % U32 ≤ (mpz_export x).length := Nat.mod_le _ _
    by_cases hlt : (mpz_export x).length % U32 < (mpz_export x).length
    · unfold export_into at h
      simp only [hlt, if_true] at h
      cases h
    · have heq : (mpz_export x).length % U32 = (mpz_export x).length := by omega
      rw [heq, export_into_eq] at h
      exact (Except.ok.inj h).symm

theorem decrypt_priv_ok_cases (stale : Nat → Nat) (buf : List Nat) (key : PrivKey)
    (out : List Nat) (h : decrypt_priv stale buf key = .ok out) :
    out.length = 1 ∨ out.headD 0 ≠ 0 := by
  unfold decrypt_priv at h
  cases hr : decrypt_mpz_priv (mpz_import buf) key with
  | error e =>
    rw [hr] at h
    cases h
  | ok x =>
    rw [hr] at h
    rcases export_result_ok_cases stale x out h with ⟨-, h1⟩ | ⟨hx, h1⟩
    · left; rw [h1]; rfl
    · right; rw [h1]; exact mpz_export_head_ne_zero x hx

end RSA

theorem get_aes_key_32 (rand : Nat → Nat) :
    Server.get_aes_key rand 32 = (List.range 48).map (fun i => rand i &&& 0xff) := rfl

theorem get_aes_key_32_length (rand : Nat → Nat) :
    (Server.get_aes_key rand 32).length = 48 := by
  rw [get_aes_key_32, List.length_map, List.length_range]

theorem get_aes_key_32_head (rand : Nat → Nat) :
    (Server.get_aes_key rand 32).headD 0 = rand 0 &&& 0xff := by
  rw [get_aes_key_32, List.range_succ_eq_map]
  rfl

/-- C13 on the code: whenever the first of the 48 bytes drawn by `get_aes_key` is zero,
the buffer that `recv_aes_key` returns for the text of `share_aes_key` is not the
server's key material, whatever the two keys are: `RSA::decrypt` returns the minimal
encoding of the value, which does not start with a zero byte. -/
theorem handshake_drops_leading_zero (stale_ct stale_pt : Nat → Nat) (slack : Nat)
    (rand : Nat → Nat) (pubkey : PubKey) (privkey : PrivKey) (h0 : rand 0 &&& 0xff = 0) :
    (Server.get_aes_key rand 32).length = 48
    ∧ (Server.share_aes_key stale_ct (Server.get_aes_key rand 32) pubkey).bind
        (fun frame => Client.recv_aes_key stale_pt slack privkey frame)
      ≠ .ok (Server.get_aes_key rand 32) := by
  refine ⟨get_aes_key_32_length rand, fun h => ?_⟩
  have hlen := get_aes_key_32_length rand
  have hhead := get_aes_key_32_head rand
  rw [h0] at hhead
  cases hs : Server.share_aes_key stale_ct (Server.get_aes_key rand 32) pubkey with
  | error e =>
    rw [hs] at h
    cases h
  | ok frame =>
    rw [hs] at h
    change Client.recv_aes_key stale_pt slack privkey frame = _ at h
    unfold Client.recv_aes_key at h
    cases hr : recv_data slack frame with
    | error e =>
      rw [hr] at h
      cases h
    | ok dest =>
      rw [hr] at h
      change RSA.decrypt_priv stale_pt dest privkey = _ at h
      rcases RSA.decrypt_priv_ok_cases _ _ _ _ h with h1 | h1
      · omega
      · exact h1 hhead

theorem handshake_drops_leading_zero_witness :
    (fun i : Nat => 256 * (i + 1) + i) 0 &&& 0xff = 0
    ∧ ((Server.get_aes_key (fun i => 256 * (i + 1) + i) 32).length = 48
      ∧ (Server.share_aes_key (fun _ => 0) (Server.get_aes_key (fun i => 256 * (i + 1) + i) 32)
            (PubKey.of_priv ⟨16777259, 16777289, 190441533014545, 281476922870851, 65537⟩)).bind
          (fun frame => Client.recv_aes_key (fun _ => 0) 0
            ⟨16777259, 16777289, 190441533014545, 281476922870851, 65537⟩ frame)
        ≠ .ok (Server.get_aes_key (fun i => 256 * (i + 1) + i) 32)) :=
  ⟨by decide, handshake_drops_leading_zero (fun _ => 0) (fun _ => 0) 0
    (fun i => 256 * (i + 1) + i)
    (PubKey.of_priv ⟨16777259, 16777289, 190441533014545, 281476922870851, 65537⟩)
    ⟨16777259, 16777289, 190441533014545, 281476922870851, 65537⟩ (by decide)⟩

/-- The handshake where it works: for distinct primes `p`, `q`, `n = p * q`,
`e = 65537`, `e * d ≡ 1 (mod (p-1)(q-1))` and key material of bytes whose first byte is
not zero and whose value is below `n`, `recv_aes_key` returns the key material from the
text of `share_aes_key`. -/
theorem handshake_of_nonzero_head (key : PrivKey) (aeskey : List Nat)
    (stale_ct stale_pt : Nat → Nat) (slack : Nat)
    (hp : key.p.Prime) (hq : key.q.Prime) (hpq : key.p ≠ key.q)
    (hn : key.n = key.p * key.q) (he : key.e = 65537)
    (hd : key.e * key.d ≡ 1 [MOD (key.p - 1) * (key.q - 1)])
    (hpb : mpz_sizeinbase2 key.p < U32) (hqb : mpz_sizeinbase2 key.q < U32)
    (hbytes : IsBytes aeskey) (hm0 : aeskey.headD 0 ≠ 0) (hlt : mpz_import aeskey < key.n) :
    (Server.share_aes_key stale_ct aeskey (PubKey.of_priv key)).bind
      (fun frame => Client.recv_aes_key stale_pt slack key frame) = .ok aeskey := by
  obtain ⟨ct, h1, h2, h3, h4⟩ := RSA.encrypt_decrypt_steps key aeskey stale_ct stale_pt hp hq hpq
    hn he hd hpb hqb hbytes hm0 hlt
  have hrecv := recv_data_send_data slack ct h2 (by unfold U32 at *; omega)
  simp only [Server.share_aes_key, h1, Except.bind, Client.recv_aes_key, hrecv, h4]

/-! ## AES: from the ciphertext back to the ciphertext -/

namespace AES

set_option maxRecDepth 100000 in
theorem sbox_inv_sbox : ∀ b, b < 256 → sbox.getD (inv_sbox.getD b 0) 0 = b := by decide

theorem substitute_bytes_fwd_inv (bytes : List Nat) (hb : IsBytes bytes) :
    substitute_bytes (substitute_bytes bytes true) false = bytes := by
  simp only [substitute_bytes, List.map_map]
  conv_rhs => rw [← List.map_id bytes]
  apply List.map_congr_left
  intro b hb'
  simpa using sbox_inv_sbox b (hb b hb')

theorem shift_rows_state_fwd_inv (m : List Nat) (hm : m.length = 16) :
    shift_rows_state (shift_rows_state m true) false = m := by
  obtain ⟨a0, a1, a2, a3, a4, a5, a6, a7, a8, a9, a10, a11, a12, a13, a14, a15, rfl⟩ := eq_of_length_16 m hm
  rw [(shift_rows_state_cons a0 a1 a2 a3 a4 a5 a6 a7 a8 a9 a10 a11 a12 a13 a14 a15).2,
    (shift_rows_state_cons a0 a1 a2 a3 a7 a4 a5 a6 a8 a9 a10 a11 a14 a15 a12 a13).1]

theorem add_round_key_length (rk m : List Nat) (hrk : rk.length = 16) (hm : m.length = 16) :
    (add_round_key rk m).length = 16 := by
  unfold add_round_key
  rw [xor_bufs_length _ _ (by rw [hm, hrk]), hm]

theorem inv_round_state_isBytes (ek : List Nat) (n : Nat) (m : List Nat) (r : Nat) :
    IsBytes (inv_round_state ek n m r) := by
  unfold inv_round_state
  exact substitute_bytes_isBytes _ _

theorem round_state_inv_round_state (ek : List Nat) (n : Nat) (m : List Nat) (r : Nat)
    (hr : r < n) (hm : m.length = 16) (hb : IsBytes m) (hek : IsBytes ek) :
    round_state ek n (inv_round_state ek n m (n - 1 - r)) r = m := by
  unfold inv_round_state round_state
  simp only [mix_columns_eq, ite_self]
  have hidx : n - (n - 1 - r) = r + 1 := by omega
  have hl : (add_round_key (get_round_key ek ((r + 1) * block_size)) m).length = 16 :=
    add_round_key_length _ _ (get_round_key_length _ _) hm
  have hbb : IsBytes (add_round_key (get_round_key ek ((r + 1) * block_size)) m) :=
    xor_bufs_isBytes _ _ hb (get_round_key_isBytes _ _ hek)
  rw [hidx, substitute_bytes_fwd_inv _ (shift_rows_state_isBytes _ _ hl hbb),
    shift_rows_state_fwd_inv _ hl]
  unfold add_round_key
  rw [xor_bufs_cancel _ _ (by rw [hm, get_round_key_length])]

theorem foldl_round_state_inv (ek : List Nat) (n : Nat) (hek : IsBytes ek) (k : Nat) :
    k ≤ n → ∀ m : List Nat, m.length = 16 → IsBytes m →
      (List.range k).foldl (round_state ek n)
        ((List.range' (n - k) k).foldl (inv_round_state ek n) m) = m := by
  induction k with
  | zero => intro _ m _ _; rfl
  | succ k ih =>
    intro hk m hm hb
    rw [List.range_succ, List.foldl_append, List.foldl_cons, List.foldl_nil, List.range'_succ,
      List.foldl_cons]
    have h2 : n - (k + 1) + 1 = n - k := by omega
    have h1 : n - (k + 1) = n - 1 - k := by omega
    rw [h2, ih (by omega) _ (inv_round_state_length ek n m _ hm)
      (inv_round_state_isBytes ek n m _), h1]
    exact round_state_inv_round_state ek n m k (by omega) hm hb hek

theorem foldl_inv_round_state_isBytes (ek : List Nat) (n : Nat) (rs : List Nat) :
    ∀ m : List Nat, IsBytes m → IsBytes (rs.foldl (inv_round_state ek n) m) := by
  induction rs with
  | nil => intro m hb; exact hb
  | cons r rs ih => intro m _; exact ih _ (inv_round_state_isBytes ek n m r)

/-- One block, the other way round: when the twelve bytes behind the state array are
addressable in both calls, `rijndael` undoes `inv_rijndael` on every block of 16
bytes. -/
theorem rijndael_inv_rijndael (adjE adjD blk ek : List Nat) (ekb : Nat)
    (hE : 12 ≤ adjE.length) (hD : 12 ≤ adjD.length) (hblk : blk.length = 16)
    (hb : IsBytes blk) (hek : IsBytes ek) :
    ∃ pt, inv_rijndael adjD blk ek ekb = .ok pt ∧ pt.length = 16 ∧ IsBytes pt
      ∧ rijndael adjE pt ek ekb = .ok blk := by
  obtain ⟨N, hN⟩ : ∃ N, ((ekb >>> 4) + U32 - 1) % U32 = N := ⟨_, rfl⟩
  have hFl := foldl_inv_round_state_length ek N (List.range N) _ (transpose_length blk)
  have hFb := foldl_inv_round_state_isBytes ek N (List.range N) _
    (transpose_isBytes blk hblk hb)
  have hXl := add_round_key_length (get_round_key ek 0) _ (get_round_key_length _ _) hFl
  have hXb : IsBytes (add_round_key (get_round_key ek 0)
      ((List.range N).foldl (inv_round_state ek N) (transpose blk))) :=
    xor_bufs_isBytes _ _ hFb (get_round_key_isBytes ek 0 hek)
  refine ⟨_, inv_rijndael_eq adjD blk ek ekb N hN hD, transpose_length _,
    transpose_isBytes _ hXl hXb, ?_⟩
  rw [rijndael_eq _ _ _ _ N hN hE, transpose_transpose _ hXl]
  have hc : add_round_key (get_round_key ek 0) (add_round_key (get_round_key ek 0)
      ((List.range N).foldl (inv_round_state ek N) (transpose blk)))
      = (List.range N).foldl (inv_round_state ek N) (transpose blk) := by
    unfold add_round_key
    rw [xor_bufs_cancel _ _ (by rw [hFl, get_round_key_length])]
  rw [hc]
  have hfold := foldl_round_state_inv ek N hek N (le_refl _) _ (transpose_length blk)
    (transpose_isBytes blk hblk hb)
  rw [Nat.sub_self, ← List.range_eq_range'] at hfold
  rw [hfold, transpose_transpose _ hblk]

theorem encrypt_blocks_decrypt_blocks (adjE adjD : Nat → List Nat) (ek : List Nat) (ekb : Nat)
    (hE : ∀ i, 12 ≤ (adjE i).length) (hD : ∀ i, 12 ≤ (adjD i).length) (hek : IsBytes ek)
    (n : Nat) : ∀ (i j : Nat) (iv buf : List Nat), iv.length = 16 → IsBytes iv →
      buf.length = 16 * n → IsBytes buf →
      ∃ pt, decrypt_blocks adjD ek ekb n j iv buf = .ok pt ∧ pt.length = buf.length
        ∧ IsBytes pt ∧ encrypt_blocks adjE ek ekb n i iv pt = .ok buf := by
  induction n with
  | zero =>
    intro i j iv buf _ _ hlen
    intro hb
    exact ⟨buf, rfl, rfl, hb, rfl⟩
  | succ n ih =>
    intro i j iv buf hiv hivb hlen hbuf
    have htake : (buf.take 16).length = 16 := by rw [List.length_take]; omega
    have hdrop : (buf.drop 16).length = 16 * n := by rw [List.length_drop]; omega
    obtain ⟨p0, hp0, hp0l, hp0b, hfwd⟩ := rijndael_inv_rijndael (adjE i) (adjD j)
      (buf.take 16) ek ekb (hE i) (hD j) htake (isBytes_take _ _ hbuf) hek
    obtain ⟨pr, hpr, hprl, hprb, henc⟩ := ih (i + 1) (j + 1) (buf.take 16) (buf.drop 16) htake
      (isBytes_take _ _ hbuf) hdrop (isBytes_drop _ _ hbuf)
    have hxl : (xor_bufs p0 iv).length = 16 := by
      rw [xor_bufs_length _ _ (by rw [hp0l, hiv]), hp0l]
    refine ⟨xor_bufs p0 iv ++ pr, ?_, ?_, isBytes_append _ _ (xor_bufs_isBytes _ _ hp0b hivb) hprb,
      ?_⟩
    · rw [decrypt_blocks, hp0]
      simp only [Except.bind, hpr]
    · rw [List.length_append, hxl, hprl, hdrop, hlen]; omega
    · rw [encrypt_blocks, List.take_left' hxl, List.drop_left' hxl,
        xor_bufs_cancel _ _ (by rw [hp0l, hiv]), hfwd]
      simp only [Except.bind, henc]
      rw [List.take_append_drop]

/-- The data flow of CBC, from the ciphertext: when the twelve bytes behind the state
array are addressable in every call, `decrypt` returns a buffer for every non-empty
block-aligned buffer of bytes, and `encrypt` maps that buffer back to the ciphertext. -/
theorem encrypt_decrypt_of_addressable (adjE adjD : Nat → List Nat) (ct key iv : List Nat)
    (hE : ∀ i, 12 ≤ (adjE i).length) (hD : ∀ i, 12 ≤ (adjD i).length)
    (hkey : key.length = 16 ∨ key.length = 24 ∨ key.length = 32) (hkb : IsBytes key)
    (hiv : iv.length = 16) (hivb : IsBytes iv)
    (hct0 : ct ≠ []) (hct : ct.length % 16 = 0) (hctb : IsBytes ct) :
    ∃ pt, decrypt adjD ct key iv = .ok pt ∧ pt.length = ct.length ∧ IsBytes pt
      ∧ encrypt adjE pt key iv = .ok ct := by
  have hn : ct.length ≠ 0 := by simpa using hct0
  have hkv : ¬ (key.length < block_size ∨ key.length &&& 0x07 ≠ 0) := by
    rw [and7_eq_mod]
    unfold block_size
    omega
  obtain ⟨ek, hek⟩ := expand_key_ok key hkey
  have hekb := expand_key_isBytes key ek hkb hek
  have hivt : iv.take 16 = iv := List.take_of_length_le (by omega)
  obtain ⟨pt, hpt, hptl, hptb, henc⟩ := encrypt_blocks_decrypt_blocks adjE adjD ek.1 ek.2 hE hD
    hekb (ct.length / 16) 0 0 iv ct hiv hivb (by omega) hctb
  refine ⟨pt, ?_, hptl, hptb, ?_⟩
  · simp only [decrypt]
    rw [if_neg hn, if_neg hkv, hek]
    simp only [Except.bind, hivt, block_size]
    exact hpt
  · have hptn : pt.length ≠ 0 := by omega
    have hal : ¬ (pt.length % block_size ≠ 0) := by
      unfold block_size; omega
    simp only [encrypt]
    rw [if_neg hptn, if_neg hal, if_neg hkv, hek]
    simp only [Except.bind, hivt, block_size, hptl]
    exact henc

end AES

/-! ## The receiver's pipeline on frames that were not sent -/

namespace PKCS7

theorem eq_replicate_of_any_ne (l : List Nat) (v : Nat)
    (h : l.any (fun x => x != v) = false) : l = List.replicate l.length v := by
  rw [List.eq_replicate_iff]
  refine ⟨rfl, fun b hb => ?_⟩
  by_contra hne
  have : l.any (fun x => x != v) = true :=
    List.any_eq_true.mpr ⟨b, hb, by simpa using hne⟩
  rw [h] at this
  cases this

/-- What `unpad` returns determines its argument: a buffer from which `unpad` returns
`m` is `m` followed by `p` bytes of value `p`, with `p` the difference of the lengths. -/
theorem unpad_eq_ok (buffer m : List Nat) (block_size : Nat)
    (h : unpad buffer block_size = .ok m) :
    buffer = m ++ List.replicate (buffer.length - m.length) (buffer.length - m.length) := by
  unfold unpad check_padding at h
  simp only at h
  generalize buffer.getD (buffer.length - 1) 0 = p at h
  split_ifs at h with h1 h2 h3 h4 h5
  simp only [Except.ok.injEq] at h
  have hml : m.length = buffer.length - p := by
    rw [← h, List.length_take]
    omega
  have hd : buffer.length - m.length = p := by omega
  have hrep := eq_replicate_of_any_ne _ _ (Bool.eq_false_iff.mpr h5)
  rw [List.length_drop] at hrep
  have hsub : buffer.length - (buffer.length - p) = p := by omega
  rw [hsub] at hrep
  rw [hd]
  conv_lhs => rw [← List.take_append_drop (buffer.length - p) buffer]
  rw [h, hrep]

theorem unpad_error (buffer : List Nat) (block_size : Nat) (e : Error) (hne : buffer ≠ [])
    (hb : 0 < block_size) (h : unpad buffer block_size = .error e) : e = .invalid_pad := by
  have hn : buffer.length ≠ 0 := by simpa using hne
  unfold unpad check_padding at h
  simp only at h
  split_ifs at h <;> first | omega | (simp only [Except.error.injEq] at h; exact h.symm)

theorem unpad_of_unaligned (buffer : List Nat) (block_size : Nat) (hb : 0 < block_size)
    (h : buffer.length % block_size ≠ 0) : unpad buffer block_size = .error .invalid_pad := by
  have hn : buffer.length ≠ 0 := by
    intro h0
    rw [h0] at h
    simp at h
  unfold unpad check_padding
  simp only
  rw [if_neg hn, if_neg (by omega), if_pos h]

end PKCS7

namespace AES

theorem xor_bufs_length_max (a b : List Nat) :
    (xor_bufs a b).length = max a.length b.length := by
  induction a generalizing b with
  | nil => cases b <;> simp [xor_bufs]
  | cons x a ih =>
    cases b with
    | nil => simp [xor_bufs]
    | cons y b =>
      simp only [xor_bufs, List.length_cons, ih b]
      omega

theorem inv_rijndael_length (adj blk ek : List Nat) (ekb : Nat) (pt : List Nat)
    (h : inv_rijndael adj blk ek ekb = .ok pt) : pt.length = 16 := by
  unfold inv_rijndael at h
  simp only at h
  cases hf : for_loop (inv_rijndael_round ek (((ekb >>> 4) + U32 - 1) % U32))
      (transpose blk ++ adj) (List.range (((ekb >>> 4) + U32 - 1) % U32)) with
  | error e =>
    rw [hf] at h
    cases h
  | ok mem =>
    rw [hf] at h
    have := Except.ok.inj h
    rw [← this]
    exact transpose_length _

theorem decrypt_blocks_length (adj : Nat → List Nat) (ek : List Nat) (ekb : Nat) (n : Nat) :
    ∀ (i : Nat) (iv buf out : List Nat), 16 * n ≤ buf.length → iv.length ≤ 16 →
      decrypt_blocks adj ek ekb n i iv buf = .ok out → out.length = buf.length := by
  induction n with
  | zero =>
    intro i iv buf out _ _ h
    rw [decrypt_blocks] at h
    rw [← Except.ok.inj h]
  | succ n ih =>
    intro i iv buf out hlen hiv h
    rw [decrypt_blocks] at h
    cases h0 : inv_rijndael (adj i) (buf.take 16) ek ekb with
    | error e =>
      rw [h0] at h
      cases h
    | ok pt =>
      rw [h0] at h
      cases h1 : decrypt_blocks adj ek ekb n (i + 1) (buf.take 16) (buf.drop 16) with
      | error e =>
        simp only [Except.bind, h1] at h
        cases h
      | ok rest =>
        simp only [Except.bind, h1] at h
        have hr := ih (i + 1) (buf.take 16) (buf.drop 16) rest
          (by rw [List.length_drop]; omega) (by rw [List.length_take]; omega) h1
        have hp := inv_rijndael_length _ _ _ _ _ h0
        rw [← Except.ok.inj h, List.length_append, xor_bufs_length_max, hp, hr,
          List.length_drop]
        omega

theorem decrypt_length (adj : Nat → List Nat) (ct key iv pt : List Nat)
    (h : decrypt adj ct key iv = .ok pt) : pt.length = ct.length := by
  unfold decrypt at h
  simp only at h
  split_ifs at h
  cases hek : expand_key key with
  | error e =>
    rw [hek] at h
    cases h
  | ok ek =>
    rw [hek] at h
    exact decrypt_blocks_length adj ek.1 ek.2 _ 0 _ ct pt
      (by unfold block_size; omega) (by rw [List.length_take]; omega) h

theorem decrypt_error (adj : Nat → List Nat) (ct key iv : List Nat) (e : Error)
    (hkey : key.length = 16 ∨ key.length = 24 ∨ key.length = 32) (hct : ct ≠ [])
    (h : decrypt adj ct key iv = .error e) : e = .fault := by
  have hn : ct.length ≠ 0 := by simpa using hct
  have hkv : ¬ (key.length < block_size ∨ key.length &&& 0x07 ≠ 0) := by
    rw [and7_eq_mod]; unfold block_size; omega
  obtain ⟨ek, hek⟩ := expand_key_ok key hkey
  simp only [decrypt] at h
  rw [if_neg hn, if_neg hkv, hek] at h
  exact decrypt_blocks_error_fault adj ek.1 ek.2 _ _ _ _ e h

theorem decrypt_blocks_ok_of_addressable (adj : Nat → List Nat) (ek : List Nat) (ekb : Nat)
    (hD : ∀ i, 12 ≤ (adj i).length) (n : Nat) :
    ∀ (i : Nat) (iv buf : List Nat), ∃ out, decrypt_blocks adj ek ekb n i iv buf = .ok out := by
  induction n with
  | zero => intro i iv buf; exact ⟨buf, rfl⟩
  | succ n ih =>
    intro i iv buf
    obtain ⟨rest, hrest⟩ := ih (i + 1) (buf.take 16) (buf.drop 16)
    rw [decrypt_blocks, inv_rijndael_eq (adj i) _ ek ekb _ rfl (hD i)]
    simp only [Except.bind, hrest]
    exact ⟨_, rfl⟩

/-- The pipeline `AES::decrypt`, then `PKCS7::unpad` with block size 16, on a buffer
whose length is not a multiple of 16, for a key of 16, 24 or 32 bytes: no plaintext is
ever returned.  The pipeline ends with `invalid_pad` whenever `decrypt` returns, which
it does when the buffer has fewer than 16 bytes or the bytes behind the state array are
addressable; otherwise `shift_rows` has left the state array. -/
theorem unaligned_rejected (adj : Nat → List Nat) (ct key iv : List Nat)
    (hkey : key.length = 16 ∨ key.length = 24 ∨ key.length = 32)
    (hal : ct.length % 16 ≠ 0) :
    ((decrypt adj ct key iv).bind (fun pt => PKCS7.unpad pt 16) = .error .invalid_pad
      ∨ (decrypt adj ct key iv).bind (fun pt => PKCS7.unpad pt 16) = .error .fault)
    ∧ ((ct.length < 16 ∨ ∀ i, 12 ≤ (adj i).length) →
      (decrypt adj ct key iv).bind (fun pt => PKCS7.unpad pt 16) = .error .invalid_pad) := by
  have hne : ct ≠ [] := by
    intro h0
    rw [h0] at hal
    simp at hal
  have hok : ∀ pt, decrypt adj ct key iv = .ok pt →
      (decrypt adj ct key iv).bind (fun pt => PKCS7.unpad pt 16) = .error .invalid_pad := by
    intro pt hpt
    rw [hpt]
    exact PKCS7.unpad_of_unaligned pt 16 (by norm_num)
      (by rw [decrypt_length adj ct key iv pt hpt]; exact hal)
  constructor
  · cases hd : decrypt adj ct key iv with
    | error e =>
      right
      rw [decrypt_error adj ct key iv e hkey hne hd]
      rfl
    | ok pt =>
      left
      rw [← hd]
      exact hok pt hd
  · rintro (h16 | hadj)
    · exact hok ct (decrypt_of_short_aux adj ct key iv hkey hne h16)
    · have hn : ct.length ≠ 0 := by simpa using hne
      have hkv : ¬ (key.length < block_size ∨ key.length &&& 0x07 ≠ 0) := by
        rw [and7_eq_mod]; unfold block_size; omega
      obtain ⟨ek, hek⟩ := expand_key_ok key hkey
      obtain ⟨out, hout⟩ := decrypt_blocks_ok_of_addressable adj ek.1 ek.2 hadj
        (ct.length / block_size) 0 (iv.take 16) ct
      refine hok out ?_
      simp only [decrypt]
      rw [if_neg hn, if_neg hkv, hek]
      exact hout

end AES

theorem server_step_eq (adj : Nat → List Nat) (slack : Nat) (key iv : List Nat)
    (frame : List Char)
    (hkey : key.length = 16 ∨ key.length = 24 ∨ key.length = 32) (hiv : iv.length = 16) :
    Server.interactive_step adj slack (key ++ iv) frame
      = (recv_data slack frame).bind fun ct =>
          (AES.decrypt adj ct key iv).bind fun pt => PKCS7.unpad pt 16 := by
  have hkb : ((key ++ iv).length + U32 - 16) % U32 = key.length := by
    rw [List.length_append, hiv]
    unfold U32
    omega
  have hnlt : ¬ (key ++ iv).length < key.length := by
    rw [List.length_append]; omega
  simp only [Server.interactive_step, hkb, AES.block_size, List.take_left, List.drop_left, hnlt,
    if_false]

theorem client_step_eq (adj : Nat → List Nat) (r : PKCS7.Realloc) (key iv msg : List Nat)
    (hkey : key.length = 16 ∨ key.length = 24 ∨ key.length = 32) (hiv : iv.length = 16)
    (hmsg0 : msg ≠ []) (hexit : msg ≠ [101, 120, 105, 116])
    (hmsgl : msg.length + 16 < 4294967296) :
    Client.interactive_step adj r (key ++ iv) msg
      = (AES.encrypt adj
          (PKCS7.copied (.source r) msg
            ++ List.replicate (16 - msg.length % 16) (16 - msg.length % 16)) key iv).bind
          fun ct => .ok (some (send_data ct)) := by
  have hkb : ((key ++ iv).length + U32 - 16) % U32 = key.length := by
    rw [List.length_append, hiv]
    unfold U32
    omega
  have hptb : msg.length % U32 = msg.length := by
    unfold U32; omega
  have hmt : msg.take msg.length = msg := List.take_length _
  have hpad := PKCS7.pad_eq (.source r) msg 16 hmsg0 (by omega) (by omega) (by omega)
  have hnlt : ¬ (key ++ iv).length < key.length := by
    rw [List.length_append]; omega
  simp only [Client.interactive_step, hexit, hkb, hptb, hmt, AES.block_size, hpad, Except.bind,
    List.take_left, List.drop_left, hnlt, if_false]

theorem recv_bytes_isBytes : ∀ buffer : List Char, IsBytes (recv_bytes buffer)
  | [] => by intro b hb; simp [recv_bytes] at hb
  | [c] => by
    intro b hb
    simp only [recv_bytes, List.mem_singleton] at hb
    have h1 : 0 ≤ strtol16 [c] % 256 := Int.emod_nonneg _ (by norm_num)
    have h2 : strtol16 [c] % 256 < 256 := Int.emod_lt_of_pos _ (by norm_num)
    omega
  | c0 :: c1 :: rest => by
    intro b hb
    simp only [recv_bytes, List.mem_cons] at hb
    rcases hb with hb | hb
    · have h1 : 0 ≤ strtol16 [c0, c1] % 256 := Int.emod_nonneg _ (by norm_num)
      have h2 : strtol16 [c0, c1] % 256 < 256 := Int.emod_lt_of_pos _ (by norm_num)
      omega
    · exact recv_bytes_isBytes rest b hb

/-- C19 on the code: `AES::decrypt` has no test of the alignment, so for a received
buffer of more than 16 bytes whose length is not a multiple of 16 it runs
`inv_rijndael` on the first block, and `shift_rows` leaves the 16-byte state array
before `PKCS7::unpad` is reached: in the C++ object model the pipeline does not end
with `invalid_pad`.  Where the bytes behind the state array are addressable, `decrypt`
returns and `unpad` rejects the buffer. -/
theorem unaligned_frame_fault (slack : Nat) (ct key iv : List Nat) (frame : List Char)
    (hkey : key.length = 16 ∨ key.length = 24 ∨ key.length = 32) (hiv : iv.length = 16)
    (h16 : 16 < ct.length) (hal : ct.length % 16 ≠ 0)
    (hrecv : recv_data slack frame = .ok ct) :
    (AES.decrypt (fun _ => []) ct key iv).bind (fun pt => PKCS7.unpad pt 16) = .error .fault
    ∧ Server.interactive_step (fun _ => []) slack (key ++ iv) frame = .error .fault
    ∧ ∀ adj : Nat → List Nat, (∀ i, 12 ≤ (adj i).length) →
        Server.interactive_step adj slack (key ++ iv) frame = .error .invalid_pad := by
  have hd := AES.decrypt_fault_of_no_adjacent ct key iv hkey (by omega)
  refine ⟨by rw [hd]; rfl, ?_, fun adj hadj => ?_⟩
  · rw [server_step_eq _ slack key iv frame hkey hiv, hrecv]
    show (AES.decrypt (fun _ => []) ct key iv).bind _ = _
    rw [hd]
    rfl
  · rw [server_step_eq _ slack key iv frame hkey hiv, hrecv]
    exact (AES.unaligned_rejected adj ct key iv hkey hal).2 (Or.inr hadj)

set_option maxRecDepth 100000 in
theorem unaligned_frame_fault_witness :
    16 < (List.replicate 17 0).length ∧ (List.replicate 17 0).length % 16 ≠ 0
    ∧ recv_data 0 (List.replicate 34 (Char.ofNat 48)) = .ok (List.replicate 17 0)
    ∧ ((AES.decrypt (fun _ => []) (List.replicate 17 0) (List.replicate 16 0)
          (List.replicate 16 0)).bind (fun pt => PKCS7.unpad pt 16) = .error .fault
      ∧ Server.interactive_step (fun _ => []) 0 (List.replicate 16 0 ++ List.replicate 16 0)
          (List.replicate 34 (Char.ofNat 48)) = .error .fault
      ∧ ∀ adj : Nat → List Nat, (∀ i, 12 ≤ (adj i).length) →
          Server.interactive_step adj 0 (List.replicate 16 0 ++ List.replicate 16 0)
            (List.replicate 34 (Char.ofNat 48)) = .error .invalid_pad) :=
  ⟨by decide, by decide, by decide,
    unaligned_frame_fault 0 (List.replicate 17 0) (List.replicate 16 0) (List.replicate 16 0)
      (List.replicate 34 (Char.ofNat 48)) (by decide) (by decide) (by decide) (by decide)
      (by decide)⟩

theorem flip_bit_length (frame : List Char) (pos k : Nat) :
    (flip_bit frame pos k).length = frame.length := by
  unfold flip_bit
  rw [List.length_set]

theorem recv_data_of_even (slack : Nat) (frame : List Char) (heven : frame.length % 2 = 0)
    (hlen : frame.length < 4294967296) :
    recv_data slack frame = .ok (recv_bytes frame)
    ∧ (recv_bytes frame).length = frame.length / 2 := by
  constructor
  · unfold recv_data
    rw [if_neg (by unfold U32; omega), if_neg (by omega)]
  · rw [recv_bytes_length]
    omega

theorem server_step_of_bytes (adj : Nat → List Nat) (slack : Nat) (key iv ct : List Nat)
    (frame : List Char)
    (hkey : key.length = 16 ∨ key.length = 24 ∨ key.length = 32) (hiv : iv.length = 16)
    (hrecv : recv_data slack frame = .ok ct) :
    Server.interactive_step adj slack (key ++ iv) frame
      = (AES.decrypt adj ct key iv).bind fun pt => PKCS7.unpad pt 16 := by
  rw [server_step_eq adj slack key iv frame hkey hiv, hrecv]
  rfl

/-- In the C++ object model the receiver's step leaves the state array of `inv_rijndael`
on every text that `recv_data` decodes to 16 bytes or more. -/
theorem server_step_fault_of_no_adjacent (slack : Nat) (key iv ct : List Nat)
    (frame : List Char)
    (hkey : key.length = 16 ∨ key.length = 24 ∨ key.length = 32) (hiv : iv.length = 16)
    (hrecv : recv_data slack frame = .ok ct) (h16 : 16 ≤ ct.length) :
    Server.interactive_step (fun _ => []) slack (key ++ iv) frame = .error .fault := by
  rw [server_step_of_bytes _ slack key iv ct frame hkey hiv hrecv,
    AES.decrypt_fault_of_no_adjacent ct key iv hkey h16]
  rfl

/-- The receiver's step rejects with `invalid_pad` every text that `recv_data` decodes to
fewer than 16 bytes. -/
theorem server_step_of_short (adj : Nat → List Nat) (slack : Nat) (key iv ct : List Nat)
    (frame : List Char)
    (hkey : key.length = 16 ∨ key.length = 24 ∨ key.length = 32) (hiv : iv.length = 16)
    (hrecv : recv_data slack frame = .ok ct) (h16 : ct.length < 16) :
    Server.interactive_step adj slack (key ++ iv) frame = .error .invalid_pad := by
  rw [server_step_of_bytes adj slack key iv ct frame hkey hiv hrecv]
  by_cases h0 : ct.length = 0
  · have he : ct = [] := List.length_eq_zero.mp h0
    subst he
    rfl
  · exact (AES.unaligned_rejected adj ct key iv hkey (by omega)).2 (Or.inl h16)

/-- Inverting bit 5 of one of the digits `a` .. `f` gives the digit `A` .. `F`, which
`strtol` reads as the same value. -/
theorem hex_val_upper (c : Char) (h1 : 97 ≤ c.toNat) (h2 : c.toNat ≤ 102) :
    hex_val (Char.ofNat (c.toNat ^^^ (1 <<< 5))) = hex_val c
    ∧ is_space (Char.ofNat (c.toNat ^^^ (1 <<< 5))) = false
    ∧ is_space c = false
    ∧ (Char.ofNat (c.toNat ^^^ (1 <<< 5))).toNat ≠ 45
    ∧ (Char.ofNat (c.toNat ^^^ (1 <<< 5))).toNat ≠ 43
    ∧ c.toNat ≠ 45 ∧ c.toNat ≠ 43 := by
  have h : c.toNat = 97 ∨ c.toNat = 98 ∨ c.toNat = 99 ∨ c.toNat = 100 ∨ c.toNat = 101
      ∨ c.toNat = 102 := by omega
  rcases h with h | h | h | h | h | h <;> simp only [hex_val, is_space, h] <;> decide

theorem strtol16_congr (c d : Char) (hv : hex_val d = hex_val c)
    (hs1 : is_space d = false) (hs2 : is_space c = false)
    (h1 : d.toNat ≠ 45) (h2 : d.toNat ≠ 43) (h3 : c.toNat ≠ 45) (h4 : c.toNat ≠ 43) :
    strtol16 [d] = strtol16 [c]
    ∧ (∀ a, strtol16 [a, d] = strtol16 [a, c])
    ∧ ∀ b, strtol16 [d, b] = strtol16 [c, b] := by
  refine ⟨?_, fun a => ?_, fun b => ?_⟩
  · simp [strtol16, List.dropWhile, hs1, hs2, h1, h2, h3, h4, strtol_skip_0x, strtol_digits, hv]
  · by_cases ha : is_space a = true
    · simp [strtol16, List.dropWhile, ha, hs1, hs2, h1, h2, h3, h4, strtol_skip_0x,
        strtol_digits, hv]
    · have ha2 : is_space a = false := by simpa using ha
      simp [strtol16, List.dropWhile, ha2, strtol_skip_0x, strtol_digits, hv]
  · simp [strtol16, List.dropWhile, hs1, hs2, h1, h2, h3, h4, strtol_skip_0x, strtol_digits, hv]

theorem recv_bytes_set_congr (c d : Char)
    (h : strtol16 [d] = strtol16 [c]
      ∧ (∀ a, strtol16 [a, d] = strtol16 [a, c])
      ∧ ∀ b, strtol16 [d, b] = strtol16 [c, b]) :
    ∀ (frame : List Char) (pos : Nat), frame.getD pos (Char.ofNat 0) = c → pos < frame.length →
      recv_bytes (frame.set pos d) = recv_bytes frame
  | [], _, _, hp => by simp at hp
  | [x], pos, hc, hp => by
    have h0 : pos = 0 := by simpa using hp
    subst h0
    have hx : x = c := by simpa using hc
    subst hx
    simp only [List.set_cons_zero, recv_bytes, h.1]
  | x :: y :: rest, 0, hc, _ => by
    have hx : x = c := by simpa using hc
    subst hx
    simp only [List.set_cons_zero, recv_bytes, h.2.2]
  | x :: y :: rest, 1, hc, _ => by
    have hy : y = c := by simpa using hc
    subst hy
    simp only [List.set_cons_succ, List.set_cons_zero, recv_bytes, h.2.1]
  | x :: y :: rest, pos + 2, hc, hp => by
    have ih := recv_bytes_set_congr c d h rest pos (by simpa using hc)
      (by simpa using hp)
    simp only [List.set_cons_succ, recv_bytes, ih]

/-- A text in which bit 5 of a digit `a` .. `f` has been inverted is decoded by
`recv_data` to the same bytes. -/
theorem recv_data_flip_case (slack : Nat) (frame : List Char) (pos : Nat)
    (h1 : 97 ≤ (frame.getD pos (Char.ofNat 0)).toNat)
    (h2 : (frame.getD pos (Char.ofNat 0)).toNat ≤ 102) :
    recv_data slack (flip_bit frame pos 5) = recv_data slack frame := by
  have hp : pos < frame.length := by
    by_contra hn
    rw [List.getD_eq_default _ _ (by omega)] at h1
    exact absurd h1 (by decide)
  obtain ⟨a1, a2, a3, a4, a5, a6, a7⟩ := hex_val_upper _ h1 h2
  have hb := recv_bytes_set_congr _ _ (strtol16_congr _ _ a1 a2 a3 a4 a5 a6 a7) frame pos rfl hp
  have hl : (flip_bit frame pos 5).length = frame.length := by
    unfold flip_bit
    rw [List.length_set]
  unfold recv_data
  rw [hl]
  unfold flip_bit
  rw [hb]

/-- C17 on the code: in the C++ object model (nothing lies behind the 16-byte state array
of `inv_rijndael`) the receiver's step on a frame of 32 hexadecimal characters or more
leaves the state array in `shift_rows`, before `PKCS7::unpad` is reached, for every key
of 16, 24 or 32 bytes: on the frame as it was sent and on the frame with any single bit
inverted it ends neither with `invalid_pad` nor with a plaintext.  And whatever lies
behind the state array, a frame in which bit 5 of a digit `a` .. `f` has been inverted
is decoded to the same bytes, so the receiver's step does with it exactly what it does
with the frame that was sent. -/
theorem tampered_frame_fault (slack : Nat) (key iv : List Nat) (frame : List Char)
    (pos k : Nat)
    (hkey : key.length = 16 ∨ key.length = 24 ∨ key.length = 32) (hiv : iv.length = 16)
    (heven : frame.length % 2 = 0) (h32 : 32 ≤ frame.length)
    (hlen : frame.length < 4294967296) :
    Server.interactive_step (fun _ => []) slack (key ++ iv) (flip_bit frame pos k)
      = .error .fault
    ∧ Server.interactive_step (fun _ => []) slack (key ++ iv) frame = .error .fault
    ∧ ∀ adj : Nat → List Nat, 97 ≤ (frame.getD pos (Char.ofNat 0)).toNat →
        (frame.getD pos (Char.ofNat 0)).toNat ≤ 102 →
        Server.interactive_step adj slack (key ++ iv) (flip_bit frame pos 5)
          = Server.interactive_step adj slack (key ++ iv) frame := by
  have hfl := flip_bit_length frame pos k
  obtain ⟨h1, h2⟩ := recv_data_of_even slack (flip_bit frame pos k) (by rw [hfl]; exact heven)
    (by rw [hfl]; exact hlen)
  obtain ⟨h3, h4⟩ := recv_data_of_even slack frame heven hlen
  refine ⟨server_step_fault_of_no_adjacent slack key iv _ _ hkey hiv h1
      (by rw [h2, hfl]; omega),
    server_step_fault_of_no_adjacent slack key iv _ _ hkey hiv h3 (by rw [h4]; omega),
    fun adj ha hb => ?_⟩
  rw [server_step_eq adj slack key iv _ hkey hiv, server_step_eq adj slack key iv _ hkey hiv,
    recv_data_flip_case slack frame pos ha hb]

set_option maxRecDepth 1000000 in
theorem tampered_frame_fault_witness :
    flip_bit ['6', 'f', '5', '1', 'b', '0', 'a', '2', '8', '6', '0', '9', 'a', '2', '7', '4', '5', '2', 'a', 'a', '7', 'd', '1', 'd', 'c', '3', 'd', '5', '3', 'd', '5', 'b'] 1 5 = ['6', 'F', '5', '1', 'b', '0', 'a', '2', '8', '6', '0', '9', 'a', '2', '7', '4', '5', '2', 'a', 'a', '7', 'd', '1', 'd', 'c', '3', 'd', '5', '3', 'd', '5', 'b']
    ∧ recv_data 0 ['6', 'F', '5', '1', 'b', '0', 'a', '2', '8', '6', '0', '9', 'a', '2', '7', '4', '5', '2', 'a', 'a', '7', 'd', '1', 'd', 'c', '3', 'd', '5', '3', 'd', '5', 'b'] = recv_data 0 ['6', 'f', '5', '1', 'b', '0', 'a', '2', '8', '6', '0', '9', 'a', '2', '7', '4', '5', '2', 'a', 'a', '7', 'd', '1', 'd', 'c', '3', 'd', '5', '3', 'd', '5', 'b']
    ∧ (Server.interactive_step (fun _ => []) 0 (List.replicate 16 0 ++ List.replicate 16 0)
          (flip_bit ['6', 'f', '5', '1', 'b', '0', 'a', '2', '8', '6', '0', '9', 'a', '2', '7', '4', '5', '2', 'a', 'a', '7', 'd', '1', 'd', 'c', '3', 'd', '5', '3', 'd', '5', 'b'] 1 5)
        = .error .fault
      ∧ Server.interactive_step (fun _ => []) 0 (List.replicate 16 0 ++ List.replicate 16 0)
          ['6', 'f', '5', '1', 'b', '0', 'a', '2', '8', '6', '0', '9', 'a', '2', '7', '4', '5', '2', 'a', 'a', '7', 'd', '1', 'd', 'c', '3', 'd', '5', '3', 'd', '5', 'b']
        = .error .fault
      ∧ ∀ adj : Nat → List Nat, 97 ≤ (['6', 'f', '5', '1', 'b', '0', 'a', '2', '8', '6', '0', '9', 'a', '2', '7', '4', '5', '2', 'a', 'a', '7', 'd', '1', 'd', 'c', '3', 'd', '5', '3', 'd', '5', 'b'].getD 1 (Char.ofNat 0)).toNat →
          (['6', 'f', '5', '1', 'b', '0', 'a', '2', '8', '6', '0', '9', 'a', '2', '7', '4', '5', '2', 'a', 'a', '7', 'd', '1', 'd', 'c', '3', 'd', '5', '3', 'd', '5', 'b'].getD 1 (Char.ofNat 0)).toNat ≤ 102 →
          Server.interactive_step adj 0 (List.replicate 16 0 ++ List.replicate 16 0)
              (flip_bit ['6', 'f', '5', '1', 'b', '0', 'a', '2', '8', '6', '0', '9', 'a', '2', '7', '4', '5', '2', 'a', 'a', '7', 'd', '1', 'd', 'c', '3', 'd', '5', '3', 'd', '5', 'b'] 1 5)
            = Server.interactive_step adj 0 (List.replicate 16 0 ++ List.replicate 16 0)
              ['6', 'f', '5', '1', 'b', '0', 'a', '2', '8', '6', '0', '9', 'a', '2', '7', '4', '5', '2', 'a', 'a', '7', 'd', '1', 'd', 'c', '3', 'd', '5', '3', 'd', '5', 'b']) :=
  ⟨by decide, by decide,
    tampered_frame_fault 0 (List.replicate 16 0) (List.replicate 16 0)
      ['6', 'f', '5', '1', 'b', '0', 'a', '2', '8', '6', '0', '9', 'a', '2', '7', '4', '5', '2', 'a', 'a', '7', 'd', '1', 'd', 'c', '3', 'd', '5', '3', 'd', '5', 'b'] 1 5
      (by decide) (by decide) (by decide) (by decide) (by decide)⟩

theorem server_step_of_recv_error (adj : Nat → List Nat) (slack : Nat) (key iv : List Nat)
    (frame : List Char) (e : Error)
    (hkey : key.length = 16 ∨ key.length = 24 ∨ key.length = 32) (hiv : iv.length = 16)
    (hrecv : recv_data slack frame = .error e) :
    Server.interactive_step adj slack (key ++ iv) frame = .error e := by
  rw [server_step_eq adj slack key iv frame hkey hiv, hrecv]
  rfl

/-- C18 on the code: `recv_data` has no test of the parity of the text.  For a text of
odd length it takes `n_bytes = length >> 1` and the byte of the last character is stored
behind the bytes requested.  A text of 33 characters or more then reaches `AES::decrypt`
as whole blocks: in the C++ object model the receiver's step leaves an array (the block
of `recv_data`, or the state array in `shift_rows`), and neither `invalid_pad` nor
`invalid_key` is raised.  Where the store behind the block does no harm, the receiver's
step treats the text exactly as the text without its last character, and a text of 31
characters or fewer is rejected with `invalid_pad`, as claimed. -/
theorem odd_frame_processed (key iv : List Nat) (frame : List Char) (c : Char)
    (hkey : key.length = 16 ∨ key.length = 24 ∨ key.length = 32) (hiv : iv.length = 16)
    (heven : frame.length % 2 = 0) (hlen : frame.length + 1 < 4294967296) :
    (frame ++ [c]).length % 2 = 1
    ∧ (32 ≤ frame.length → ∀ slack : Nat,
        Server.interactive_step (fun _ => []) slack (key ++ iv) (frame ++ [c])
          = .error .fault)
    ∧ (∀ (adj : Nat → List Nat) (slack : Nat), 0 < slack →
        Server.interactive_step adj slack (key ++ iv) (frame ++ [c])
          = Server.interactive_step adj slack (key ++ iv) frame)
    ∧ (frame.length < 32 → ∀ (adj : Nat → List Nat) (slack : Nat), 0 < slack →
        Server.interactive_step adj slack (key ++ iv) (frame ++ [c])
          = .error .invalid_pad) := by
  have hodd : (frame ++ [c]).length % 2 = 1 := by
    rw [List.length_append, List.length_singleton]
    omega
  have hl := (recv_data_of_even 1 frame heven (by omega)).2
  refine ⟨hodd, fun h slack => ?_, fun adj slack hs => ?_, fun h adj slack hs => ?_⟩
  · by_cases hs : slack = 0
    · subst hs
      refine server_step_of_recv_error _ 0 key iv _ .fault hkey hiv ?_
      unfold recv_data
      rw [if_neg (by unfold U32; rw [List.length_append, List.length_singleton]; omega),
        if_pos (by omega), if_pos rfl]
    · obtain ⟨h1, -⟩ := recv_data_append_singleton slack frame c (by omega) heven hlen
      exact server_step_fault_of_no_adjacent slack key iv _ _ hkey hiv h1 (by rw [hl]; omega)
  · obtain ⟨h1, h2⟩ := recv_data_append_singleton slack frame c hs heven hlen
    rw [server_step_of_bytes adj slack key iv _ _ hkey hiv h1,
      server_step_of_bytes adj slack key iv _ _ hkey hiv h2]
  · obtain ⟨h1, -⟩ := recv_data_append_singleton slack frame c hs heven hlen
    exact server_step_of_short adj slack key iv _ _ hkey hiv h1 (by rw [hl]; omega)

set_option maxRecDepth 1000000 in
theorem odd_frame_processed_witness :
    recv_data 8 (['6', 'f', '5', '1', 'b', '0', 'a', '2', '8', '6', '0', '9', 'a', '2', '7', '4', '5', '2', 'a', 'a', '7', 'd', '1', 'd', 'c', '3', 'd', '5', '3', 'd', '5', 'b'] ++ [Char.ofNat 48]) = recv_data 8 ['6', 'f', '5', '1', 'b', '0', 'a', '2', '8', '6', '0', '9', 'a', '2', '7', '4', '5', '2', 'a', 'a', '7', 'd', '1', 'd', 'c', '3', 'd', '5', '3', 'd', '5', 'b']
    ∧ Server.interactive_step (fun _ => List.replicate 12 0) 8
        (List.replicate 16 0 ++ List.replicate 16 0) (['6', 'f', '5', '1', 'b', '0', 'a', '2', '8', '6', '0', '9', 'a', '2', '7', '4', '5', '2', 'a', 'a', '7', 'd', '1', 'd', 'c', '3', 'd', '5', '3', 'd', '5', 'b'] ++ [Char.ofNat 48])
      = .ok [104, 101, 108, 108, 111]
    ∧ Server.interactive_step (fun _ => []) 8 (List.replicate 16 0 ++ List.replicate 16 0)
        [Char.ofNat 48]
      = .error .invalid_pad
    ∧ ((['6', 'f', '5', '1', 'b', '0', 'a', '2', '8', '6', '0', '9', 'a', '2', '7', '4', '5', '2', 'a', 'a', '7', 'd', '1', 'd', 'c', '3', 'd', '5', '3', 'd', '5', 'b'] ++ [Char.ofNat 48]).length % 2 = 1
      ∧ (32 ≤ ['6', 'f', '5', '1', 'b', '0', 'a', '2', '8', '6', '0', '9', 'a', '2', '7', '4', '5', '2', 'a', 'a', '7', 'd', '1', 'd', 'c', '3', 'd', '5', '3', 'd', '5', 'b'].length → ∀ slack : Nat,
          Server.interactive_step (fun _ => []) slack
              (List.replicate 16 0 ++ List.replicate 16 0) (['6', 'f', '5', '1', 'b', '0', 'a', '2', '8', '6', '0', '9', 'a', '2', '7', '4', '5', '2', 'a', 'a', '7', 'd', '1', 'd', 'c', '3', 'd', '5', '3', 'd', '5', 'b'] ++ [Char.ofNat 48])
            = .error .fault)
      ∧ (∀ (adj : Nat → List Nat) (slack : Nat), 0 < slack →
          Server.interactive_step adj slack (List.replicate 16 0 ++ List.replicate 16 0)
              (['6', 'f', '5', '1', 'b', '0', 'a', '2', '8', '6', '0', '9', 'a', '2', '7', '4', '5', '2', 'a', 'a', '7', 'd', '1', 'd', 'c', '3', 'd', '5', '3', 'd', '5', 'b'] ++ [Char.ofNat 48])
            = Server.interactive_step adj slack (List.replicate 16 0 ++ List.replicate 16 0)
              ['6', 'f', '5', '1', 'b', '0', 'a', '2', '8', '6', '0', '9', 'a', '2', '7', '4', '5', '2', 'a', 'a', '7', 'd', '1', 'd', 'c', '3', 'd', '5', '3', 'd', '5', 'b'])
      ∧ (['6', 'f', '5', '1', 'b', '0', 'a', '2', '8', '6', '0', '9', 'a', '2', '7', '4', '5', '2', 'a', 'a', '7', 'd', '1', 'd', 'c', '3', 'd', '5', '3', 'd', '5', 'b'].length < 32 → ∀ (adj : Nat → List Nat) (slack : Nat), 0 < slack →
          Server.interactive_step adj slack (List.replicate 16 0 ++ List.replicate 16 0)
              (['6', 'f', '5', '1', 'b', '0', 'a', '2', '8', '6', '0', '9', 'a', '2', '7', '4', '5', '2', 'a', 'a', '7', 'd', '1', 'd', 'c', '3', 'd', '5', '3', 'd', '5', 'b'] ++ [Char.ofNat 48])
            = .error .invalid_pad)) :=
  ⟨by decide, by decide, by decide,
    odd_frame_processed (List.replicate 16 0) (List.replicate 16 0) ['6', 'f', '5', '1', 'b', '0', 'a', '2', '8', '6', '0', '9', 'a', '2', '7', '4', '5', '2', 'a', 'a', '7', 'd', '1', 'd', 'c', '3', 'd', '5', '3', 'd', '5', 'b'] (Char.ofNat 48)
      (by decide) (by decide) (by decide) (by decide)⟩

/-! ## S-box, RSA on integers, padding acceptance -/

namespace AES

set_option maxRecDepth 100000 in
theorem sbox_length : sbox.length = 256 ∧ inv_sbox.length = 256 := by decide

/-- C28: the two tables have 256 entries each, `inv_sbox[sbox[x]] = x` and
`sbox[inv_sbox[x]] = x` for every byte `x`, and on every buffer of bytes
`substitute_bytes` with `inv = true` undoes `substitute_bytes` with `inv = false` (and
the other way round). -/
theorem sbox_mutually_inverse (x : Nat) (bytes : List Nat) (hx : x < 256)
    (hb : IsBytes bytes) :
    sbox.length = 256 ∧ inv_sbox.length = 256
    ∧ sbox.getD x 0 < 256 ∧ inv_sbox.getD x 0 < 256
    ∧ inv_sbox.getD (sbox.getD x 0) 0 = x
    ∧ sbox.getD (inv_sbox.getD x 0) 0 = x
    ∧ substitute_bytes (substitute_bytes bytes false) true = bytes
    ∧ substitute_bytes (substitute_bytes bytes true) false = bytes :=
  ⟨sbox_length.1, sbox_length.2, getD_lt sbox sbox_mem_lt x, getD_lt inv_sbox inv_sbox_mem_lt x,
    inv_sbox_sbox x hx, sbox_inv_sbox x hx, substitute_bytes_inv bytes hb,
    substitute_bytes_fwd_inv bytes hb⟩

theorem sbox_mutually_inverse_witness :
    83 < 256 ∧ IsBytes [0, 83, 255]
    ∧ (sbox.length = 256 ∧ inv_sbox.length = 256
      ∧ sbox.getD 83 0 < 256 ∧ inv_sbox.getD 83 0 < 256
      ∧ inv_sbox.getD (sbox.getD 83 0) 0 = 83
      ∧ sbox.getD (inv_sbox.getD 83 0) 0 = 83
      ∧ substitute_bytes (substitute_bytes [0, 83, 255] false) true = [0, 83, 255]
      ∧ substitute_bytes (substitute_bytes [0, 83, 255] true) false = [0, 83, 255]) :=
  ⟨by decide, by decide, sbox_mutually_inverse 83 [0, 83, 255] (by decide) (by decide)⟩

end AES

namespace RSA

/-- C27: for distinct primes `p`, `q`, `n = p * q`, `e = 65537` and `d` with
`e * d ≡ 1 (mod (p-1)(q-1))`, and every integer `m < n`, the integer-level `encrypt` with
the public key returns `c = m ^ e mod n < n` without a range error, and the integer-level
`decrypt` with the private key returns `m` from it: `(m ^ e mod n) ^ d mod n = m`. -/
theorem decrypt_encrypt_mpz (key : PrivKey) (m : Nat)
    (hp : key.p.Prime) (hq : key.q.Prime) (hpq : key.p ≠ key.q)
    (hn : key.n = key.p * key.q)
    (hd : 65537 * key.d ≡ 1 [MOD (key.p - 1) * (key.q - 1)])
    (hlt : m < key.n) :
    encrypt_mpz_pub m (PubKey.of_priv key) = .ok (m ^ 65537 % key.n)
    ∧ m ^ 65537 % key.n < key.n
    ∧ decrypt_mpz_priv (m ^ 65537 % key.n) key = .ok m
    ∧ (m ^ 65537 % key.n) ^ key.d % key.n = m
    ∧ (encrypt_mpz_pub m (PubKey.of_priv key)).bind (fun c => decrypt_mpz_priv c key)
        = .ok m := by
  have hnpos : 0 < key.n := by omega
  have hclt : m ^ 65537 % key.n < key.n := Nat.mod_lt _ hnpos
  have hround := mpz_powm_powm key.p key.q 65537 key.d m hp hq hpq hd (by rw [← hn]; exact hlt)
  rw [← hn, mpz_powm_eq, mpz_powm_eq] at hround
  have henc : encrypt_mpz_pub m (PubKey.of_priv key) = .ok (m ^ 65537 % key.n) := by
    unfold encrypt_mpz_pub PubKey.of_priv
    simp only
    rw [← hn, if_neg (by omega), mpz_powm_eq]
  have hdec : decrypt_mpz_priv (m ^ 65537 % key.n) key = .ok m := by
    unfold decrypt_mpz_priv
    rw [if_neg (by omega), mpz_powm_eq, hround]
  refine ⟨henc, hclt, hdec, hround, ?_⟩
  rw [henc]
  exact hdec

theorem decrypt_encrypt_mpz_witness :
    Nat.Prime 16777259 ∧ Nat.Prime 16777289
    ∧ 65537 * 190441533014545 ≡ 1 [MOD (16777259 - 1) * (16777289 - 1)]
    ∧ 123456789 < (⟨16777259, 16777289, 190441533014545, 281476922870851, 65537⟩ : PrivKey).n
    ∧ (encrypt_mpz_pub 123456789 (PubKey.of_priv (⟨16777259, 16777289, 190441533014545, 281476922870851, 65537⟩ : PrivKey))
        = .ok (123456789 ^ 65537 % (⟨16777259, 16777289, 190441533014545, 281476922870851, 65537⟩ : PrivKey).n)
      ∧ 123456789 ^ 65537 % (⟨16777259, 16777289, 190441533014545, 281476922870851, 65537⟩ : PrivKey).n < (⟨16777259, 16777289, 190441533014545, 281476922870851, 65537⟩ : PrivKey).n
      ∧ decrypt_mpz_priv (123456789 ^ 65537 % (⟨16777259, 16777289, 190441533014545, 281476922870851, 65537⟩ : PrivKey).n) (⟨16777259, 16777289, 190441533014545, 281476922870851, 65537⟩ : PrivKey) = .ok 123456789
      ∧ (123456789 ^ 65537 % (⟨16777259, 16777289, 190441533014545, 281476922870851, 65537⟩ : PrivKey).n) ^ (⟨16777259, 16777289, 190441533014545, 281476922870851, 65537⟩ : PrivKey).d % (⟨16777259, 16777289, 190441533014545, 281476922870851, 65537⟩ : PrivKey).n = 123456789
      ∧ (encrypt_mpz_pub 123456789 (PubKey.of_priv (⟨16777259, 16777289, 190441533014545, 281476922870851, 65537⟩ : PrivKey))).bind
          (fun c => decrypt_mpz_priv c (⟨16777259, 16777289, 190441533014545, 281476922870851, 65537⟩ : PrivKey)) = .ok 123456789) :=
  ⟨by norm_num, by norm_num, by decide, by decide,
    decrypt_encrypt_mpz (⟨16777259, 16777289, 190441533014545, 281476922870851, 65537⟩ : PrivKey) 123456789
      (by norm_num) (by norm_num) (by decide) (by decide) (by decide) (by decide)⟩

end RSA

namespace PKCS7

/-- C24, as amended: `check_padding` returns false (valid) for every buffer whose length
is a positive multiple of the block size, whose last byte `p` is non-zero and smaller
than the buffer length (`1 ≤ p < len`), and whose final `p` bytes all equal `p`; and
then `unpad` returns the first `len - p` bytes, fewer than `len`. -/
theorem check_padding_accepts (buffer : List Nat) (block_size : Nat) (hb : 0 < block_size)
    (hne : buffer ≠ []) (hal : buffer.length % block_size = 0)
    (hp1 : 1 ≤ buffer.getD (buffer.length - 1) 0)
    (hp2 : buffer.getD (buffer.length - 1) 0 < buffer.length)
    (hfinal : ∀ x ∈ buffer.drop (buffer.length - buffer.getD (buffer.length - 1) 0),
      x = buffer.getD (buffer.length - 1) 0) :
    check_padding buffer block_size = .ok false
    ∧ unpad buffer block_size
        = .ok (buffer.take (buffer.length - buffer.getD (buffer.length - 1) 0))
    ∧ (buffer.take (buffer.length - buffer.getD (buffer.length - 1) 0)).length
        < buffer.length := by
  have hn : buffer.length ≠ 0 := by simpa using hne
  have hany : (buffer.drop (buffer.length - buffer.getD (buffer.length - 1) 0)).any
      (fun x => x != buffer.getD (buffer.length - 1) 0) = false := by
    rw [List.any_eq_false]
    intro x hx
    simpa using hfinal x hx
  have hc : check_padding buffer block_size = .ok false := by
    unfold check_padding
    simp only
    rw [if_neg hn, if_neg (by omega), if_neg (by omega), if_neg (by omega), hany]
    rfl
  refine ⟨hc, ?_, ?_⟩
  · unfold unpad
    rw [hc]
  · rw [List.length_take]
    omega

theorem check_padding_accepts_witness :
    0 < 4 ∧ [7, 7, 2, 2] ≠ [] ∧ [7, 7, 2, 2].length % 4 = 0
    ∧ 1 ≤ [7, 7, 2, 2].getD ([7, 7, 2, 2].length - 1) 0
    ∧ [7, 7, 2, 2].getD ([7, 7, 2, 2].length - 1) 0 < [7, 7, 2, 2].length
    ∧ (check_padding [7, 7, 2, 2] 4 = .ok false
      ∧ unpad [7, 7, 2, 2] 4
          = .ok ([7, 7, 2, 2].take ([7, 7, 2, 2].length - [7, 7, 2, 2].getD ([7, 7, 2, 2].length - 1) 0))
      ∧ ([7, 7, 2, 2].take ([7, 7, 2, 2].length - [7, 7, 2, 2].getD ([7, 7, 2, 2].length - 1) 0)).length
          < [7, 7, 2, 2].length) :=
  ⟨by decide, by decide, by decide, by decide, by decide,
    check_padding_accepts [7, 7, 2, 2] 4 (by decide) (by decide) (by decide) (by decide)
      (by decide) (by decide)⟩

/-- C24 as stated fails where the last byte equals the buffer length: the 16 bytes of
value 16 with block size 16 meet every condition of the claim, and `check_padding`
returns true (invalid) because its test is `n_bytes <= pad_byte`; `unpad` throws. -/
theorem check_padding_rejects_full :
    (List.replicate 16 16).length % 16 = 0
    ∧ (List.replicate 16 16).getD 15 0 = 16
    ∧ 1 ≤ 16 ∧ 16 ≤ (List.replicate 16 16).length
    ∧ (∀ x ∈ (List.replicate 16 16).drop (16 - 16), x = 16)
    ∧ check_padding (List.replicate 16 16) 16 = .ok true
    ∧ unpad (List.replicate 16 16) 16 = .error .invalid_pad := by
  decide

end PKCS7

/-! ## Index safety of ShiftRows -/

namespace AES

theorem rot_bytes_length (bytes : List Nat) (shift : Nat) (inv : Bool) :
    (rot_bytes bytes shift inv).length = bytes.length := by
  unfold rot_bytes
  simp only
  split_ifs <;> simp only [List.length_append, List.length_drop, List.length_take] <;> omega

theorem rot_bytes_at_length (mem : List Nat) (off n_bytes shift : Nat) (inv : Bool)
    (out : List Nat) (h : rot_bytes_at mem off n_bytes shift inv = .ok out) :
    out.length = mem.length := by
  unfold rot_bytes_at at h
  split_ifs at h with h1 h2
  · rw [← Except.ok.inj h]
  · rw [← Except.ok.inj h]
    simp only [List.length_append, List.length_take, List.length_drop, rot_bytes_length]
    omega

theorem rot_bytes_at_fault (mem : List Nat) (off shift : Nat) (inv : Bool)
    (hs : shift % 4 ≠ 0) (hl : mem.length < off + 4) :
    rot_bytes_at mem off 4 shift inv = .error .fault := by
  unfold rot_bytes_at
  rw [if_neg hs, if_pos hl]

/-- On memory of fewer than 28 bytes `shift_rows` leaves it, in both directions. -/
theorem shift_rows_fault_of_short (mem : List Nat) (inv : Bool) (h : mem.length < 28) :
    shift_rows mem inv = .error .fault := by
  unfold shift_rows
  simp only
  have h0 : rot_bytes_at mem (0 + 0 * 4) 4 0 inv = .ok mem := by
    unfold rot_bytes_at
    rw [if_pos (by decide)]
  rw [h0]
  simp only [Except.bind]
  cases h1 : rot_bytes_at mem (0 + 0 * 4 + 1 * 4) 4 1 inv with
  | error e =>
    rw [rot_bytes_at_error_fault _ _ _ _ _ e h1]
  | ok m1 =>
    have hl1 := rot_bytes_at_length _ _ _ _ _ _ h1
    simp only
    cases h2 : rot_bytes_at m1 (0 + 0 * 4 + 1 * 4 + 2 * 4) 4 2 inv with
    | error e =>
      rw [rot_bytes_at_error_fault _ _ _ _ _ e h2]
    | ok m2 =>
      have hl2 := rot_bytes_at_length _ _ _ _ _ _ h2
      simp only
      exact rot_bytes_at_fault m2 _ 3 inv (by decide) (by omega)

/-- With 28 bytes or more of memory from `block` on, `shift_rows` returns. -/
theorem shift_rows_ok_of_long (mem : List Nat) (inv : Bool) (h : 28 ≤ mem.length) :
    ∃ out, shift_rows mem inv = .ok out := by
  have hsplit : mem = mem.take 16 ++ mem.drop 16 := (List.take_append_drop 16 mem).symm
  obtain ⟨adj', h1, -⟩ := shift_rows_append (mem.take 16) (mem.drop 16) inv
    (by rw [List.length_take]; omega) (by rw [List.length_drop]; omega)
  rw [← hsplit] at h1
  exact ⟨_, h1⟩

set_option maxRecDepth 100000 in
/-- C29 on the code: the bytes that `shift_rows` reads and writes through `rot_bytes`
are those at the indices 4 to 7, 12 to 15 and 24 to 27 from `block` on, in both
directions; the indices 24 to 27 are not within `0..15`, and the indices 8 to 11 are
never touched.  Accordingly `shift_rows` returns exactly on memory of at least 28 bytes,
and on every 16-byte state it leaves the state. -/
theorem shift_rows_index_range (state : List Nat) (inv : Bool) (hs : state.length = 16) :
    shift_rows_indices false
      = [4, 5, 4, 6, 5, 7, 6, 7, 12, 13, 14, 12, 15, 13, 14, 15, 27, 26, 27, 25, 26, 24, 25,
          24]
    ∧ shift_rows_indices true
      = [7, 6, 7, 5, 6, 4, 5, 4, 14, 15, 13, 15, 12, 14, 12, 13, 24, 25, 24, 26, 25, 27, 26,
          27]
    ∧ (∃ k ∈ shift_rows_indices inv, ¬ k < 16)
    ∧ (∀ mem : List Nat, shift_rows mem inv = .error .fault ↔ mem.length < 28)
    ∧ shift_rows state inv = .error .fault := by
  refine ⟨by decide, by decide, ⟨24, by cases inv <;> decide, by decide⟩, fun mem => ?_,
    shift_rows_fault_of_short state inv (by omega)⟩
  constructor
  · intro hf
    by_contra hc
    obtain ⟨out, hout⟩ := shift_rows_ok_of_long mem inv (by omega)
    rw [hout] at hf
    cases hf
  · exact shift_rows_fault_of_short mem inv

theorem shift_rows_index_range_witness :
    (List.range 16).length = 16
    ∧ (shift_rows_indices false
        = [4, 5, 4, 6, 5, 7, 6, 7, 12, 13, 14, 12, 15, 13, 14, 15, 27, 26, 27, 25, 26, 24, 25,
            24]
      ∧ shift_rows_indices true
        = [7, 6, 7, 5, 6, 4, 5, 4, 14, 15, 13, 15, 12, 14, 12, 13, 24, 25, 24, 26, 25, 27, 26,
            27]
      ∧ (∃ k ∈ shift_rows_indices false, ¬ k < 16)
      ∧ (∀ mem : List Nat, shift_rows mem false = .error .fault ↔ mem.length < 28)
      ∧ shift_rows (List.range 16) false = .error .fault) :=
  ⟨by decide, shift_rows_index_range (List.range 16) false (by decide)⟩

end AES

/-! ## MixColumns -/

namespace AES

set_option maxRecDepth 1000000 in
/-- On bytes, and for the seven factors that occur in the two matrices, the loop of
`galois_field_mul` computes the product in GF(2^8) modulo `x^8 + x^4 + x^3 + x + 1`. -/
theorem galois_field_mul_eq_spec :
    ∀ f ∈ [1, 2, 3, 9, 11, 13, 14], ∀ s, s < 256 →
      galois_field_mul s f = gf_mul_spec f s := by
  decide

theorem mix_columns_col_unfold_false (a0 a1 a2 a3 a4 a5 a6 a7 a8 a9 a10 a11 a12 a13 a14 a15 : Nat) :
    (List.range 4).map (mix_columns_col [a0, a1, a2, a3, a4, a5, a6, a7, a8, a9, a10, a11, a12, a13, a14, a15] false)
      = [[0 ^^^ galois_field_mul a0 2 ^^^ galois_field_mul a12 1 ^^^ galois_field_mul a8 1 ^^^ galois_field_mul a4 3, 0 ^^^ galois_field_mul a4 2 ^^^ galois_field_mul a0 1 ^^^ galois_field_mul a12 1 ^^^ galois_field_mul a8 3, 0 ^^^ galois_field_mul a8 2 ^^^ galois_field_mul a4 1 ^^^ galois_field_mul a0 1 ^^^ galois_field_mul a12 3, 0 ^^^ galois_field_mul a12 2 ^^^ galois_field_mul a8 1 ^^^ galois_field_mul a4 1 ^^^ galois_field_mul a0 3],
        [0 ^^^ galois_field_mul a1 2 ^^^ galois_field_mul a13 1 ^^^ galois_field_mul a9 1 ^^^ galois_field_mul a5 3, 0 ^^^ galois_field_mul a5 2 ^^^ galois_field_mul a1 1 ^^^ galois_field_mul a13 1 ^^^ galois_field_mul a9 3, 0 ^^^ galois_field_mul a9 2 ^^^ galois_field_mul a5 1 ^^^ galois_field_mul a1 1 ^^^ galois_field_mul a13 3, 0 ^^^ galois_field_mul a13 2 ^^^ galois_field_mul a9 1 ^^^ galois_field_mul a5 1 ^^^ galois_field_mul a1 3],
        [0 ^^^ galois_field_mul a2 2 ^^^ galois_field_mul a14 1 ^^^ galois_field_mul a10 1 ^^^ galois_field_mul a6 3, 0 ^^^ galois_field_mul a6 2 ^^^ galois_field_mul a2 1 ^^^ galois_field_mul a14 1 ^^^ galois_field_mul a10 3, 0 ^^^ galois_field_mul a10 2 ^^^ galois_field_mul a6 1 ^^^ galois_field_mul a2 1 ^^^ galois_field_mul a14 3, 0 ^^^ galois_field_mul a14 2 ^^^ galois_field_mul a10 1 ^^^ galois_field_mul a6 1 ^^^ galois_field_mul a2 3],
        [0 ^^^ galois_field_mul a3 2 ^^^ galois_field_mul a15 1 ^^^ galois_field_mul a11 1 ^^^ galois_field_mul a7 3, 0 ^^^ galois_field_mul a7 2 ^^^ galois_field_mul a3 1 ^^^ galois_field_mul a15 1 ^^^ galois_field_mul a11 3, 0 ^^^ galois_field_mul a11 2 ^^^ galois_field_mul a7 1 ^^^ galois_field_mul a3 1 ^^^ galois_field_mul a15 3, 0 ^^^ galois_field_mul a15 2 ^^^ galois_field_mul a11 1 ^^^ galois_field_mul a7 1 ^^^ galois_field_mul a3 3]] :=
  rfl

theorem mix_columns_spec_unfold_false (a0 a1 a2 a3 a4 a5 a6 a7 a8 a9 a10 a11 a12 a13 a14 a15 : Nat) :
    (List.range 4).map (fun i => (List.range 4).map
        (fun j => (mix_columns_spec [a0, a1, a2, a3, a4, a5, a6, a7, a8, a9, a10, a11, a12, a13, a14, a15] false).getD (4 * j + i) 0))
      = [[0 ^^^ gf_mul_spec 2 a0 ^^^ gf_mul_spec 3 a4 ^^^ gf_mul_spec 1 a8 ^^^ gf_mul_spec 1 a12, 0 ^^^ gf_mul_spec 1 a0 ^^^ gf_mul_spec 2 a4 ^^^ gf_mul_spec 3 a8 ^^^ gf_mul_spec 1 a12, 0 ^^^ gf_mul_spec 1 a0 ^^^ gf_mul_spec 1 a4 ^^^ gf_mul_spec 2 a8 ^^^ gf_mul_spec 3 a12, 0 ^^^ gf_mul_spec 3 a0 ^^^ gf_mul_spec 1 a4 ^^^ gf_mul_spec 1 a8 ^^^ gf_mul_spec 2 a12],
        [0 ^^^ gf_mul_spec 2 a1 ^^^ gf_mul_spec 3 a5 ^^^ gf_mul_spec 1 a9 ^^^ gf_mul_spec 1 a13, 0 ^^^ gf_mul_spec 1 a1 ^^^ gf_mul_spec 2 a5 ^^^ gf_mul_spec 3 a9 ^^^ gf_mul_spec 1 a13, 0 ^^^ gf_mul_spec 1 a1 ^^^ gf_mul_spec 1 a5 ^^^ gf_mul_spec 2 a9 ^^^ gf_mul_spec 3 a13, 0 ^^^ gf_mul_spec 3 a1 ^^^ gf_mul_spec 1 a5 ^^^ gf_mul_spec 1 a9 ^^^ gf_mul_spec 2 a13],
        [0 ^^^ gf_mul_spec 2 a2 ^^^ gf_mul_spec 3 a6 ^^^ gf_mul_spec 1 a10 ^^^ gf_mul_spec 1 a14, 0 ^^^ gf_mul_spec 1 a2 ^^^ gf_mul_spec 2 a6 ^^^ gf_mul_spec 3 a10 ^^^ gf_mul_spec 1 a14, 0 ^^^ gf_mul_spec 1 a2 ^^^ gf_mul_spec 1 a6 ^^^ gf_mul_spec 2 a10 ^^^ gf_mul_spec 3 a14, 0 ^^^ gf_mul_spec 3 a2 ^^^ gf_mul_spec 1 a6 ^^^ gf_mul_spec 1 a10 ^^^ gf_mul_spec 2 a14],
        [0 ^^^ gf_mul_spec 2 a3 ^^^ gf_mul_spec 3 a7 ^^^ gf_mul_spec 1 a11 ^^^ gf_mul_spec 1 a15, 0 ^^^ gf_mul_spec 1 a3 ^^^ gf_mul_spec 2 a7 ^^^ gf_mul_spec 3 a11 ^^^ gf_mul_spec 1 a15, 0 ^^^ gf_mul_spec 1 a3 ^^^ gf_mul_spec 1 a7 ^^^ gf_mul_spec 2 a11 ^^^ gf_mul_spec 3 a15, 0 ^^^ gf_mul_spec 3 a3 ^^^ gf_mul_spec 1 a7 ^^^ gf_mul_spec 1 a11 ^^^ gf_mul_spec 2 a15]] :=
  rfl

theorem mix_columns_col_unfold_true (a0 a1 a2 a3 a4 a5 a6 a7 a8 a9 a10 a11 a12 a13 a14 a15 : Nat) :
    (List.range 4).map (mix_columns_col [a0, a1, a2, a3, a4, a5, a6, a7, a8, a9, a10, a11, a12, a13, a14, a15] true)
      = [[0 ^^^ galois_field_mul a0 14 ^^^ galois_field_mul a12 9 ^^^ galois_field_mul a8 13 ^^^ galois_field_mul a4 11, 0 ^^^ galois_field_mul a4 14 ^^^ galois_field_mul a0 9 ^^^ galois_field_mul a12 13 ^^^ galois_field_mul a8 11, 0 ^^^ galois_field_mul a8 14 ^^^ galois_field_mul a4 9 ^^^ galois_field_mul a0 13 ^^^ galois_field_mul a12 11, 0 ^^^ galois_field_mul a12 14 ^^^ galois_field_mul a8 9 ^^^ galois_field_mul a4 13 ^^^ galois_field_mul a0 11],
        [0 ^^^ galois_field_mul a1 14 ^^^ galois_field_mul a13 9 ^^^ galois_field_mul a9 13 ^^^ galois_field_mul a5 11, 0 ^^^ galois_field_mul a5 14 ^^^ galois_field_mul a1 9 ^^^ galois_field_mul a13 13 ^^^ galois_field_mul a9 11, 0 ^^^ galois_field_mul a9 14 ^^^ galois_field_mul a5 9 ^^^ galois_field_mul a1 13 ^^^ galois_field_mul a13 11, 0 ^^^ galois_field_mul a13 14 ^^^ galois_field_mul a9 9 ^^^ galois_field_mul a5 13 ^^^ galois_field_mul a1 11],
        [0 ^^^ galois_field_mul a2 14 ^^^ galois_field_mul a14 9 ^^^ galois_field_mul a10 13 ^^^ galois_field_mul a6 11, 0 ^^^ galois_field_mul a6 14 ^^^ galois_field_mul a2 9 ^^^ galois_field_mul a14 13 ^^^ galois_field_mul a10 11, 0 ^^^ galois_field_mul a10 14 ^^^ galois_field_mul a6 9 ^^^ galois_field_mul a2 13 ^^^ galois_field_mul a14 11, 0 ^^^ galois_field_mul a14 14 ^^^ galois_field_mul a10 9 ^^^ galois_field_mul a6 13 ^^^ galois_field_mul a2 11],
        [0 ^^^ galois_field_mul a3 14 ^^^ galois_field_mul a15 9 ^^^ galois_field_mul a11 13 ^^^ galois_field_mul a7 11, 0 ^^^ galois_field_mul a7 14 ^^^ galois_field_mul a3 9 ^^^ galois_field_mul a15 13 ^^^ galois_field_mul a11 11, 0 ^^^ galois_field_mul a11 14 ^^^ galois_field_mul a7 9 ^^^ galois_field_mul a3 13 ^^^ galois_field_mul a15 11, 0 ^^^ galois_field_mul a15 14 ^^^ galois_field_mul a11 9 ^^^ galois_field_mul a7 13 ^^^ galois_field_mul a3 11]] :=
  rfl

theorem mix_columns_spec_unfold_true (a0 a1 a2 a3 a4 a5 a6 a7 a8 a9 a10 a11 a12 a13 a14 a15 : Nat) :
    (List.range 4).map (fun i => (List.range 4).map
        (fun j => (mix_columns_spec [a0, a1, a2, a3, a4, a5, a6, a7, a8, a9, a10, a11, a12, a13, a14, a15] true).getD (4 * j + i) 0))
      = [[0 ^^^ gf_mul_spec 14 a0 ^^^ gf_mul_spec 11 a4 ^^^ gf_mul_spec 13 a8 ^^^ gf_mul_spec 9 a12, 0 ^^^ gf_mul_spec 9 a0 ^^^ gf_mul_spec 14 a4 ^^^ gf_mul_spec 11 a8 ^^^ gf_mul_spec 13 a12, 0 ^^^ gf_mul_spec 13 a0 ^^^ gf_mul_spec 9 a4 ^^^ gf_mul_spec 14 a8 ^^^ gf_mul_spec 11 a12, 0 ^^^ gf_mul_spec 11 a0 ^^^ gf_mul_spec 13 a4 ^^^ gf_mul_spec 9 a8 ^^^ gf_mul_spec 14 a12],
        [0 ^^^ gf_mul_spec 14 a1 ^^^ gf_mul_spec 11 a5 ^^^ gf_mul_spec 13 a9 ^^^ gf_mul_spec 9 a13, 0 ^^^ gf_mul_spec 9 a1 ^^^ gf_mul_spec 14 a5 ^^^ gf_mul_spec 11 a9 ^^^ gf_mul_spec 13 a13, 0 ^^^ gf_mul_spec 13 a1 ^^^ gf_mul_spec 9 a5 ^^^ gf_mul_spec 14 a9 ^^^ gf_mul_spec 11 a13, 0 ^^^ gf_mul_spec 11 a1 ^^^ gf_mul_spec 13 a5 ^^^ gf_mul_spec 9 a9 ^^^ gf_mul_spec 14 a13],
        [0 ^^^ gf_mul_spec 14 a2 ^^^ gf_mul_spec 11 a6 ^^^ gf_mul_spec 13 a10 ^^^ gf_mul_spec 9 a14, 0 ^^^ gf_mul_spec 9 a2 ^^^ gf_mul_spec 14 a6 ^^^ gf_mul_spec 11 a10 ^^^ gf_mul_spec 13 a14, 0 ^^^ gf_mul_spec 13 a2 ^^^ gf_mul_spec 9 a6 ^^^ gf_mul_spec 14 a10 ^^^ gf_mul_spec 11 a14, 0 ^^^ gf_mul_spec 11 a2 ^^^ gf_mul_spec 13 a6 ^^^ gf_mul_spec 9 a10 ^^^ gf_mul_spec 14 a14],
        [0 ^^^ gf_mul_spec 14 a3 ^^^ gf_mul_spec 11 a7 ^^^ gf_mul_spec 13 a11 ^^^ gf_mul_spec 9 a15, 0 ^^^ gf_mul_spec 9 a3 ^^^ gf_mul_spec 14 a7 ^^^ gf_mul_spec 11 a11 ^^^ gf_mul_spec 13 a15, 0 ^^^ gf_mul_spec 13 a3 ^^^ gf_mul_spec 9 a7 ^^^ gf_mul_spec 14 a11 ^^^ gf_mul_spec 11 a15, 0 ^^^ gf_mul_spec 11 a3 ^^^ gf_mul_spec 13 a7 ^^^ gf_mul_spec 9 a11 ^^^ gf_mul_spec 14 a15]] :=
  rfl

/-- The local array `col` that `mix_columns` computes for each column of a state of bytes
holds the column of the specified MixColumns (of the inverse for `inv = true`): the four
values of `col`, for the four columns, are the columns of `mix_columns_spec`. -/
theorem mix_columns_col_eq_spec (block : List Nat) (inv : Bool)
    (hl : block.length = 16) (hb : IsBytes block) :
    (List.range 4).map (mix_columns_col block inv)
      = (List.range 4).map (fun i => (List.range 4).map
          (fun j => (mix_columns_spec block inv).getD (4 * j + i) 0)) := by
  obtain ⟨a0, a1, a2, a3, a4, a5, a6, a7, a8, a9, a10, a11, a12, a13, a14, a15, rfl⟩ := eq_of_length_16 block hl
  have hg : ∀ f ∈ [1, 2, 3, 9, 11, 13, 14], ∀ s ∈ [a0, a1, a2, a3, a4, a5, a6, a7, a8, a9, a10, a11, a12, a13, a14, a15],
      galois_field_mul s f = gf_mul_spec f s :=
    fun f hf s hs => galois_field_mul_eq_spec f hf s (hb s hs)
  simp only [List.mem_cons, List.mem_singleton, List.not_mem_nil, or_false, forall_eq_or_imp,
    forall_eq] at hg
  obtain ⟨h1, h2, h3, h9, h11, h13, h14⟩ := hg
  have lc : ∀ a b c : Nat, a ^^^ (b ^^^ c) = b ^^^ (a ^^^ c) := fun a b c => by
    rw [← Nat.xor_assoc, Nat.xor_comm a b, Nat.xor_assoc]
  cases inv
  · rw [mix_columns_col_unfold_false, mix_columns_spec_unfold_false]
    simp only [h1, h2, h3, Nat.zero_xor, Nat.xor_assoc, Nat.xor_comm, lc]
  · rw [mix_columns_col_unfold_true, mix_columns_spec_unfold_true]
    simp only [h9, h11, h13, h14, Nat.zero_xor, Nat.xor_assoc, Nat.xor_comm, lc]

end AES

namespace AES

set_option maxRecDepth 1000000 in
/-- C21 on the code: `mix_columns` accumulates each new column in its local array `col`
and has no statement that stores `col` into `block`, so it returns every state
unchanged, in both directions.  For the state with the columns `db 13 53 45`,
`f2 0a 22 5c`, `01 01 01 01`, `c6 c6 c6 c6` the specified result has the columns
`8e 4d a1 bc`, `9f dc 58 9d`, `01 01 01 01`, `c6 c6 c6 c6`; these are the values that
`col` holds and that are dropped. -/
theorem mix_columns_discards_col (state : List Nat) (inv : Bool) :
    mix_columns state inv = state
    ∧ mix_columns [0xdb, 0xf2, 0x01, 0xc6, 0x13, 0x0a, 0x01, 0xc6, 0x53, 0x22, 0x01, 0xc6,
        0x45, 0x5c, 0x01, 0xc6] false
      = [0xdb, 0xf2, 0x01, 0xc6, 0x13, 0x0a, 0x01, 0xc6, 0x53, 0x22, 0x01, 0xc6,
        0x45, 0x5c, 0x01, 0xc6]
    ∧ mix_columns_spec [0xdb, 0xf2, 0x01, 0xc6, 0x13, 0x0a, 0x01, 0xc6, 0x53, 0x22, 0x01, 0xc6,
        0x45, 0x5c, 0x01, 0xc6] false
      = [0x8e, 0x9f, 0x01, 0xc6, 0x4d, 0xdc, 0x01, 0xc6, 0xa1, 0x58, 0x01, 0xc6,
        0xbc, 0x9d, 0x01, 0xc6]
    ∧ (List.range 4).map (mix_columns_col [0xdb, 0xf2, 0x01, 0xc6, 0x13, 0x0a, 0x01, 0xc6,
        0x53, 0x22, 0x01, 0xc6, 0x45, 0x5c, 0x01, 0xc6] false)
      = [[0x8e, 0x4d, 0xa1, 0xbc], [0x9f, 0xdc, 0x58, 0x9d], [0x01, 0x01, 0x01, 0x01],
        [0xc6, 0xc6, 0xc6, 0xc6]]
    ∧ mix_columns [0x8e, 0x9f, 0x01, 0xc6, 0x4d, 0xdc, 0x01, 0xc6, 0xa1, 0x58, 0x01, 0xc6,
        0xbc, 0x9d, 0x01, 0xc6] true
      = [0x8e, 0x9f, 0x01, 0xc6, 0x4d, 0xdc, 0x01, 0xc6, 0xa1, 0x58, 0x01, 0xc6,
        0xbc, 0x9d, 0x01, 0xc6]
    ∧ mix_columns_spec [0x8e, 0x9f, 0x01, 0xc6, 0x4d, 0xdc, 0x01, 0xc6, 0xa1, 0x58, 0x01, 0xc6,
        0xbc, 0x9d, 0x01, 0xc6] true
      = [0xdb, 0xf2, 0x01, 0xc6, 0x13, 0x0a, 0x01, 0xc6, 0x53, 0x22, 0x01, 0xc6,
        0x45, 0x5c, 0x01, 0xc6] := by
  refine ⟨mix_columns_eq state inv, mix_columns_eq _ _, by decide, by decide,
    mix_columns_eq _ _, by decide⟩

end AES

/-! ## The key schedule -/

namespace AES

theorem xor_bufs_comm (a b : List Nat) : xor_bufs a b = xor_bufs b a := by
  induction a generalizing b with
  | nil => cases b <;> simp [xor_bufs]
  | cons x a ih =>
    cases b with
    | nil => simp [xor_bufs]
    | cons y b => simp only [xor_bufs, ih b, Nat.xor_comm]

theorem xor_bufs_eq_zipWith (a b : List Nat) (h : a.length = b.length) :
    xor_bufs a b = List.zipWith (fun x y => x ^^^ y) a b := by
  induction a generalizing b with
  | nil => cases b <;> simp_all [xor_bufs]
  | cons x a ih =>
    cases b with
    | nil => simp at h
    | cons y b => simp only [xor_bufs, List.zipWith_cons_cons, ih b (by simpa using h)]

theorem rcon_getD_length (i : Nat) : (rcon.getD i []).length ≤ 4 := by
  by_cases hi : i < 10
  · interval_cases i <;> decide
  · rw [List.getD_eq_default _ _ (by simpa [rcon] using hi)]
    simp

theorem expand_key_word_length (key w : List Nat) (n_words i : Nat) (hn : 0 < n_words)
    (hk : i < n_words → i * 4 + 4 ≤ key.length)
    (hw : n_words ≤ i → 4 * n_words ≤ w.length) :
    (expand_key_word key w n_words i).length = 4 := by
  unfold expand_key_word
  by_cases hi : i < n_words
  · rw [if_pos hi, List.length_take, List.length_drop]
    have := hk hi
    omega
  · rw [if_neg hi]
    have hwl := hw (by omega)
    have hp : ((w.drop (w.length - 4)).take 4).length = 4 := by
      rw [List.length_take, List.length_drop]; omega
    have hb : ((w.drop (w.length - (n_words <<< 2))).take 4).length = 4 := by
      rw [List.length_take, List.length_drop, Nat.shiftLeft_eq]; omega
    have hr := rcon_getD_length (i / n_words - 1)
    simp only
    split_ifs <;>
      simp only [xor_bufs_length_max, substitute_bytes_length, rot_bytes_length, hp, hb] <;>
      omega

/-- The schedule after `n` iterations of the loop of `expand_key`. -/
theorem expand_key_loop_succ (key : List Nat) (n_words n : Nat) :
    (List.range (n + 1)).foldl (fun w i => w ++ expand_key_word key w n_words i) []
      = (List.range n).foldl (fun w i => w ++ expand_key_word key w n_words i) []
        ++ expand_key_word key
            ((List.range n).foldl (fun w i => w ++ expand_key_word key w n_words i) [])
            n_words n := by
  rw [List.range_succ, List.foldl_append, List.foldl_cons, List.foldl_nil]

theorem expand_key_loop_length (key : List Nat) (n_words : Nat) (hn : 0 < n_words)
    (hk : 4 * n_words ≤ key.length) (n : Nat) :
    ((List.range n).foldl (fun w i => w ++ expand_key_word key w n_words i) []).length
      = 4 * n := by
  induction n with
  | zero => rfl
  | succ n ih =>
    rw [expand_key_loop_succ, List.length_append, ih,
      expand_key_word_length key _ n_words n hn (fun h => by omega) (fun h => by rw [ih]; omega)]
    omega

theorem expand_key_loop_prefix (key : List Nat) (n_words : Nat) (hn : 0 < n_words)
    (hk : 4 * n_words ≤ key.length) (n m : Nat) (hnm : n ≤ m) :
    ((List.range m).foldl (fun w i => w ++ expand_key_word key w n_words i) []).take (4 * n)
      = (List.range n).foldl (fun w i => w ++ expand_key_word key w n_words i) [] := by
  induction m with
  | zero =>
    have : n = 0 := by omega
    subst this
    rfl
  | succ m ih =>
    by_cases h : n = m + 1
    · subst h
      apply List.take_of_length_le
      rw [expand_key_loop_length key n_words hn hk]
    · rw [expand_key_loop_succ, List.take_append_of_le_length
        (by rw [expand_key_loop_length key n_words hn hk]; omega)]
      exact ih (by omega)

/-- Word `i` of the schedule is the word that iteration `i` of the loop appends to the
`4 * i` bytes written before it. -/
theorem word_expand_key_loop (key : List Nat) (n_words : Nat) (hn : 0 < n_words)
    (hk : 4 * n_words ≤ key.length) (i m : Nat) (him : i < m) :
    word ((List.range m).foldl (fun w i => w ++ expand_key_word key w n_words i) []) i
      = expand_key_word key
          ((List.range i).foldl (fun w i => w ++ expand_key_word key w n_words i) [])
          n_words i := by
  have hpre := expand_key_loop_prefix key n_words hn hk (i + 1) m (by omega)
  have hli := expand_key_loop_length key n_words hn hk i
  have hwl := expand_key_word_length key
    ((List.range i).foldl (fun w i => w ++ expand_key_word key w n_words i) []) n_words i hn
    (fun h => by omega) (fun h => by rw [hli]; omega)
  have e : 4 * i + 4 = 4 * (i + 1) := by omega
  unfold word
  rw [List.take_drop, e, hpre, expand_key_loop_succ, List.drop_left' hli]

/-- For every key length that passes the test of `expand_key` and whose schedule size
`16 * (n_bytes / 4 + 7)` fits `uint32_t`, `expand_key` returns the schedule built by
`4 * (n_bytes / 4 + 7)` iterations of its loop, and that size. -/
theorem expand_key_eq (key : List Nat) (h16 : 16 ≤ key.length) (h8 : key.length % 8 = 0)
    (hsz : 16 * (key.length / 4 + 7) < 4294967296) :
    expand_key key
      = .ok ((List.range (4 * (key.length / 4 + 7))).foldl
              (fun w i => w ++ expand_key_word key w (key.length / 4) i) [],
            16 * (key.length / 4 + 7)) := by
  have hkv : ¬ (key.length < block_size ∨ key.length &&& 0x07 ≠ 0) := by
    rw [and7_eq_mod]; unfold block_size; omega
  have e0 : key.length >>> 2 = key.length / 4 := by
    rw [Nat.shiftRight_eq_div_pow]
  have e1 : (key.length / 4 + 7) % U32 = key.length / 4 + 7 := by
    unfold U32; omega
  have e2 : ((key.length / 4 + 7) <<< 2) % U32 = 4 * (key.length / 4 + 7) := by
    rw [Nat.shiftLeft_eq]; unfold U32; omega
  have e3 : ((4 * (key.length / 4 + 7)) <<< 2) % U32 = 16 * (key.length / 4 + 7) := by
    rw [Nat.shiftLeft_eq]; unfold U32; omega
  unfold expand_key
  simp only
  rw [if_neg hkv, e0, e1, e2, e3, if_neg (by omega)]

theorem rcon_getD_eq : ∀ r, r < 10 →
    rcon.getD r []
      = [[0x01, 0x02, 0x04, 0x08, 0x10, 0x20, 0x40, 0x80, 0x1b, 0x36].getD r 0, 0, 0, 0] := by
  decide

theorem eq_of_length_4 (l : List Nat) (h : l.length = 4) :
    ∃ a b c d, l = [a, b, c, d] := by
  obtain ⟨a, l1, rfl, h1⟩ := exists_cons_of_length l _ h
  obtain ⟨b, l2, rfl, h2⟩ := exists_cons_of_length l1 _ h1
  obtain ⟨c, l3, rfl, h3⟩ := exists_cons_of_length l2 _ h2
  obtain ⟨d, l4, rfl, h4⟩ := exists_cons_of_length l3 _ h3
  have : l4 = [] := List.length_eq_zero.mp h4
  subst this
  exact ⟨a, b, c, d, rfl⟩

/-- One iteration of the loop of `expand_key` for `i ≥ n_words` computes the word of the
specified recurrence from the words `W (i - 1)` and `W (i - n_words)` it reads. -/
theorem expand_key_word_eq_spec (key w : List Nat) (n_words i : Nat) (W : Nat → List Nat)
    (hi : n_words ≤ i) (hrow : i / n_words - 1 < 10)
    (hprev : (w.drop (w.length - 4)).take 4 = W (i - 1))
    (hback : (w.drop (w.length - (n_words <<< 2))).take 4 = W (i - n_words))
    (hpl : (W (i - 1)).length = 4) (hbl : (W (i - n_words)).length = 4) :
    expand_key_word key w n_words i = expand_key_spec_word n_words W i := by
  unfold expand_key_word expand_key_spec_word
  rw [if_neg (by omega)]
  simp only [hprev, hback]
  obtain ⟨p0, p1, p2, p3, hp⟩ := eq_of_length_4 _ hpl
  obtain ⟨b0, b1, b2, b3, hb⟩ := eq_of_length_4 _ hbl
  rw [hp, hb, rcon_getD_eq _ hrow]
  generalize [0x01, 0x02, 0x04, 0x08, 0x10, 0x20, 0x40, 0x80, 0x1b, 0x36].getD
    (i / n_words - 1) 0 = rc
  have hrot : rot_bytes [p0, p1, p2, p3] 1 false = [p1, p2, p3, p0] := by
    simp [rot_bytes]
  split_ifs
  · rw [hrot]
    simp only [substitute_bytes, xor_bufs, List.map, List.zipWith, List.drop, List.take,
      List.cons_append, List.nil_append, Bool.false_eq_true, if_false, Nat.xor_zero,
      List.cons.injEq, and_true]
    refine ⟨?_, ?_, ?_, ?_⟩
    · rw [Nat.xor_comm _ b0, Nat.xor_assoc]
    · exact Nat.xor_comm _ _
    · exact Nat.xor_comm _ _
    · exact Nat.xor_comm _ _
  · simp only [substitute_bytes, xor_bufs, List.map, List.zipWith, Bool.false_eq_true,
      if_false, List.cons.injEq, and_true]
    exact ⟨Nat.xor_comm _ _, Nat.xor_comm _ _, Nat.xor_comm _ _, Nat.xor_comm _ _⟩
  · simp only [xor_bufs, List.zipWith, List.cons.injEq, and_true]
    exact ⟨Nat.xor_comm _ _, Nat.xor_comm _ _, Nat.xor_comm _ _, Nat.xor_comm _ _⟩

/-- C23, as amended: for every key length that passes the test of `expand_key` (and
whose schedule size fits `uint32_t`) the schedule returned has exactly
`4 * (keyBytes / 4 + 7)` words of four bytes, that is `16 * (keyBytes / 4 + 7)` bytes,
which is also the size returned; `rijndael` derives `keyBytes / 4 + 6` rounds from it. -/
theorem expand_key_size (key : List Nat) (h16 : 16 ≤ key.length) (h8 : key.length % 8 = 0)
    (hsz : 16 * (key.length / 4 + 7) < 4294967296) :
    ∃ ek, expand_key key = .ok ek
      ∧ ek.1.length = 4 * (4 * (key.length / 4 + 7))
      ∧ ek.1.length = 16 * (key.length / 4 + 7)
      ∧ ek.2 = 16 * (key.length / 4 + 7)
      ∧ ((ek.2 >>> 4) + U32 - 1) % U32 = key.length / 4 + 6 := by
  have hl := expand_key_loop_length key (key.length / 4) (by omega) (by omega)
    (4 * (key.length / 4 + 7))
  refine ⟨_, expand_key_eq key h16 h8 hsz, hl, by rw [hl]; omega, rfl, ?_⟩
  show ((16 * (key.length / 4 + 7)) >>> 4 + U32 - 1) % U32 = _
  rw [Nat.shiftRight_eq_div_pow]
  unfold U32
  omega

theorem expand_key_size_witness :
    16 ≤ (List.replicate 24 0).length ∧ (List.replicate 24 0).length % 8 = 0
    ∧ 16 * ((List.replicate 24 0).length / 4 + 7) < 4294967296
    ∧ ∃ ek, expand_key (List.replicate 24 0) = .ok ek
      ∧ ek.1.length = 4 * (4 * ((List.replicate 24 0).length / 4 + 7))
      ∧ ek.1.length = 16 * ((List.replicate 24 0).length / 4 + 7)
      ∧ ek.2 = 16 * ((List.replicate 24 0).length / 4 + 7)
      ∧ ((ek.2 >>> 4) + U32 - 1) % U32 = (List.replicate 24 0).length / 4 + 6 :=
  ⟨by decide, by decide, by decide,
    expand_key_size (List.replicate 24 0) (by decide) (by decide) (by decide)⟩

set_option maxRecDepth 100000 in
/-- C23 as stated fails: for a key of 16 bytes the schedule has 176 bytes (44 words, 11
round keys of 16 bytes), not `4 * (16 / 4 + 7) = 44` bytes. -/
theorem expand_key_size_16 :
    (expand_key (List.replicate 16 0)).map (fun ek => (ek.1.length, ek.2)) = .ok (176, 176)
    ∧ 4 * ((List.replicate 16 0).length / 4 + 7) = 44 := by
  decide

/-- C22: for every key that passes the test of `expand_key` (and whose schedule size
fits `uint32_t`), with `Nk = keyBytes / 4`, the schedule consists of the words
`w[0 .. 4(Nk+7)-1]`; `w[i]` is word `i` of the key for `i < Nk`, and for `i ≥ Nk` it is
`w[i-Nk] XOR t` with `t` as in `expand_key_spec_word`: `SubWord(RotWord(w[i-1])) XOR rcon`
if `i mod Nk = 0`, `SubWord(w[i-1])` if `Nk > 6` and `i mod Nk = 4`, and `w[i-1]`
otherwise. -/
theorem expand_key_recurrence (key : List Nat) (i : Nat) (h16 : 16 ≤ key.length)
    (h8 : key.length % 8 = 0) (hsz : 16 * (key.length / 4 + 7) < 4294967296)
    (hi : i < 4 * (key.length / 4 + 7)) :
    ∃ ek, expand_key key = .ok ek
      ∧ ek.1.length = 4 * (4 * (key.length / 4 + 7))
      ∧ (i < key.length / 4 → word ek.1 i = word key i)
      ∧ (key.length / 4 ≤ i →
          word ek.1 i = expand_key_spec_word (key.length / 4) (word ek.1) i) := by
  have hNk : 4 ≤ key.length / 4 := by omega
  have hk : 4 * (key.length / 4) ≤ key.length := by omega
  have hl := expand_key_loop_length key (key.length / 4) (by omega) hk
  have hword := word_expand_key_loop key (key.length / 4) (by omega) hk
  have hwl : ∀ j, j < 4 * (key.length / 4 + 7) →
      (word ((List.range (4 * (key.length / 4 + 7))).foldl
        (fun w i => w ++ expand_key_word key w (key.length / 4) i) []) j).length = 4 := by
    intro j hj
    unfold word
    rw [List.length_take, List.length_drop, hl]
    omega
  refine ⟨_, expand_key_eq key h16 h8 hsz, hl _, fun hlt => ?_, fun hge => ?_⟩
  · show word _ i = _
    rw [hword i _ hi]
    unfold expand_key_word word
    rw [if_pos hlt, Nat.mul_comm]
  · show word _ i = expand_key_spec_word _ (word _) i
    rw [hword i _ hi]
    have hrow : i / (key.length / 4) - 1 < 10 := by
      have : i / (key.length / 4) < 11 := (Nat.div_lt_iff_lt_mul (by omega)).mpr (by omega)
      omega
    apply expand_key_word_eq_spec key _ (key.length / 4) i _ hge hrow
    · rw [hl i]
      have e : 4 * i - 4 = 4 * (i - 1) := by omega
      rw [e]
      show word _ (i - 1) = _
      rw [hword (i - 1) i (by omega), hword (i - 1) _ (by omega)]
    · rw [hl i, Nat.shiftLeft_eq]
      have e : 4 * i - key.length / 4 * 2 ^ 2 = 4 * (i - key.length / 4) := by omega
      rw [e]
      show word _ (i - key.length / 4) = _
      rw [hword (i - key.length / 4) i (by omega), hword (i - key.length / 4) _ (by omega)]
    · exact hwl _ (by omega)
    · exact hwl _ (by omega)

set_option maxRecDepth 100000 in
theorem expand_key_recurrence_witness :
    16 ≤ (List.range 32).length ∧ (List.range 32).length % 8 = 0
    ∧ 16 * ((List.range 32).length / 4 + 7) < 4294967296
    ∧ 12 < 4 * ((List.range 32).length / 4 + 7)
    ∧ ∃ ek, expand_key (List.range 32) = .ok ek
      ∧ ek.1.length = 4 * (4 * ((List.range 32).length / 4 + 7))
      ∧ (12 < (List.range 32).length / 4 → word ek.1 12 = word (List.range 32) 12)
      ∧ ((List.range 32).length / 4 ≤ 12 →
          word ek.1 12 = expand_key_spec_word ((List.range 32).length / 4) (word ek.1) 12) :=
  ⟨by decide, by decide, by decide, by decide,
    expand_key_recurrence (List.range 32) 12 (by decide) (by decide) (by decide) (by decide)⟩

theorem for_loop_append {σ α : Type} (f : σ → α → Except Error σ) (xs ys : List α) :
    ∀ s, for_loop f s (xs ++ ys) = (for_loop f s xs).bind (fun s' => for_loop f s' ys) := by
  induction xs with
  | nil => intro s; rfl
  | cons x xs ih =>
    intro s
    simp only [List.cons_append, for_loop]
    cases f s x with
    | error e => rfl
    | ok s' => exact ih s'

theorem expand_key_word_checked_eq (key w : List Nat) (n_words i : Nat) (hn : 4 ≤ n_words)
    (hk : 4 * n_words ≤ key.length) (hw : w.length = 4 * i) (hi : i < 4 * (n_words + 7)) :
    expand_key_word_checked key w n_words i = .ok (expand_key_word key w n_words i) := by
  unfold expand_key_word_checked expand_key_word
  by_cases hlt : i < n_words
  · rw [if_pos hlt, if_pos hlt, if_neg (by omega)]
  · rw [if_neg hlt, if_neg hlt, if_neg (by omega), if_neg (by rw [Nat.shiftLeft_eq]; omega)]
    have hq1 : 1 ≤ i / n_words := Nat.div_pos (by omega) (by omega)
    have hq2 : i / n_words < 11 := (Nat.div_lt_iff_lt_mul (by omega)).mpr (by omega)
    have hrow : (i / n_words + U32 - 1) % U32 = i / n_words - 1 := by
      unfold U32; omega
    by_cases h0 : i % n_words = 0
    · rw [if_pos h0, if_pos h0]
      simp only [hrow]
      rw [if_neg (by omega)]
    · rw [if_neg h0, if_neg h0]
      split_ifs <;> rfl

theorem expand_key_checked_loop (key : List Nat) (n_words : Nat) (hn : 4 ≤ n_words)
    (hk : 4 * n_words ≤ key.length) (n : Nat) (hle : n ≤ 4 * (n_words + 7)) :
    for_loop (fun w i =>
        (expand_key_word_checked key w n_words i).bind fun word => .ok (w ++ word))
      [] (List.range n)
      = .ok ((List.range n).foldl (fun w i => w ++ expand_key_word key w n_words i) []) := by
  induction n with
  | zero => rfl
  | succ n ih =>
    rw [List.range_succ, for_loop_append, ih (by omega), List.foldl_append]
    have hl := expand_key_loop_length key n_words (by omega) hk n
    simp only [Except.bind, for_loop, List.foldl_cons, List.foldl_nil,
      expand_key_word_checked_eq key _ n_words n hn hk hl (by omega)]

/-- C30: for every key length that passes the test of `expand_key` (and whose schedule
size fits `uint32_t`), `expand_key` with every index checked never leaves an array and
returns what `expand_key` returns; for `Nk ≤ i < 4(Nk+7)` the words `i - 1` and `i - Nk`
that are read precede word `i`, and when `i mod Nk = 0` the row `i / Nk - 1` of `rcon`
lies in `0..9`. -/
theorem expand_key_in_bounds (key : List Nat) (i : Nat) (h16 : 16 ≤ key.length)
    (h8 : key.length % 8 = 0) (hsz : 16 * (key.length / 4 + 7) < 4294967296)
    (hge : key.length / 4 ≤ i) (hi : i < 4 * (key.length / 4 + 7)) :
    expand_key_checked key = expand_key key
    ∧ (∃ ek, expand_key_checked key = .ok ek)
    ∧ (0 < i ∧ i - 1 < i ∧ i - key.length / 4 < i)
    ∧ (i % (key.length / 4) = 0 →
        1 ≤ i / (key.length / 4) ∧ i / (key.length / 4) - 1 ≤ 9) := by
  have hc : expand_key_checked key = expand_key key := by
    rw [expand_key_eq key h16 h8 hsz]
    have hkv : ¬ (key.length < block_size ∨ key.length &&& 0x07 ≠ 0) := by
      rw [and7_eq_mod]; unfold block_size; omega
    have e0 : key.length >>> 2 = key.length / 4 := by
      rw [Nat.shiftRight_eq_div_pow]
    have e1 : (key.length / 4 + 7) % U32 = key.length / 4 + 7 := by
      unfold U32; omega
    have e2 : ((key.length / 4 + 7) <<< 2) % U32 = 4 * (key.length / 4 + 7) := by
      rw [Nat.shiftLeft_eq]; unfold U32; omega
    have e3 : ((4 * (key.length / 4 + 7)) <<< 2) % U32 = 16 * (key.length / 4 + 7) := by
      rw [Nat.shiftLeft_eq]; unfold U32; omega
    unfold expand_key_checked
    simp only
    rw [if_neg hkv, e0, e1, e2, e3, if_neg (by omega),
      expand_key_checked_loop key (key.length / 4) (by omega) (by omega) _ (le_refl _)]
    rfl
  refine ⟨hc, ⟨_, by rw [hc]; exact expand_key_eq key h16 h8 hsz⟩, by omega, fun _ => ?_⟩
  have hq1 : 1 ≤ i / (key.length / 4) := Nat.div_pos hge (by omega)
  have hq2 : i / (key.length / 4) < 11 := (Nat.div_lt_iff_lt_mul (by omega)).mpr (by omega)
  omega

theorem expand_key_in_bounds_witness :
    16 ≤ (List.range 16).length ∧ (List.range 16).length % 8 = 0
    ∧ 16 * ((List.range 16).length / 4 + 7) < 4294967296
    ∧ (List.range 16).length / 4 ≤ 40 ∧ 40 < 4 * ((List.range 16).length / 4 + 7)
    ∧ (expand_key_checked (List.range 16) = expand_key (List.range 16)
      ∧ (∃ ek, expand_key_checked (List.range 16) = .ok ek)
      ∧ (0 < 40 ∧ 40 - 1 < 40 ∧ 40 - (List.range 16).length / 4 < 40)
      ∧ (40 % ((List.range 16).length / 4) = 0 →
          1 ≤ 40 / ((List.range 16).length / 4) ∧ 40 / ((List.range 16).length / 4) - 1 ≤ 9)) :=
  ⟨by decide, by decide, by decide, by decide, by decide,
    expand_key_in_bounds (List.range 16) 40 (by decide) (by decide) (by decide) (by decide)
      (by decide)⟩

end AES


/-! ## Determinism of CBC under a fixed IV -/

namespace AES

theorem rijndael_fault_of_short_adj (adj blk ek : List Nat) (ekb N : Nat)
    (hN : ((ekb >>> 4) + U32 - 1) % U32 = N + 1) (hadj : adj.length < 12) :
    rijndael adj blk ek ekb = .error .fault := by
  unfold rijndael
  simp only [hN]
  have hl : (add_round_key (get_round_key ek 0) (transpose blk)).length = 16 :=
    add_round_key_length _ _ (get_round_key_length _ _) (transpose_length _)
  have hr : rijndael_round ek (N + 1)
      (add_round_key (get_round_key ek 0) (transpose blk) ++ adj) 0 = .error .fault := by
    unfold rijndael_round
    rw [on_state_append _ _ _ hl]
    have hs : (substitute_bytes (add_round_key (get_round_key ek 0) (transpose blk)) false
        ++ adj).length < 28 := by
      rw [List.length_append, substitute_bytes_length, hl]
      omega
    simp only [shift_rows_fault_of_short _ false hs, Except.bind]
  rw [List.range_succ_eq_map, for_loop_cons_error _ _ _ _ _ hr]
  rfl

/-- What `rijndael` returns does not depend on the memory behind the state array. -/
theorem rijndael_ok_unique (adj1 adj2 blk ek : List Nat) (ekb : Nat) (c1 c2 : List Nat)
    (h1 : rijndael adj1 blk ek ekb = .ok c1) (h2 : rijndael adj2 blk ek ekb = .ok c2) :
    c1 = c2 := by
  obtain ⟨N, hN⟩ : ∃ N, ((ekb >>> 4) + U32 - 1) % U32 = N := ⟨_, rfl⟩
  cases N with
  | zero =>
    have hl : (add_round_key (get_round_key ek 0) (transpose blk)).length = 16 :=
      add_round_key_length _ _ (get_round_key_length _ _) (transpose_length _)
    unfold rijndael at h1 h2
    simp only [hN] at h1 h2
    have g1 : Except.ok (transpose ((add_round_key (get_round_key ek 0) (transpose blk)
        ++ adj1).take 16)) = (Except.ok c1 : Except Error (List Nat)) := h1
    have g2 : Except.ok (transpose ((add_round_key (get_round_key ek 0) (transpose blk)
        ++ adj2).take 16)) = (Except.ok c2 : Except Error (List Nat)) := h2
    rw [List.take_left' hl] at g1 g2
    rw [← Except.ok.inj g1, ← Except.ok.inj g2]
  | succ N =>
    have ha1 : 12 ≤ adj1.length := by
      by_contra hc
      rw [rijndael_fault_of_short_adj adj1 blk ek ekb N hN (by omega)] at h1
      cases h1
    have ha2 : 12 ≤ adj2.length := by
      by_contra hc
      rw [rijndael_fault_of_short_adj adj2 blk ek ekb N hN (by omega)] at h2
      cases h2
    rw [rijndael_eq adj1 blk ek ekb _ hN ha1] at h1
    rw [rijndael_eq adj2 blk ek ekb _ hN ha2] at h2
    rw [← Except.ok.inj h1, ← Except.ok.inj h2]

theorem rijndael_length (adj blk ek : List Nat) (ekb : Nat) (ct : List Nat)
    (h : rijndael adj blk ek ekb = .ok ct) : ct.length = 16 := by
  unfold rijndael at h
  simp only at h
  cases hf : for_loop (rijndael_round ek (((ekb >>> 4) + U32 - 1) % U32))
      (add_round_key (get_round_key ek 0) (transpose blk) ++ adj)
      (List.range (((ekb >>> 4) + U32 - 1) % U32)) with
  | error e =>
    rw [hf] at h
    cases h
  | ok mem =>
    rw [hf] at h
    rw [← Except.ok.inj h]
    exact transpose_length _

/-- The block loop of `encrypt`: when two buffers agree on their first `k` blocks and
the chaining starts from the same value, the two results agree on their first `k`
blocks, whatever lies behind the state arrays. -/
theorem encrypt_blocks_prefix (adj1 adj2 : Nat → List Nat) (ek : List Nat) (ekb : Nat)
    (k : Nat) : ∀ (n1 n2 i1 i2 : Nat) (iv b1 b2 c1 c2 : List Nat), k ≤ n1 → k ≤ n2 →
      b1.take (16 * k) = b2.take (16 * k) →
      encrypt_blocks adj1 ek ekb n1 i1 iv b1 = .ok c1 →
      encrypt_blocks adj2 ek ekb n2 i2 iv b2 = .ok c2 →
      c1.take (16 * k) = c2.take (16 * k) := by
  induction k with
  | zero => intro _ _ _ _ _ _ _ _ _ _ _ _ _ _; simp
  | succ k ih =>
    intro n1 n2 i1 i2 iv b1 b2 c1 c2 hk1 hk2 hpre h1 h2
    obtain ⟨m1, rfl⟩ : ∃ m, n1 = m + 1 := ⟨n1 - 1, by omega⟩
    obtain ⟨m2, rfl⟩ : ∃ m, n2 = m + 1 := ⟨n2 - 1, by omega⟩
    rw [encrypt_blocks] at h1 h2
    have ht : b1.take 16 = b2.take 16 := by
      have := congrArg (List.take 16) hpre
      rwa [List.take_take, List.take_take, Nat.min_eq_left (by omega)] at this
    have hd : (b1.drop 16).take (16 * k) = (b2.drop 16).take (16 * k) := by
      have := congrArg (List.drop 16) hpre
      rw [List.drop_take, List.drop_take] at this
      have e : 16 * (k + 1) - 16 = 16 * k := by omega
      rwa [e] at this
    rw [ht] at h1
    cases hr1 : rijndael (adj1 i1) (xor_bufs (b2.take 16) iv) ek ekb with
    | error e =>
      rw [hr1] at h1
      cases h1
    | ok ct1 =>
      cases hr2 : rijndael (adj2 i2) (xor_bufs (b2.take 16) iv) ek ekb with
      | error e =>
        rw [hr2] at h2
        cases h2
      | ok ct2 =>
        have hct := rijndael_ok_unique _ _ _ _ _ _ _ hr1 hr2
        subst hct
        have hctl := rijndael_length _ _ _ _ _ hr1
        rw [hr1] at h1
        rw [hr2] at h2
        cases hb1 : encrypt_blocks adj1 ek ekb m1 (i1 + 1) ct1 (b1.drop 16) with
        | error e =>
          simp only [Except.bind, hb1] at h1
          cases h1
        | ok r1 =>
          cases hb2 : encrypt_blocks adj2 ek ekb m2 (i2 + 1) ct1 (b2.drop 16) with
          | error e =>
            simp only [Except.bind, hb2] at h2
            cases h2
          | ok r2 =>
            simp only [Except.bind, hb1] at h1
            simp only [Except.bind, hb2] at h2
            have hrest := ih m1 m2 (i1 + 1) (i2 + 1) ct1 (b1.drop 16) (b2.drop 16) r1 r2
              (by omega) (by omega) hd hb1 hb2
            rw [← Except.ok.inj h1, ← Except.ok.inj h2]
            have e : 16 * (k + 1) = ct1.length + 16 * k := by omega
            rw [e, List.take_append, List.take_append, hrest]

theorem encrypt_blocks_ok_unique (adj1 adj2 : Nat → List Nat) (ek : List Nat) (ekb : Nat)
    (n : Nat) : ∀ (i1 i2 : Nat) (iv buf c1 c2 : List Nat),
      encrypt_blocks adj1 ek ekb n i1 iv buf = .ok c1 →
      encrypt_blocks adj2 ek ekb n i2 iv buf = .ok c2 → c1 = c2 := by
  induction n with
  | zero =>
    intro i1 i2 iv buf c1 c2 h1 h2
    rw [encrypt_blocks] at h1 h2
    rw [← Except.ok.inj h1, ← Except.ok.inj h2]
  | succ n ih =>
    intro i1 i2 iv buf c1 c2 h1 h2
    rw [encrypt_blocks] at h1 h2
    cases hr1 : rijndael (adj1 i1) (xor_bufs (buf.take 16) iv) ek ekb with
    | error e =>
      rw [hr1] at h1
      cases h1
    | ok ct1 =>
      cases hr2 : rijndael (adj2 i2) (xor_bufs (buf.take 16) iv) ek ekb with
      | error e =>
        rw [hr2] at h2
        cases h2
      | ok ct2 =>
        have hct := rijndael_ok_unique _ _ _ _ _ _ _ hr1 hr2
        subst hct
        rw [hr1] at h1
        rw [hr2] at h2
        cases hb1 : encrypt_blocks adj1 ek ekb n (i1 + 1) ct1 (buf.drop 16) with
        | error e =>
          simp only [Except.bind, hb1] at h1
          cases h1
        | ok r1 =>
          cases hb2 : encrypt_blocks adj2 ek ekb n (i2 + 1) ct1 (buf.drop 16) with
          | error e =>
            simp only [Except.bind, hb2] at h2
            cases h2
          | ok r2 =>
            simp only [Except.bind, hb1] at h1
            simp only [Except.bind, hb2] at h2
            rw [← Except.ok.inj h1, ← Except.ok.inj h2, ih _ _ _ _ _ _ hb1 hb2]

theorem encrypt_ok_unique (adj1 adj2 : Nat → List Nat) (pt key iv c1 c2 : List Nat)
    (h1 : encrypt adj1 pt key iv = .ok c1) (h2 : encrypt adj2 pt key iv = .ok c2) :
    c1 = c2 := by
  unfold encrypt at h1 h2
  simp only at h1 h2
  split_ifs at h1 h2
  cases hek : expand_key key with
  | error e =>
    rw [hek] at h1
    cases h1
  | ok ek =>
    rw [hek] at h1 h2
    exact encrypt_blocks_ok_unique adj1 adj2 ek.1 ek.2 _ _ _ _ _ _ _ h1 h2

/-- Two results of `encrypt` under one key and IV agree on their first `k` blocks when
the two plaintexts do, whatever lies behind the state arrays. -/
theorem encrypt_prefix_of_ok (adj1 adj2 : Nat → List Nat) (key iv p1 p2 c1 c2 : List Nat)
    (k : Nat) (hp1 : 16 * k ≤ p1.length) (hp2 : 16 * k ≤ p2.length)
    (hpre : p1.take (16 * k) = p2.take (16 * k))
    (h1 : encrypt adj1 p1 key iv = .ok c1) (h2 : encrypt adj2 p2 key iv = .ok c2) :
    c1.take (16 * k) = c2.take (16 * k) := by
  unfold encrypt at h1 h2
  simp only at h1 h2
  split_ifs at h1 h2
  cases hek : expand_key key with
  | error e =>
    rw [hek] at h1
    cases h1
  | ok ek =>
    rw [hek] at h1 h2
    exact encrypt_blocks_prefix adj1 adj2 ek.1 ek.2 k _ _ 0 0 _ p1 p2 c1 c2
      (by unfold block_size; omega) (by unfold block_size; omega) hpre h1 h2

end AES

theorem send_data_injective (c1 c2 : List Nat) (h1 : IsBytes c1) (h2 : IsBytes c2)
    (h : send_data c1 = send_data c2) : c1 = c2 := by
  rw [← (recv_bytes_send_data c1 h1).1, ← (recv_bytes_send_data c2 h2).1, h]

/-- The sender's step where the twelve bytes behind the state array are addressable: the
frame is `send_data` of a ciphertext that `decrypt` maps back to what `pad` returned. -/
theorem client_step_of_addressable (adjE adjD : Nat → List Nat) (r : PKCS7.Realloc)
    (key iv msg : List Nat)
    (hE : ∀ j, 12 ≤ (adjE j).length) (hD : ∀ j, 12 ≤ (adjD j).length)
    (hkey : key.length = 16 ∨ key.length = 24 ∨ key.length = 32) (hkb : IsBytes key)
    (hiv : iv.length = 16) (hivb : IsBytes iv)
    (hmsg0 : msg ≠ []) (hexit : msg ≠ [101, 120, 105, 116]) (hmsgb : IsBytes msg)
    (hmsgl : msg.length + 16 < 4294967296) :
    ∃ ct, IsBytes ct
      ∧ Client.interactive_step adjE r (key ++ iv) msg = .ok (some (send_data ct))
      ∧ AES.decrypt adjD ct key iv
          = .ok (PKCS7.copied (.source r) msg
              ++ List.replicate (16 - msg.length % 16) (16 - msg.length % 16)) := by
  have hcl := PKCS7.copied_length (.source r) msg
  have hp0 : (PKCS7.copied (.source r) msg
      ++ List.replicate (16 - msg.length % 16) (16 - msg.length % 16)) ≠ [] := by
    simp [PKCS7.copied_ne_nil _ msg hmsg0]
  have hpl : (PKCS7.copied (.source r) msg
      ++ List.replicate (16 - msg.length % 16) (16 - msg.length % 16)).length % 16 = 0 := by
    rw [List.length_append, List.length_replicate, hcl]
    exact PKCS7.pad_len_mod _ _ (by omega)
  have hpb : IsBytes (PKCS7.copied (.source r) msg
      ++ List.replicate (16 - msg.length % 16) (16 - msg.length % 16)) := by
    intro x hx
    rcases List.mem_append.mp hx with h | h
    · exact PKCS7.copied_isBytes _ msg hmsgb x h
    · have := (List.mem_replicate.mp h).2
      omega
  obtain ⟨ct, e, -, cb, d⟩ := AES.decrypt_encrypt_of_addressable adjE adjD _ key iv hE hD
    hkey hkb hiv hivb hp0 hpl hpb
  refine ⟨ct, cb, ?_, d⟩
  rw [client_step_eq adjE r key iv msg hkey hiv hmsg0 hexit hmsgl, e]
  rfl

/-- Two runs of the sender's step on one message in which `realloc` moves the source of
`pad` and the freed block reads differently at some byte of the message: where the cipher
calls return, both runs send a frame and the two frames differ. -/
theorem client_step_moved_ne (adj1 adj2 : Nat → List Nat) (freed1 freed2 : Nat → Nat)
    (key iv msg : List Nat) (i : Nat)
    (h1 : ∀ j, 12 ≤ (adj1 j).length) (h2 : ∀ j, 12 ≤ (adj2 j).length)
    (hkey : key.length = 16 ∨ key.length = 24 ∨ key.length = 32) (hkb : IsBytes key)
    (hiv : iv.length = 16) (hivb : IsBytes iv)
    (hmsg0 : msg ≠ []) (hexit : msg ≠ [101, 120, 105, 116]) (hmsgb : IsBytes msg)
    (hmsgl : msg.length + 16 < 4294967296)
    (hi : i < msg.length) (hne : freed1 i % 256 ≠ freed2 i % 256) :
    ∃ f1 f2, Client.interactive_step adj1 (.moved freed1) (key ++ iv) msg = .ok (some f1)
      ∧ Client.interactive_step adj2 (.moved freed2) (key ++ iv) msg = .ok (some f2)
      ∧ f1 ≠ f2 := by
  obtain ⟨c1, cb1, s1, d1⟩ := client_step_of_addressable adj1 adj1 (.moved freed1) key iv msg
    h1 h1 hkey hkb hiv hivb hmsg0 hexit hmsgb hmsgl
  obtain ⟨c2, cb2, s2, d2⟩ := client_step_of_addressable adj2 adj1 (.moved freed2) key iv msg
    h2 h1 hkey hkb hiv hivb hmsg0 hexit hmsgb hmsgl
  refine ⟨send_data c1, send_data c2, s1, s2, fun hf => ?_⟩
  have hc := send_data_injective c1 c2 cb1 cb2 hf
  rw [hc, d2] at d1
  have hp := List.append_inj_left (Except.ok.inj d1)
    (by rw [PKCS7.copied_length, PKCS7.copied_length])
  rw [PKCS7.copied_moved, PKCS7.copied_moved] at hp
  have hg := congrArg (fun l => l.getD i 0) hp
  simp only [List.getD_eq_getElem?_getD, List.getElem?_map, List.getElem?_range hi,
    Option.map_some', Option.getD_some] at hg
  exact hne hg.symm

/-- Two runs of the sender's step on one message in which `realloc` leaves the source of
`pad` in place: where the cipher calls return, both runs send the same frame. -/
theorem client_step_in_place_eq (adj1 adj2 : Nat → List Nat) (key iv msg : List Nat)
    (h1 : ∀ j, 12 ≤ (adj1 j).length) (h2 : ∀ j, 12 ≤ (adj2 j).length)
    (hkey : key.length = 16 ∨ key.length = 24 ∨ key.length = 32) (hkb : IsBytes key)
    (hiv : iv.length = 16) (hivb : IsBytes iv)
    (hmsg0 : msg ≠ []) (hexit : msg ≠ [101, 120, 105, 116]) (hmsgb : IsBytes msg)
    (hmsgl : msg.length + 16 < 4294967296) :
    ∃ f, Client.interactive_step adj1 .in_place (key ++ iv) msg = .ok (some f)
      ∧ Client.interactive_step adj2 .in_place (key ++ iv) msg = .ok (some f) := by
  obtain ⟨c1, cb1, s1, d1⟩ := client_step_of_addressable adj1 adj1 .in_place key iv msg
    h1 h1 hkey hkb hiv hivb hmsg0 hexit hmsgb hmsgl
  obtain ⟨c2, cb2, s2, d2⟩ := client_step_of_addressable adj2 adj1 .in_place key iv msg
    h2 h1 hkey hkb hiv hivb hmsg0 hexit hmsgb hmsgl
  rw [client_step_eq adj1 _ key iv msg hkey hiv hmsg0 hexit hmsgl] at s1
  rw [client_step_eq adj2 _ key iv msg hkey hiv hmsg0 hexit hmsgl] at s2
  cases e1 : AES.encrypt adj1 (PKCS7.copied (.source .in_place) msg
      ++ List.replicate (16 - msg.length % 16) (16 - msg.length % 16)) key iv with
  | error e =>
    rw [e1] at s1
    cases s1
  | ok x1 =>
    cases e2 : AES.encrypt adj2 (PKCS7.copied (.source .in_place) msg
        ++ List.replicate (16 - msg.length % 16) (16 - msg.length % 16)) key iv with
    | error e =>
      rw [e2] at s2
      cases s2
    | ok x2 =>
      have hx := AES.encrypt_ok_unique adj1 adj2 _ key iv x1 x2 e1 e2
      refine ⟨send_data x1, ?_, ?_⟩
      · rw [client_step_eq adj1 _ key iv msg hkey hiv hmsg0 hexit hmsgl, e1]
        rfl
      · rw [client_step_eq adj2 _ key iv msg hkey hiv hmsg0 hexit hmsgl, e2, hx]
        rfl

/-- C25 on the code: the frames of two equal messages are not determined by the key, the
IV and the message.  In the C++ object model (nothing lies behind the 16-byte state
array) `AES::encrypt` leaves the array in `shift_rows` on every block-aligned plaintext
and the sender's step sends no frame.  Where the twelve bytes behind the state array
are addressable, `AES::encrypt` returns, and its results on two plaintexts that agree on
their first `k` blocks agree on their first `k` blocks; the frame of the sender's step
carries what `pad(pt, pt, ..)` has read from the block that `realloc` freed: two runs
on the same message whose freed blocks read differently send different frames, and two
runs in which `realloc` leaves the block in place send the same frame. -/
theorem frames_depend_on_heap (key iv p msg : List Nat)
    (hkey : key.length = 16 ∨ key.length = 24 ∨ key.length = 32) (hiv : iv.length = 16)
    (hp0 : p ≠ []) (hp : p.length % 16 = 0)
    (hmsg0 : msg ≠ []) (hexit : msg ≠ [101, 120, 105, 116])
    (hmsgl : msg.length + 16 < 4294967296) :
    AES.encrypt (fun _ => []) p key iv = .error .fault
    ∧ (∀ r, Client.interactive_step (fun _ => []) r (key ++ iv) msg = .error .fault)
    ∧ (∀ (adj1 adj2 : Nat → List Nat) (freed1 freed2 : Nat → Nat) (i : Nat),
        (∀ j, 12 ≤ (adj1 j).length) → (∀ j, 12 ≤ (adj2 j).length) →
        IsBytes key → IsBytes iv → IsBytes msg →
        i < msg.length → freed1 i % 256 ≠ freed2 i % 256 →
        ∃ f1 f2,
          Client.interactive_step adj1 (.moved freed1) (key ++ iv) msg = .ok (some f1)
          ∧ Client.interactive_step adj2 (.moved freed2) (key ++ iv) msg = .ok (some f2)
          ∧ f1 ≠ f2)
    ∧ (∀ (adj1 adj2 : Nat → List Nat),
        (∀ j, 12 ≤ (adj1 j).length) → (∀ j, 12 ≤ (adj2 j).length) →
        IsBytes key → IsBytes iv → IsBytes msg →
        ∃ f, Client.interactive_step adj1 .in_place (key ++ iv) msg = .ok (some f)
          ∧ Client.interactive_step adj2 .in_place (key ++ iv) msg = .ok (some f))
    ∧ ∀ (adj1 adj2 : Nat → List Nat) (p1 p2 : List Nat) (k : Nat),
        (∀ j, 12 ≤ (adj1 j).length) → (∀ j, 12 ≤ (adj2 j).length) →
        IsBytes key → IsBytes iv → IsBytes p1 → IsBytes p2 →
        p1 ≠ [] → p2 ≠ [] → p1.length % 16 = 0 → p2.length % 16 = 0 →
        16 * k ≤ p1.length → 16 * k ≤ p2.length → p1.take (16 * k) = p2.take (16 * k) →
        ∃ c1 c2, AES.encrypt adj1 p1 key iv = .ok c1 ∧ AES.encrypt adj2 p2 key iv = .ok c2
          ∧ c1.take (16 * k) = c2.take (16 * k) := by
  refine ⟨AES.encrypt_fault_of_no_adjacent p key iv hkey hp0 hp,
    fun r => client_step_fault_of_no_adjacent r key iv msg hkey hiv hmsg0 hexit hmsgl,
    fun adj1 adj2 freed1 freed2 i h1 h2 hkb hivb hmsgb hi hne =>
      client_step_moved_ne adj1 adj2 freed1 freed2 key iv msg i h1 h2 hkey hkb hiv hivb hmsg0
        hexit hmsgb hmsgl hi hne,
    fun adj1 adj2 h1 h2 hkb hivb hmsgb =>
      client_step_in_place_eq adj1 adj2 key iv msg h1 h2 hkey hkb hiv hivb hmsg0 hexit hmsgb
        hmsgl,
    fun adj1 adj2 p1 p2 k h1 h2 hkb hivb hb1 hb2 hn1 hn2 ha1 ha2 hk1 hk2 hpre => ?_⟩
  obtain ⟨c1, e1, -, -, -⟩ := AES.decrypt_encrypt_of_addressable adj1 adj1 p1 key iv h1 h1
    hkey hkb hiv hivb hn1 ha1 hb1
  obtain ⟨c2, e2, -, -, -⟩ := AES.decrypt_encrypt_of_addressable adj2 adj2 p2 key iv h2 h2
    hkey hkb hiv hivb hn2 ha2 hb2
  exact ⟨c1, c2, e1, e2, AES.encrypt_prefix_of_ok adj1 adj2 key iv p1 p2 c1 c2 k hk1 hk2 hpre
    e1 e2⟩

set_option maxRecDepth 1000000 in
theorem frames_depend_on_heap_witness :
    Client.interactive_step (fun _ => List.replicate 12 0) (.moved (fun _ => 0))
        (List.replicate 16 0 ++ List.replicate 16 0) aes_test_msg
      ≠ Client.interactive_step (fun _ => List.replicate 12 0) .in_place
        (List.replicate 16 0 ++ List.replicate 16 0) aes_test_msg
    ∧ AES.encrypt (fun _ => []) (List.replicate 16 0) (List.replicate 16 0)
        (List.replicate 16 0) = .error .fault
    ∧ (∀ r, Client.interactive_step (fun _ => []) r
        (List.replicate 16 0 ++ List.replicate 16 0) aes_test_msg = .error .fault)
    ∧ ∃ f1 f2,
        Client.interactive_step (fun _ => List.replicate 12 0) (.moved (fun _ => 0))
            (List.replicate 16 0 ++ List.replicate 16 0) aes_test_msg
          = .ok (some f1)
        ∧ Client.interactive_step (fun _ => List.replicate 12 0) (.moved (fun _ => 1))
            (List.replicate 16 0 ++ List.replicate 16 0) aes_test_msg
          = .ok (some f2)
        ∧ f1 ≠ f2 := by
  have h := frames_depend_on_heap (List.replicate 16 0) (List.replicate 16 0)
    (List.replicate 16 0) aes_test_msg (by decide) (by decide) (by decide)
    (by decide) (by decide) (by decide) (by decide)
  exact ⟨by decide, h.1, h.2.1,
    h.2.2.1 (fun _ => List.replicate 12 0) (fun _ => List.replicate 12 0) (fun _ => 0)
      (fun _ => 1) 0 (fun _ => by simp) (fun _ => by simp) (by decide) (by decide)
      (by decide) (by decide) (by decide)⟩

/-! ## The prime candidate -/

set_option maxRecDepth 1000000 in
/-- C26 on the code: `get_rand_prime` forces the top bit in the last byte of its buffer
and the low bit in the first byte, and `mpz_import` reads the buffer with the most
significant byte first, so the forced bits land on the wrong ends of the candidate.
With all random bytes zero the candidate for `nbits = 16` is `0x0180 = 384`, even and
of 9 bits, and the candidate for `nbits = 1024` is even and has 1017 bits; with all
random bytes `0xff` the candidate for `nbits = 12` is `0xff0f`, of 16 bits. -/
theorem get_rand_prime_temp_shape :
    PrivKey.get_rand_prime_temp 16 (fun _ => 0) = .ok 384
    ∧ mpz_sizeinbase2 384 = 9 ∧ 384 % 2 = 0
    ∧ (PrivKey.get_rand_prime_temp 1024 (fun _ => 0)).map mpz_sizeinbase2 = .ok 1017
    ∧ (PrivKey.get_rand_prime_temp 1024 (fun _ => 0)).map (fun t => t % 2) = .ok 0
    ∧ PrivKey.get_rand_prime_temp 12 (fun _ => 255) = .ok 65295
    ∧ mpz_sizeinbase2 65295 = 16 := by
  decide

set_option maxRecDepth 1000000 in
theorem get_rand_prime_temp_one_byte :
    ∀ n, n < 9 → 2 ≤ n → ∀ b, b < 256 →
      (PrivKey.get_rand_prime_temp n (fun _ => b)).map (fun t => (mpz_sizeinbase2 t, t % 2))
        = .ok (n, 1) := by
  decide

/-- Where the buffer has one byte (`2 ≤ nbits ≤ 8`) both forced bits are in that byte:
the candidate has exactly `nbits` bits and is odd, for every random byte. -/
theorem get_rand_prime_temp_small (nbits : Nat) (rand : Nat → Nat) (h2 : 2 ≤ nbits)
    (h8 : nbits ≤ 8) :
    (PrivKey.get_rand_prime_temp nbits rand).map (fun t => (mpz_sizeinbase2 t, t % 2))
      = .ok (nbits, 1) := by
  have hb : rand 0 &&& 0xff < 256 := Nat.lt_of_le_of_lt Nat.and_le_right (by decide)
  have key := get_rand_prime_temp_one_byte nbits (by omega) h2 (rand 0 &&& 0xff) hb
  have e : PrivKey.get_rand_prime_temp nbits rand
      = PrivKey.get_rand_prime_temp nbits (fun _ => rand 0 &&& 0xff) := by
    have hand : (rand 0 &&& 0xff) &&& 0xff = rand 0 &&& 0xff := by
      rw [Nat.and_assoc]; rfl
    interval_cases nbits <;>
      simp only [PrivKey.get_rand_prime_temp] <;>
      norm_num [U32, List.range, List.range.loop, hand]
  rw [e]
  exact key

/-! ## The private exponent computed by `PrivKey::random` -/

theorem invert_aux_spec (a m : Int) : ∀ (fuel r0 r1 : Nat) (t0 t1 : Int), r1 < fuel →
    t0 * a ≡ (r0 : Int) [ZMOD m] → t1 * a ≡ (r1 : Int) [ZMOD m] →
    invert_aux fuel (r0 : Int) (r1 : Int) t0 t1 * a ≡ (Nat.gcd r0 r1 : Int) [ZMOD m] := by
  intro fuel
  induction fuel with
  | zero => intro r0 r1 t0 t1 h; omega
  | succ f ih =>
    intro r0 r1 t0 t1 hlt h0 h1
    unfold invert_aux
    by_cases hz : r1 = 0
    · subst hz
      simpa using h0
    · have hz' : (r1 : Int) ≠ 0 := by exact_mod_cast hz
      rw [if_neg hz']
      have hmod : (r0 : Int) % (r1 : Int) = ((r0 % r1 : Nat) : Int) := by push_cast; rfl
      have hdiv : (r0 : Int) / (r1 : Int) = ((r0 / r1 : Nat) : Int) := by push_cast; rfl
      have hg : Nat.gcd r0 r1 = Nat.gcd r1 (r0 % r1) := by
        rw [Nat.gcd_comm r0 r1, Nat.gcd_rec r1 r0, Nat.gcd_comm]
      rw [hmod, hg]
      apply ih r1 (r0 % r1) t1 (t0 - (r0 : Int) / (r1 : Int) * t1)
      · have := Nat.mod_lt r0 (Nat.pos_of_ne_zero hz)
        omega
      · exact h1
      · have e : (t0 - (r0 : Int) / (r1 : Int) * t1) * a
            = t0 * a - (r0 : Int) / (r1 : Int) * (t1 * a) := by ring
        have e2 : ((r0 % r1 : Nat) : Int) = (r0 : Int) - (r0 : Int) / (r1 : Int) * (r1 : Int) := by
          rw [← hmod, Int.emod_def]; ring
        rw [e, e2]
        exact Int.ModEq.sub h0 (Int.ModEq.mul_left _ h1)

/-- When the inverse exists, `mpz_invert` reports success and its result `d` satisfies
`0 ≤ d < m` and `a * d ≡ 1 (mod m)`. -/
theorem mpz_invert_spec (undef a m : Nat) (hm : 0 < m) (hg : Nat.gcd a m = 1) :
    (mpz_invert undef a m).1 = true ∧ (mpz_invert undef a m).2 < m
    ∧ a * (mpz_invert undef a m).2 ≡ 1 [MOD m] := by
  unfold mpz_invert
  rw [if_pos hg]
  have hspec := invert_aux_spec (a : Int) (m : Int) (a + 1) m a 0 1 (by omega)
    (by rw [zero_mul]; exact (Int.modEq_zero_iff_dvd.mpr (dvd_refl _)).symm)
    (by rw [one_mul])
  rw [Nat.gcd_comm, hg] at hspec
  have hmpos : (0 : Int) < (m : Int) := by exact_mod_cast hm
  have hnn : 0 ≤ invert_aux (a + 1) (m : Int) (a : Int) 0 1 % (m : Int) :=
    Int.emod_nonneg _ (by omega)
  have hlt : invert_aux (a + 1) (m : Int) (a : Int) 0 1 % (m : Int) < (m : Int) :=
    Int.emod_lt_of_pos _ hmpos
  refine ⟨rfl, by simp only; omega, ?_⟩
  simp only
  apply (Int.natCast_modEq_iff).mp
  push_cast
  rw [Int.toNat_of_nonneg hnn]
  have h1 : invert_aux (a + 1) (m : Int) (a : Int) 0 1 % (m : Int)
      ≡ invert_aux (a + 1) (m : Int) (a : Int) 0 1 [ZMOD (m : Int)] := Int.mod_modEq _ _
  have h2 := Int.ModEq.mul_left (a : Int) h1
  rw [mul_comm] at hspec
  exact h2.trans hspec

/-- The key that `PrivKey::random` returns when `e = 65537` is invertible modulo
`(p-1)(q-1)`: `n = p * q` and `e * d ≡ 1 (mod (p-1)(q-1))`, the relation the RSA round
trip needs. -/
theorem PrivKey.random_of_invertible (key : PrivKey) (p q undef : Nat)
    (hp : p.Prime) (hq : q.Prime) (he : key.e = 65537)
    (hg : Nat.gcd 65537 ((q - 1) * (p - 1)) = 1) :
    (PrivKey.random key p q undef).p = p ∧ (PrivKey.random key p q undef).q = q
    ∧ (PrivKey.random key p q undef).n = p * q
    ∧ (PrivKey.random key p q undef).e = 65537
    ∧ 65537 * (PrivKey.random key p q undef).d ≡ 1 [MOD (p - 1) * (q - 1)] := by
  have hp2 := hp.two_le
  have hq2 := hq.two_le
  have hpos : 0 < (q - 1) * (p - 1) := Nat.mul_pos (by omega) (by omega)
  have hs := (mpz_invert_spec undef 65537 ((q - 1) * (p - 1)) hpos hg).2.2
  refine ⟨rfl, rfl, rfl, he, ?_⟩
  rw [Nat.mul_comm (p - 1) (q - 1)]
  show 65537 * (mpz_invert undef key.e ((q - 1) * (p - 1))).2 ≡ 1 [MOD (q - 1) * (p - 1)]
  rw [he]
  exact hs

/-! ## Empty input, and the way back from a ciphertext -/

namespace AES

/-- C32 on the code: for every key of 16, 24 or 32 bytes, every 16-byte IV and every
ciphertext buffer whose length is a positive multiple of 16, in the C++ object model
(nothing lies behind the 16-byte state array of `inv_rijndael`) `decrypt` leaves the
array in `shift_rows` and returns no plaintext, so `encrypt (decrypt ct)` has no value.
Where the twelve bytes behind the state array are addressable in every call, `decrypt`
returns a plaintext that `encrypt` maps back to `ct`, and two block-aligned buffers of
the same length with the same decryption are equal. -/
theorem reverse_round_trip (ct key iv : List Nat)
    (hkey : key.length = 16 ∨ key.length = 24 ∨ key.length = 32) (hkb : IsBytes key)
    (hiv : iv.length = 16) (hivb : IsBytes iv)
    (hct0 : ct ≠ []) (hct : ct.length % 16 = 0) (hctb : IsBytes ct) :
    decrypt (fun _ => []) ct key iv = .error .fault
    ∧ (∀ adjE adjD : Nat → List Nat,
        (∀ i, 12 ≤ (adjE i).length) → (∀ i, 12 ≤ (adjD i).length) →
        ∃ pt, decrypt adjD ct key iv = .ok pt ∧ encrypt adjE pt key iv = .ok ct)
    ∧ (∀ (adj1 adj2 : Nat → List Nat) (ct2 : List Nat),
        (∀ i, 12 ≤ (adj1 i).length) → (∀ i, 12 ≤ (adj2 i).length) →
        ct2.length = ct.length → IsBytes ct2 →
        decrypt adj1 ct2 key iv = decrypt adj2 ct key iv → ct2 = ct) := by
  have hn : ct.length ≠ 0 := by simpa using hct0
  refine ⟨decrypt_fault_of_no_adjacent ct key iv hkey (by omega), ?_, ?_⟩
  · intro adjE adjD hE hD
    obtain ⟨pt, hpt, _, _, henc⟩ :=
      encrypt_decrypt_of_addressable adjE adjD ct key iv hE hD hkey hkb hiv hivb hct0 hct hctb
    exact ⟨pt, hpt, henc⟩
  · intro adj1 adj2 ct2 h1 h2 hl hb2 heq
    have hct20 : ct2 ≠ [] := by
      intro h
      rw [h] at hl
      exact hn hl.symm
    obtain ⟨pt, hpt, _, _, henc⟩ :=
      encrypt_decrypt_of_addressable adj1 adj2 ct key iv h1 h2 hkey hkb hiv hivb hct0 hct hctb
    obtain ⟨pt2, hpt2, _, _, henc2⟩ :=
      encrypt_decrypt_of_addressable adj1 adj1 ct2 key iv h1 h1 hkey hkb hiv hivb hct20
        (by rw [hl]; exact hct) hb2
    rw [hpt, hpt2] at heq
    rw [Except.ok.inj heq] at henc2
    rw [henc] at henc2
    exact (Except.ok.inj henc2).symm

theorem reverse_round_trip_witness :
    decrypt (fun _ => []) (List.replicate 16 0) (List.replicate 16 0) (List.replicate 16 0)
      = .error .fault
    ∧ (∀ adjE adjD : Nat → List Nat,
        (∀ i, 12 ≤ (adjE i).length) → (∀ i, 12 ≤ (adjD i).length) →
        ∃ pt, decrypt adjD (List.replicate 16 0) (List.replicate 16 0) (List.replicate 16 0)
            = .ok pt
          ∧ encrypt adjE pt (List.replicate 16 0) (List.replicate 16 0)
            = .ok (List.replicate 16 0))
    ∧ (∀ (adj1 adj2 : Nat → List Nat) (ct2 : List Nat),
        (∀ i, 12 ≤ (adj1 i).length) → (∀ i, 12 ≤ (adj2 i).length) →
        ct2.length = (List.replicate 16 0).length → IsBytes ct2 →
        decrypt adj1 ct2 (List.replicate 16 0) (List.replicate 16 0)
          = decrypt adj2 (List.replicate 16 0) (List.replicate 16 0) (List.replicate 16 0) →
        ct2 = List.replicate 16 0) :=
  reverse_round_trip (List.replicate 16 0) (List.replicate 16 0) (List.replicate 16 0)
    (by decide) (by decide) (by decide) (by decide) (by decide) (by decide) (by decide)

end AES

/-! ## The toy SPN of assignment 2 -/

theorem for_loop_eq_foldl {σ α : Type} (f : σ → α → Except Error σ) (g : σ → α → σ)
    (xs : List α) (h : ∀ x ∈ xs, ∀ s, f s x = .ok (g s x)) (s : σ) :
    for_loop f s xs = .ok (xs.foldl g s) := by
  induction xs generalizing s with
  | nil => rfl
  | cons x xs ih =>
    rw [for_loop, h x (List.mem_cons_self _ _) s]
    exact ih (fun y hy => h y (List.mem_cons_of_mem _ hy)) _

theorem except_ok_bind {α β : Type} (a : α) (f : α → Except Error β) :
    (Except.ok a : Except Error α).bind f = f a := rfl

namespace SPN

theorem map_at_sbox (inv : Bool) (n : Nat) (hn : n < 16) :
    map_at (if inv then inv_sbox else sbox) n
      = .ok ((List.lookup n (if inv then inv_sbox else sbox)).getD 0) := by
  cases inv <;> interval_cases n <;> rfl

theorem map_at_pbox (n : Nat) (hn : n < 16) :
    map_at pbox n = .ok ((List.lookup n pbox).getD 0) := by
  interval_cases n <;> rfl

theorem sbox_val_lt (inv : Bool) (n : Nat) (hn : n < 16) :
    (List.lookup n (if inv then inv_sbox else sbox)).getD 0 < 16 := by
  cases inv <;> interval_cases n <;> decide

theorem spn_inv_sbox_sbox (n : Nat) (hn : n < 16) :
    (List.lookup ((List.lookup n sbox).getD 0) inv_sbox).getD 0 = n := by
  interval_cases n <;> rfl

theorem pbox_val_lt (n : Nat) (hn : n < 16) : (List.lookup n pbox).getD 0 < 16 := by
  interval_cases n <;> decide

theorem pbox_pbox (n : Nat) (hn : n < 16) :
    (List.lookup ((List.lookup n pbox).getD 0) pbox).getD 0 = n := by
  interval_cases n <;> rfl

theorem and_shiftLeft_shiftRight (s m k : Nat) : (s &&& (m <<< k)) >>> k = (s >>> k) &&& m := by
  apply Nat.eq_of_testBit_eq
  intro i
  simp [Nat.testBit_shiftRight, Nat.testBit_and, Nat.testBit_shiftLeft]

theorem nibble_eq (s k : Nat) : (s &&& (15 <<< k)) >>> k = s / 2 ^ k % 16 := by
  rw [and_shiftLeft_shiftRight, Nat.shiftRight_eq_div_pow]
  exact Nat.and_pow_two_sub_one_eq_mod _ 4

theorem pack_eq (v0 v1 v2 v3 : Nat) (h0 : v0 < 16) (h1 : v1 < 16) (h2 : v2 < 16) :
    (((0 ||| v0 <<< 0) ||| v1 <<< (0 + 4)) ||| v2 <<< (0 + 4 + 4)) ||| v3 <<< (0 + 4 + 4 + 4)
      = v0 + 16 * v1 + 256 * v2 + 4096 * v3 := by
  have e1 : v0 ||| v1 <<< 4 = v0 + 16 * v1 := by
    rw [Nat.lor_comm, Nat.shiftLeft_eq, Nat.mul_comm v1,
      ← Nat.mul_add_lt_is_or (show v0 < 2 ^ 4 by omega)]
    omega
  have e2 : (v0 + 16 * v1) ||| v2 <<< 8 = v0 + 16 * v1 + 256 * v2 := by
    rw [Nat.lor_comm, Nat.shiftLeft_eq, Nat.mul_comm v2,
      ← Nat.mul_add_lt_is_or (show v0 + 16 * v1 < 2 ^ 8 by omega)]
    omega
  have e3 : (v0 + 16 * v1 + 256 * v2) ||| v3 <<< 12 = v0 + 16 * v1 + 256 * v2 + 4096 * v3 := by
    rw [Nat.lor_comm, Nat.shiftLeft_eq, Nat.mul_comm v3,
      ← Nat.mul_add_lt_is_or (show v0 + 16 * v1 + 256 * v2 < 2 ^ 12 by omega)]
    omega
  rw [Nat.zero_or, Nat.shiftLeft_zero]
  exact (congrArg (fun t => (t ||| v2 <<< 8) ||| v3 <<< 12) e1).trans
    ((congrArg (fun t => t ||| v3 <<< 12) e2).trans e3)

/-- The value of `apply_sbox`: the four nibbles of the low 16 bits of the state are
replaced by their images under the table. -/
theorem apply_sbox_eq (s : Nat) (inv : Bool) :
    apply_sbox s inv
      = .ok ((List.lookup (s % 16) (if inv then inv_sbox else sbox)).getD 0
          + 16 * (List.lookup (s / 16 % 16) (if inv then inv_sbox else sbox)).getD 0
          + 256 * (List.lookup (s / 256 % 16) (if inv then inv_sbox else sbox)).getD 0
          + 4096 * (List.lookup (s / 4096 % 16) (if inv then inv_sbox else sbox)).getD 0) := by
  have m0 : s &&& 0x000f = s % 16 := Nat.and_pow_two_sub_one_eq_mod s 4
  have m1 : (s &&& 0x00f0) >>> 4 = s / 16 % 16 := nibble_eq s 4
  have m2 : (s &&& 0x0f00) >>> 8 = s / 256 % 16 := nibble_eq s 8
  have m3 : (s &&& 0xf000) >>> 12 = s / 4096 % 16 := nibble_eq s 12
  have l0 := Nat.mod_lt s (show 0 < 16 by decide)
  have l1 := Nat.mod_lt (s / 16) (show 0 < 16 by decide)
  have l2 := Nat.mod_lt (s / 256) (show 0 < 16 by decide)
  have l3 := Nat.mod_lt (s / 4096) (show 0 < 16 by decide)
  simp only [apply_sbox, m0, m1, m2, m3, for_loop, map_at_sbox inv _ l0, map_at_sbox inv _ l1,
    map_at_sbox inv _ l2, map_at_sbox inv _ l3, Except.bind, List.nil_append,
    List.cons_append, List.foldl]
  rw [pack_eq _ _ _ _ (sbox_val_lt inv _ l0) (sbox_val_lt inv _ l1) (sbox_val_lt inv _ l2)]

theorem unpack_pack (v0 v1 v2 v3 : Nat) (h0 : v0 < 16) (h1 : v1 < 16) (h2 : v2 < 16)
    (h3 : v3 < 16) :
    (v0 + 16 * v1 + 256 * v2 + 4096 * v3) % 16 = v0
    ∧ (v0 + 16 * v1 + 256 * v2 + 4096 * v3) / 16 % 16 = v1
    ∧ (v0 + 16 * v1 + 256 * v2 + 4096 * v3) / 256 % 16 = v2
    ∧ (v0 + 16 * v1 + 256 * v2 + 4096 * v3) / 4096 % 16 = v3
    ∧ v0 + 16 * v1 + 256 * v2 + 4096 * v3 < 65536 := by
  refine ⟨?_, ?_, ?_, ?_, ?_⟩ <;> omega

theorem pack_unpack (s : Nat) (hs : s < 65536) :
    s % 16 + 16 * (s / 16 % 16) + 256 * (s / 256 % 16) + 4096 * (s / 4096 % 16) = s := by
  omega

theorem apply_sbox_round_trip (s : Nat) (hs : s < 65536) :
    ∃ t, apply_sbox s false = .ok t ∧ t < 65536 ∧ apply_sbox t true = .ok s := by
  have l0 := Nat.mod_lt s (show 0 < 16 by decide)
  have l1 := Nat.mod_lt (s / 16) (show 0 < 16 by decide)
  have l2 := Nat.mod_lt (s / 256) (show 0 < 16 by decide)
  have l3 := Nat.mod_lt (s / 4096) (show 0 < 16 by decide)
  have b0 := sbox_val_lt false _ l0
  have b1 := sbox_val_lt false _ l1
  have b2 := sbox_val_lt false _ l2
  have b3 := sbox_val_lt false _ l3
  have i0 := spn_inv_sbox_sbox _ l0
  have i1 := spn_inv_sbox_sbox _ l1
  have i2 := spn_inv_sbox_sbox _ l2
  have i3 := spn_inv_sbox_sbox _ l3
  simp only [Bool.false_eq_true, if_false] at b0 b1 b2 b3
  obtain ⟨v0, hv0⟩ : ∃ v, (List.lookup (s % 16) sbox).getD 0 = v := ⟨_, rfl⟩
  obtain ⟨v1, hv1⟩ : ∃ v, (List.lookup (s / 16 % 16) sbox).getD 0 = v := ⟨_, rfl⟩
  obtain ⟨v2, hv2⟩ : ∃ v, (List.lookup (s / 256 % 16) sbox).getD 0 = v := ⟨_, rfl⟩
  obtain ⟨v3, hv3⟩ : ∃ v, (List.lookup (s / 4096 % 16) sbox).getD 0 = v := ⟨_, rfl⟩
  rw [hv0] at b0 i0
  rw [hv1] at b1 i1
  rw [hv2] at b2 i2
  rw [hv3] at b3 i3
  obtain ⟨e0, e1, e2, e3, e4⟩ := unpack_pack v0 v1 v2 v3 b0 b1 b2 b3
  refine ⟨v0 + 16 * v1 + 256 * v2 + 4096 * v3, ?_, e4, ?_⟩
  · rw [apply_sbox_eq]
    simp only [Bool.false_eq_true, if_false, hv0, hv1, hv2, hv3]
  · rw [apply_sbox_eq]
    simp only [if_true, e0, e1, e2, e3, i0, i1, i2, i3]
    rw [pack_unpack s hs]

end SPN

namespace SPN

theorem and_one_shiftLeft_ne_zero (s i : Nat) : s &&& (1 <<< i) ≠ 0 ↔ s.testBit i = true := by
  rw [Nat.one_shiftLeft, Nat.and_two_pow]
  cases s.testBit i <;> simp

theorem testBit_permute_foldl (s j : Nat) (xs : List Nat) (st : Nat) :
    (xs.foldl (fun (state_temp : Nat) bit_idx =>
        if s &&& (1 <<< bit_idx) ≠ 0 then
          state_temp ||| (1 <<< (List.lookup bit_idx pbox).getD 0)
        else state_temp) st).testBit j
      = (st.testBit j
          || xs.any (fun i => s.testBit i && decide ((List.lookup i pbox).getD 0 = j))) := by
  induction xs generalizing st with
  | nil => simp
  | cons x xs ih =>
    rw [List.foldl_cons, ih, List.any_cons]
    by_cases hx : s.testBit x = true
    · rw [if_pos ((and_one_shiftLeft_ne_zero s x).mpr hx), Nat.testBit_lor, Nat.one_shiftLeft,
        Nat.testBit_two_pow, hx, Bool.true_and, Bool.or_assoc]
    · rw [if_neg (fun h => hx ((and_one_shiftLeft_ne_zero s x).mp h))]
      simp only [Bool.not_eq_true] at hx
      rw [hx, Bool.false_and, Bool.false_or]

/-- The value of `permute`, bit by bit: bit `j` of the result is set exactly when some
bit `i < 16` of the state is set and `pbox` sends `i` to `j`. -/
theorem permute_eq (s : Nat) :
    ∃ t, permute s = .ok t
      ∧ ∀ j, t.testBit j
          = (List.range 16).any
              (fun i => s.testBit i && decide ((List.lookup i pbox).getD 0 = j)) := by
  refine ⟨_, for_loop_eq_foldl _ (fun (state_temp : Nat) bit_idx =>
        if s &&& (1 <<< bit_idx) ≠ 0 then
          state_temp ||| (1 <<< (List.lookup bit_idx pbox).getD 0)
        else state_temp) _ ?_ 0, fun j => ?_⟩
  · intro x hx st
    have hx16 : x < 16 := List.mem_range.mp hx
    by_cases hb : s &&& (1 <<< x) ≠ 0
    · simp only [if_pos hb, map_at_pbox x hx16, Except.bind]
    · simp only [if_neg hb]
  · rw [testBit_permute_foldl, Nat.zero_testBit, Bool.false_or]
    rfl

theorem permute_round_trip (s : Nat) (hs : s < 65536) :
    ∃ t, permute s = .ok t ∧ t < 65536 ∧ permute t = .ok s := by
  obtain ⟨t, ht, htb⟩ := permute_eq s
  obtain ⟨u, hu, hub⟩ := permute_eq t
  have hlt : t < 2 ^ 16 := by
    apply Nat.lt_pow_two_of_testBit
    intro i hi
    rw [htb, Bool.eq_false_iff]
    intro h
    obtain ⟨k, hk, hk2⟩ := List.any_eq_true.mp h
    simp only [Bool.and_eq_true, decide_eq_true_eq] at hk2
    have := pbox_val_lt k (List.mem_range.mp hk)
    omega
  refine ⟨t, ht, hlt, ?_⟩
  rw [hu]
  congr 1
  apply Nat.eq_of_testBit_eq
  intro j
  rw [hub, Bool.eq_iff_iff, List.any_eq_true]
  constructor
  · rintro ⟨i, hi, h⟩
    simp only [Bool.and_eq_true, decide_eq_true_eq] at h
    obtain ⟨h1, h2⟩ := h
    rw [htb, List.any_eq_true] at h1
    obtain ⟨k, hk, h3⟩ := h1
    simp only [Bool.and_eq_true, decide_eq_true_eq] at h3
    have := pbox_pbox k (List.mem_range.mp hk)
    rw [h3.2, h2] at this
    rw [this]
    exact h3.1
  · intro h
    have hj : j < 16 := by
      by_contra hj
      have h2 : s < 2 ^ j := lt_of_lt_of_le (show s < 2 ^ 16 from hs)
        (Nat.pow_le_pow_right (by decide) (by omega))
      rw [Nat.testBit_lt_two_pow h2] at h
      cases h
    refine ⟨(List.lookup j pbox).getD 0, List.mem_range.mpr (pbox_val_lt j hj), ?_⟩
    simp only [Bool.and_eq_true, decide_eq_true_eq]
    refine ⟨?_, pbox_pbox j hj⟩
    rw [htb, List.any_eq_true]
    exact ⟨j, List.mem_range.mpr hj, by simp [h]⟩

theorem get_sub_keys_ten (a0 a1 a2 a3 a4 a5 a6 a7 a8 a9 : Nat) :
    get_sub_keys [a0, a1, a2, a3, a4, a5, a6, a7, a8, a9]
      = .ok [((a0 <<< 8) % U32 + a1) % U32, ((a2 <<< 8) % U32 + a3) % U32,
      ((a4 <<< 8) % U32 + a5) % U32, ((a6 <<< 8) % U32 + a7) % U32,
      ((a8 <<< 8) % U32 + a9) % U32] := by
  have hr : (List.range (([a0, a1, a2, a3, a4, a5, a6, a7, a8, a9].length + 1) / 2)).map
      (fun i => 2 * i) = [0, 2, 4, 6, 8] := by
    simp only [List.length_cons, List.length_nil]
    decide
  simp only [get_sub_keys, hr, for_loop]
  simp [Except.bind]
theorem get_sub_keys_eq (key : List Nat) (hl : key.length = 10) (hk : ∀ k ∈ key, k < 256) :
    ∃ k0 k1 k2 k3 k4, get_sub_keys key = .ok [k0, k1, k2, k3, k4]
      ∧ k0 < 65536 ∧ k1 < 65536 ∧ k2 < 65536 ∧ k3 < 65536 ∧ k4 < 65536 := by
  match key, hl with
  | [a0, a1, a2, a3, a4, a5, a6, a7, a8, a9], _ =>
    have h0 : a0 < 256 := hk _ (by simp)
    have h1 : a1 < 256 := hk _ (by simp)
    have h2 : a2 < 256 := hk _ (by simp)
    have h3 : a3 < 256 := hk _ (by simp)
    have h4 : a4 < 256 := hk _ (by simp)
    have h5 : a5 < 256 := hk _ (by simp)
    have h6 : a6 < 256 := hk _ (by simp)
    have h7 : a7 < 256 := hk _ (by simp)
    have h8 : a8 < 256 := hk _ (by simp)
    have h9 : a9 < 256 := hk _ (by simp)
    have hsk : ∀ a b : Nat, a < 256 → b < 256 → ((a <<< 8) % U32 + b) % U32 < 65536 := by
      intro a b ha hb
      rw [Nat.shiftLeft_eq]
      unfold U32
      omega
    exact ⟨_, _, _, _, _, get_sub_keys_ten a0 a1 a2 a3 a4 a5 a6 a7 a8 a9, hsk _ _ h0 h1, hsk _ _ h2 h3, hsk _ _ h4 h5,
      hsk _ _ h6 h7, hsk _ _ h8 h9⟩

theorem xor_lt_65536 (a b : Nat) (ha : a < 65536) (hb : b < 65536) : a ^^^ b < 65536 :=
  Nat.xor_lt_two_pow (show a < 2 ^ 16 from ha) (show b < 2 ^ 16 from hb)

theorem xor_xor_cancel (a b : Nat) : (a ^^^ b) ^^^ b = a := by
  rw [Nat.xor_assoc, Nat.xor_self, Nat.xor_zero]

theorem range_rounds : List.range rounds = [0, 1, 2] := rfl

theorem encrypt_state_eq (k0 k1 k2 k3 k4 s y0 z0 y1 z1 y2 z2 y3 : Nat)
    (e0 : apply_sbox (s ^^^ k0) false = .ok y0) (p0 : permute y0 = .ok z0)
    (e1 : apply_sbox (z0 ^^^ k1) false = .ok y1) (p1 : permute y1 = .ok z1)
    (e2 : apply_sbox (z1 ^^^ k2) false = .ok y2) (p2 : permute y2 = .ok z2)
    (e3 : apply_sbox (z2 ^^^ k3) false = .ok y3) :
    encrypt_state [k0, k1, k2, k3, k4] s = .ok (y3 ^^^ k4) := by
  have hl : [k0, k1, k2, k3, k4].length = 5 := rfl
  have g0 : [k0, k1, k2, k3, k4].getD 0 0 = k0 := rfl
  have g1 : [k0, k1, k2, k3, k4].getD 1 0 = k1 := rfl
  have g2 : [k0, k1, k2, k3, k4].getD 2 0 = k2 := rfl
  have g3 : [k0, k1, k2, k3, k4].getD (5 - 2) 0 = k3 := rfl
  have g4 : [k0, k1, k2, k3, k4].getD (5 - 1) 0 = k4 := rfl
  rw [encrypt_state, range_rounds]
  simp only [for_loop, hl, g0, g1, g2, g3, g4]
  rw [if_neg (by decide : ¬ 5 ≤ 0), e0, except_ok_bind, p0, except_ok_bind,
    if_neg (by decide : ¬ 5 ≤ 1), e1, except_ok_bind, p1, except_ok_bind,
    if_neg (by decide : ¬ 5 ≤ 2), e2, except_ok_bind, p2, except_ok_bind, except_ok_bind,
    if_neg (by decide : ¬ 5 < 2), e3, except_ok_bind]

theorem decrypt_state_eq (k0 k1 k2 k3 k4 c y3 z2 y2 z1 y1 z0 y0 : Nat)
    (d3 : apply_sbox (c ^^^ k4) true = .ok y3) (q2 : permute (y3 ^^^ k3) = .ok z2)
    (d2 : apply_sbox z2 true = .ok y2) (q1 : permute (y2 ^^^ k2) = .ok z1)
    (d1 : apply_sbox z1 true = .ok y1) (q0 : permute (y1 ^^^ k1) = .ok z0)
    (d0 : apply_sbox z0 true = .ok y0) :
    decrypt_state [k0, k1, k2, k3, k4] c = .ok (y0 ^^^ k0) := by
  have hl : [k0, k1, k2, k3, k4].length = 5 := rfl
  have g0 : [k0, k1, k2, k3, k4].getD 0 0 = k0 := rfl
  have g1 : [k0, k1, k2, k3, k4].getD (rounds - 2) 0 = k1 := rfl
  have g2 : [k0, k1, k2, k3, k4].getD (rounds - 1) 0 = k2 := rfl
  have g3 : [k0, k1, k2, k3, k4].getD (rounds - 0) 0 = k3 := rfl
  have g4 : [k0, k1, k2, k3, k4].getD (5 - 1) 0 = k4 := rfl
  rw [decrypt_state, range_rounds]
  simp only [for_loop, hl, g0, g1, g2, g3, g4]
  rw [if_neg (by decide : ¬ 5 < 1), d3, except_ok_bind,
    if_neg (by decide : ¬ 5 ≤ rounds - 0), q2, except_ok_bind, d2, except_ok_bind,
    if_neg (by decide : ¬ 5 ≤ rounds - 1), q1, except_ok_bind, d1, except_ok_bind,
    if_neg (by decide : ¬ 5 ≤ rounds - 2), q0, except_ok_bind, d0, except_ok_bind,
    except_ok_bind]
/-- One state through the cipher and back, for five round keys below `2 ^ 16`. -/
theorem decrypt_state_encrypt_state (k0 k1 k2 k3 k4 s : Nat) (h0 : k0 < 65536)
    (h1 : k1 < 65536) (h2 : k2 < 65536) (h3 : k3 < 65536) (h4 : k4 < 65536)
    (hs : s < 65536) :
    ∃ c, encrypt_state [k0, k1, k2, k3, k4] s = .ok c ∧ c < 65536
      ∧ decrypt_state [k0, k1, k2, k3, k4] c = .ok s := by
  obtain ⟨y0, e0, ly0, d0⟩ := apply_sbox_round_trip (s ^^^ k0) (xor_lt_65536 _ _ hs h0)
  obtain ⟨z0, p0, lz0, q0⟩ := permute_round_trip y0 ly0
  obtain ⟨y1, e1, ly1, d1⟩ := apply_sbox_round_trip (z0 ^^^ k1) (xor_lt_65536 _ _ lz0 h1)
  obtain ⟨z1, p1, lz1, q1⟩ := permute_round_trip y1 ly1
  obtain ⟨y2, e2, ly2, d2⟩ := apply_sbox_round_trip (z1 ^^^ k2) (xor_lt_65536 _ _ lz1 h2)
  obtain ⟨z2, p2, lz2, q2⟩ := permute_round_trip y2 ly2
  obtain ⟨y3, e3, ly3, d3⟩ := apply_sbox_round_trip (z2 ^^^ k3) (xor_lt_65536 _ _ lz2 h3)
  refine ⟨y3 ^^^ k4, encrypt_state_eq k0 k1 k2 k3 k4 s y0 z0 y1 z1 y2 z2 y3 e0 p0 e1 p1 e2 p2 e3,
    xor_lt_65536 _ _ ly3 h4, ?_⟩
  have r := decrypt_state_eq k0 k1 k2 k3 k4 (y3 ^^^ k4) (z2 ^^^ k3) y2 (z1 ^^^ k2) y1
    (z0 ^^^ k1) y0 (s ^^^ k0)
    (by rw [xor_xor_cancel]; exact d3) (by rw [xor_xor_cancel]; exact q2) d2
    (by rw [xor_xor_cancel]; exact q1) d1 (by rw [xor_xor_cancel]; exact q0) d0
  rw [xor_xor_cancel] at r
  exact r

theorem decrypt_loop_encrypt_loop (ks : List Nat)
    (hks : ∀ s, s < 65536 →
      ∃ c, encrypt_state ks s = .ok c ∧ c < 65536 ∧ decrypt_state ks c = .ok s)
    (pt : List Nat) (hpt : ∀ s ∈ pt, s < 65536) (accE accD : List Nat) :
    ∃ ct,
      for_loop (fun (ct : List Nat) state =>
          (encrypt_state ks state).bind fun state => .ok (ct ++ [state])) accE pt
        = .ok (accE ++ ct)
      ∧ ct.length = pt.length ∧ (∀ c ∈ ct, c < 65536)
      ∧ for_loop (fun (pt : List Nat) state =>
          (decrypt_state ks state).bind fun state => .ok (pt ++ [state])) accD ct
        = .ok (accD ++ pt) := by
  induction pt generalizing accE accD with
  | nil => exact ⟨[], by simp [for_loop], rfl, by simp, by simp [for_loop]⟩
  | cons s pt ih =>
    obtain ⟨c, hc, hcl, hd⟩ := hks s (hpt s (List.mem_cons_self _ _))
    obtain ⟨ct, h1, h2, h3, h4⟩ :=
      ih (fun x hx => hpt x (List.mem_cons_of_mem _ hx)) (accE ++ [c]) (accD ++ [s])
    refine ⟨c :: ct, ?_, by simp [h2], ?_, ?_⟩
    · rw [for_loop, hc, except_ok_bind, except_ok_bind, h1, List.append_assoc]
      rfl
    · intro x hx
      rcases List.mem_cons.mp hx with rfl | hx
      · exact hcl
      · exact h3 x hx
    · rw [for_loop, hd, except_ok_bind, except_ok_bind, h4, List.append_assoc]
      rfl

/-- C33: for every key of 10 entries, each in 0..255, and every list `pt` of states
below `2 ^ 16`, `SPN::encrypt` returns a list `ct` of as many states, each below
`2 ^ 16`, and `SPN::decrypt` maps `ct` back to `pt`, element for element and in the
same order. -/
theorem spn_decrypt_encrypt (pt key : List Nat) (hl : key.length = 10)
    (hk : ∀ k ∈ key, k < 256) (hpt : ∀ s ∈ pt, s < 65536) :
    ∃ ct, encrypt pt key = .ok ct ∧ ct.length = pt.length ∧ (∀ c ∈ ct, c < 65536)
      ∧ decrypt ct key = .ok pt := by
  obtain ⟨k0, k1, k2, k3, k4, hsk, h0, h1, h2, h3, h4⟩ := get_sub_keys_eq key hl hk
  obtain ⟨ct, hct, hlen, hlt, hdec⟩ := decrypt_loop_encrypt_loop [k0, k1, k2, k3, k4]
    (fun s hs => decrypt_state_encrypt_state k0 k1 k2 k3 k4 s h0 h1 h2 h3 h4 hs) pt hpt [] []
  refine ⟨ct, ?_, hlen, hlt, ?_⟩
  · rw [encrypt, hsk, except_ok_bind, hct, List.nil_append]
  · rw [decrypt, hsk, except_ok_bind, hdec, List.nil_append]

theorem spn_decrypt_encrypt_witness :
    encrypt [0x1234, 0xffff, 0] [1, 2, 3, 4, 5, 6, 7, 8, 9, 10] = .ok [36201, 4409, 14422]
    ∧ decrypt [36201, 4409, 14422] [1, 2, 3, 4, 5, 6, 7, 8, 9, 10] = .ok [0x1234, 0xffff, 0]
    ∧ ∃ ct, encrypt [0x1234, 0xffff, 0] [1, 2, 3, 4, 5, 6, 7, 8, 9, 10] = .ok ct
      ∧ ct.length = [0x1234, 0xffff, 0].length ∧ (∀ c ∈ ct, c < 65536)
      ∧ decrypt ct [1, 2, 3, 4, 5, 6, 7, 8, 9, 10] = .ok [0x1234, 0xffff, 0] :=
  ⟨by decide, by decide,
    spn_decrypt_encrypt [0x1234, 0xffff, 0] [1, 2, 3, 4, 5, 6, 7, 8, 9, 10] (by decide)
      (by decide) (by decide)⟩

end SPN

/-! ## The Jacobi symbol of assignment 1 -/

namespace SolvayStrassen

theorem tmod_natCast_eq_iff (A k r : ℕ) : (A : ℤ).tmod (k : ℤ) = (r : ℤ) ↔ A % k = r := by
  rw [← Int.ofNat_tmod]
  exact Int.ofNat_inj

theorem tmod_two_eq_zero (A : ℕ) : (A : ℤ).tmod 2 = 0 ↔ A % 2 = 0 := tmod_natCast_eq_iff A 2 0

theorem tmod_four_eq_three (A : ℕ) : (A : ℤ).tmod 4 = 3 ↔ A % 4 = 3 := tmod_natCast_eq_iff A 4 3

theorem tmod_eight_eq_three (A : ℕ) : (A : ℤ).tmod 8 = 3 ↔ A % 8 = 3 := tmod_natCast_eq_iff A 8 3

theorem tmod_eight_eq_five (A : ℕ) : (A : ℤ).tmod 8 = 5 ↔ A % 8 = 5 := tmod_natCast_eq_iff A 8 5

theorem natCast_shiftRight_one (A : ℕ) : (A : ℤ) >>> (1 : ℕ) = ((A / 2 : ℕ) : ℤ) := by
  rw [Int.shiftRight_eq_div_pow]
  norm_num

/-- The inner loop of `jacobi` on a positive `a`: it ends, leaves the odd part of `a`,
and keeps `jac * (a / b)`. -/
theorem jacobi_halve_spec (B : ℕ) (hB : B % 2 = 1) :
    ∀ (fuel A : ℕ) (jac : ℤ), 0 < A → A ≤ fuel →
      ∃ (A' : ℕ) (jac' : ℤ), jacobi_halve (B : ℤ) fuel (A : ℤ) jac = .ok ((A' : ℤ), jac')
        ∧ 0 < A' ∧ A' ≤ A ∧ A' % 2 = 1
        ∧ jac' * jacobiSym (A' : ℤ) B = jac * jacobiSym (A : ℤ) B := by
  intro fuel
  induction fuel with
  | zero =>
    intro A jac h0 h1
    omega
  | succ fuel ih =>
    intro A jac h0 h1
    rw [jacobi_halve]
    by_cases he : A % 2 = 0
    · rw [if_pos ((tmod_two_eq_zero A).mpr he), natCast_shiftRight_one]
      obtain ⟨A', jac', h2, h3, h4, h5, h6⟩ := ih (A / 2)
        (if (B : ℤ).tmod 8 = 3 ∨ (B : ℤ).tmod 8 = 5 then -jac else jac) (by omega) (by omega)
      refine ⟨A', jac', h2, h3, by omega, h5, ?_⟩
      rw [h6]
      have hev := jacobiSym.even_odd (a := (A : ℤ)) (b := B) (by omega) hB
      have hc : ((A : ℤ) / 2) = ((A / 2 : ℕ) : ℤ) := by norm_num
      rw [hc] at hev
      rw [← hev]
      simp only [tmod_eight_eq_three, tmod_eight_eq_five]
      split_ifs <;> ring
    · rw [if_neg (fun h => he ((tmod_two_eq_zero A).mp h))]
      exact ⟨A, jac, rfl, h0, le_refl _, by omega, rfl⟩

/-- The outer loop of `jacobi` ends within `a + 1` iterations and returns
`jac * (a / b)` for an odd `b`. -/
theorem jacobi_loop_spec :
    ∀ (fuel A B : ℕ) (jac : ℤ), A < fuel → B % 2 = 1 →
      jacobi_loop fuel (A : ℤ) (B : ℤ) jac = .ok (jac * jacobiSym (A : ℤ) B) := by
  intro fuel
  induction fuel with
  | zero =>
    intro A B jac h0
    omega
  | succ fuel ih =>
    intro A B jac hA hB
    rw [jacobi_loop]
    by_cases h0 : A = 0
    · subst h0
      rw [if_neg (by simp)]
      by_cases h1 : B = 1
      · subst h1
        simp [jacobiSym.one_right]
      · have h2 : ¬ ((B : ℤ) = 1) := by
          intro h
          exact h1 (by exact_mod_cast h)
        rw [if_neg h2]
        have : jacobiSym ((0 : ℕ) : ℤ) B = 0 := by
          rw [Nat.cast_zero]
          exact jacobiSym.zero_left (by omega)
        rw [this, mul_zero]
    · have hne : (A : ℤ) ≠ 0 := by exact_mod_cast h0
      rw [if_pos hne, Int.natAbs_ofNat]
      obtain ⟨A', jac', h2, h3, h4, h5, h6⟩ :=
        jacobi_halve_spec B hB A A jac (by omega) (le_refl _)
      rw [h2]
      have hm : int64_mod (B : ℤ) (A' : ℤ) = .ok (((B % A' : ℕ)) : ℤ) := by
        have hA0 : ¬ ((A' : ℤ) = 0 ∨ ((B : ℤ) = -9223372036854775808 ∧ (A' : ℤ) = -1)) := by
          omega
        rw [int64_mod, if_neg hA0, ← Int.ofNat_tmod]
      simp only [Except.bind, hm]
      rw [ih (B % A') A' _ (by have := Nat.mod_lt B h3; omega) h5, ← h6]
      congr 1
      have hq := jacobiSym.quadratic_reciprocity_if (a := A') (b := B) h5 hB
      have hml : jacobiSym (((B % A' : ℕ)) : ℤ) A' = jacobiSym (B : ℤ) A' := by
        rw [jacobiSym.mod_left (B : ℤ) A']
        norm_num
      rw [hml, ← hq]
      simp only [tmod_four_eq_three]
      by_cases hc : A' % 4 = 3 ∧ B % 4 = 3
      · rw [if_pos hc, if_pos ⟨hc.2, hc.1⟩]
        ring
      · rw [if_neg hc, if_neg (fun h => hc ⟨h.2, h.1⟩)]

/-- The value of `jacobi` for an odd positive `b`. -/
theorem jacobi_of_odd (a : ℤ) (B : ℕ) (ha : -9223372036854775808 < a) (hB : B % 2 = 1) :
    jacobi a (B : ℤ) = .ok (jacobiSym a B) := by
  have hc : ¬ ((B : ℤ) ≤ 0 ∨ (B : ℤ).tmod 2 = 0) := by
    rw [tmod_two_eq_zero]
    omega
  rw [jacobi, if_neg hc]
  by_cases hneg : a < 0
  · obtain ⟨A, rfl⟩ := Int.exists_eq_neg_ofNat (le_of_lt hneg)
    have hi : int64 (-(-(A : ℤ))) = .ok (A : ℤ) := by
      rw [int64, neg_neg, if_pos (by omega)]
    rw [if_pos hneg, hi]
    simp only [Except.bind, Int.natAbs_ofNat]
    rw [jacobi_loop_spec (A + 1) A B _ (by omega) hB]
    congr 1
    rw [jacobiSym.neg _ (Nat.odd_iff.mpr hB), ZMod.χ₄_nat_eq_if_mod_four,
      if_neg (show ¬ B % 2 = 0 by omega)]
    simp only [tmod_four_eq_three]
    by_cases h3 : B % 4 = 3
    · rw [if_pos h3, if_neg (by omega)]
    · rw [if_neg h3, if_pos (by omega)]
  · obtain ⟨A, rfl⟩ := Int.eq_ofNat_of_zero_le (not_lt.mp hneg)
    rw [if_neg hneg, Int.natAbs_ofNat, jacobi_loop_spec (A + 1) A B _ (by omega) hB,
      one_mul]

/-- C35: for every `b` that is `≤ 0` or even, `jacobi(a, b)` returns 0; for every odd
positive `b` and every `int64_t` value `a` other than the least one, `jacobi(a, b)`
ends and returns the Jacobi symbol `(a / b)`, which is one of -1, 0 and 1. -/
theorem jacobi_spec (a b : ℤ) :
    (b ≤ 0 ∨ b % 2 = 0 → jacobi a b = .ok 0)
    ∧ (-9223372036854775808 < a → 0 < b → b % 2 = 1 →
        jacobi a b = .ok (jacobiSym a b.toNat)
        ∧ (jacobiSym a b.toNat = -1 ∨ jacobiSym a b.toNat = 0 ∨ jacobiSym a b.toNat = 1)) := by
  constructor
  · intro h
    have hc : b ≤ 0 ∨ b.tmod 2 = 0 := by
      by_cases h0 : b ≤ 0
      · exact Or.inl h0
      · right
        rw [Int.tmod_eq_emod (by omega) (by decide)]
        omega
    rw [jacobi, if_pos hc]
  · intro ha hb0 hb1
    obtain ⟨B, rfl⟩ := Int.eq_ofNat_of_zero_le (le_of_lt hb0)
    rw [Int.toNat_ofNat]
    refine ⟨jacobi_of_odd a B ha (by omega), ?_⟩
    rcases jacobiSym.trichotomy a B with h | h | h
    · exact Or.inr (Or.inl h)
    · exact Or.inr (Or.inr h)
    · exact Or.inl h

theorem jacobi_spec_witness :
    jacobi 1001 9907 = .ok (-1) ∧ jacobi (-5) 21 = .ok 1
    ∧ jacobi 7 (-3) = .ok 0
    ∧ (jacobi 1001 9907 = .ok (jacobiSym 1001 (9907 : ℤ).toNat)
      ∧ (jacobiSym 1001 (9907 : ℤ).toNat = -1 ∨ jacobiSym 1001 (9907 : ℤ).toNat = 0
        ∨ jacobiSym 1001 (9907 : ℤ).toNat = 1)) :=
  ⟨by decide, by decide, (jacobi_spec 7 (-3)).1 (by decide),
    (jacobi_spec 1001 9907).2 (by decide) (by decide) (by decide)⟩

end SolvayStrassen

/-! ## The primality test of assignment 1 -/

namespace SolvayStrassen

/-- The loop of `mod_exp` on a base and an accumulator below a modulus of less than 32
bits: no product leaves `int64_t` and the accumulator is multiplied by `a ^ k`. -/
theorem mod_exp_loop_spec (A N : ℕ) (hA : A < N) (hN : N < 2147483648) :
    ∀ (k R : ℕ), R < N →
      mod_exp_loop (A : ℤ) (N : ℤ) k (R : ℤ) = .ok (((R * A ^ k % N : ℕ)) : ℤ) := by
  intro k
  induction k with
  | zero =>
    intro R hR
    rw [mod_exp_loop, pow_zero, mul_one, Nat.mod_eq_of_lt hR]
  | succ k ih =>
    intro R hR
    have hlt : R * A < 2147483648 * 2147483648 :=
      Nat.mul_lt_mul'' (lt_trans hR hN) (lt_trans hA hN)
    have hi : int64 ((R : ℤ) * (A : ℤ)) = .ok (((R * A : ℕ)) : ℤ) := by
      have hc : ((R * A : ℕ) : ℤ) = (R : ℤ) * (A : ℤ) := by push_cast; rfl
      rw [← hc, int64, if_pos (by omega)]
    have hm : int64_mod (((R * A : ℕ)) : ℤ) (N : ℤ) = .ok (((R * A % N : ℕ)) : ℤ) := by
      have hc : ¬ ((N : ℤ) = 0 ∨ (((R * A : ℕ)) : ℤ) = -9223372036854775808 ∧ (N : ℤ) = -1) := by
        omega
      rw [int64_mod, if_neg hc, ← Int.ofNat_tmod]
    rw [mod_exp_loop, hi]
    simp only [Except.bind, hm]
    rw [ih _ (Nat.mod_lt _ (by omega))]
    have h1 : R * A % N * A ^ k ≡ R * A * A ^ k [MOD N] := (Nat.mod_modEq _ _).mul_right _
    have h2 : R * A * A ^ k = R * A ^ (k + 1) := by ring
    rw [h2] at h1
    rw [show R * A % N * A ^ k % N = R * A ^ (k + 1) % N from h1]

theorem mod_exp_spec (A N : ℕ) (hA1 : 1 ≤ A) (hA : A < N) (hN : N < 2147483648) :
    mod_exp (A : ℤ) (((N : ℤ) - 1) >>> (1 : ℕ)) (N : ℤ)
      = .ok (((A ^ ((N - 1) / 2) % N : ℕ)) : ℤ) := by
  have h1 : (N : ℤ) - 1 = ((N - 1 : ℕ) : ℤ) := by omega
  have hb : ¬ ((((N - 1) / 2 : ℕ)) : ℤ) < 0 := by omega
  have hl := mod_exp_loop_spec A N hA hN ((N - 1) / 2) 1 (by omega)
  rw [Nat.cast_one, one_mul] at hl
  have hm : int64_mod (((A ^ ((N - 1) / 2) % N : ℕ)) : ℤ) (N : ℤ)
      = .ok (((A ^ ((N - 1) / 2) % N : ℕ)) : ℤ) := by
    have hc : ¬ ((N : ℤ) = 0
        ∨ (((A ^ ((N - 1) / 2) % N : ℕ)) : ℤ) = -9223372036854775808 ∧ (N : ℤ) = -1) := by
      omega
    rw [int64_mod, if_neg hc, ← Int.ofNat_tmod, Nat.mod_mod]
  rw [mod_exp, h1, natCast_shiftRight_one, if_neg hb, Int.toNat_ofNat, hl]
  simp only [Except.bind, hm]

/-- Euler's criterion for an odd prime `N` and `1 ≤ a < N`, with the residues that
`is_prime` compares. -/
theorem euler_criterion_nat (N A : ℕ) (hp : N.Prime) (hA1 : 1 ≤ A) (hA2 : A < N) :
    (jacobiSym (A : ℤ) N = 1 ∧ A ^ (N / 2) % N = 1)
      ∨ (jacobiSym (A : ℤ) N = -1 ∧ A ^ (N / 2) % N = N - 1) := by
  haveI : Fact N.Prime := ⟨hp⟩
  have h2 := hp.two_le
  have hne : (((A : ℤ)) : ZMod N) ≠ 0 := by
    rw [Int.cast_natCast, Ne, ZMod.natCast_zmod_eq_zero_iff_dvd]
    intro hd
    have := Nat.le_of_dvd (by omega) hd
    omega
  have hl := legendreSym.eq_pow N (A : ℤ)
  rw [Int.cast_natCast] at hl
  rw [← jacobiSym.legendreSym.to_jacobiSym]
  rcases legendreSym.eq_one_or_neg_one N hne with h | h
  · left
    refine ⟨h, ?_⟩
    rw [h, Int.cast_one] at hl
    have : ((A ^ (N / 2) : ℕ) : ZMod N) = ((1 : ℕ) : ZMod N) := by
      rw [Nat.cast_pow, Nat.cast_one, ← hl]
    have h3 := (ZMod.natCast_eq_natCast_iff' _ _ N).mp this
    rw [h3, Nat.mod_eq_of_lt (by omega)]
  · right
    refine ⟨h, ?_⟩
    rw [h, Int.cast_neg, Int.cast_one] at hl
    have : ((A ^ (N / 2) : ℕ) : ZMod N) = ((N - 1 : ℕ) : ZMod N) := by
      rw [Nat.cast_pow, ← hl, Nat.cast_sub (by omega), ZMod.natCast_self, Nat.cast_one, zero_sub]
    have h3 := (ZMod.natCast_eq_natCast_iff' _ _ N).mp this
    rw [h3, Nat.mod_eq_of_lt (by omega)]

/-- One witness of `is_prime` for an odd prime below `2 ^ 31`: the two values that the
loop compares are equal and not zero. -/
theorem is_prime_step (N A : ℕ) (hp : N.Prime) (hodd : N % 2 = 1) (hN : N < 2147483648)
    (hA1 : 1 ≤ A) (hA2 : A < N) :
    ∃ (j : ℤ) (m : ℕ), jacobi (A : ℤ) (N : ℤ) = .ok j
      ∧ int64 ((N : ℤ) + j) = .ok ((N : ℤ) + j)
      ∧ int64_mod ((N : ℤ) + j) (N : ℤ) = .ok (m : ℤ)
      ∧ mod_exp (A : ℤ) (((N : ℤ) - 1) >>> (1 : ℕ)) (N : ℤ) = .ok (m : ℤ)
      ∧ m ≠ 0 := by
  have h2 := hp.two_le
  have hj := jacobi_of_odd (A : ℤ) N (by omega) hodd
  have hm := mod_exp_spec A N hA1 hA2 hN
  have hhalf : (N - 1) / 2 = N / 2 := by omega
  rw [hhalf] at hm
  have hc : ∀ x : ℤ, ¬ ((N : ℤ) = 0 ∨ x = -9223372036854775808 ∧ (N : ℤ) = -1) := by
    intro x
    omega
  rcases euler_criterion_nat N A hp hA1 hA2 with ⟨h1, h3⟩ | ⟨h1, h3⟩
  · refine ⟨1, 1, by rw [hj, h1], ?_, ?_, by rw [hm, h3], by decide⟩
    · rw [int64, if_pos (by omega)]
    · have e : ((N : ℤ) + 1).tmod (N : ℤ) = ((1 : ℕ) : ℤ) := by
        rw [Int.tmod_eq_emod (by omega) (by omega)]
        have : ((N : ℤ) + 1) % (N : ℤ) = 1 % (N : ℤ) := by simp
        rw [this, Int.emod_eq_of_lt (by omega) (by omega)]
        rfl
      rw [int64_mod, if_neg (hc _), e]
  · refine ⟨-1, N - 1, by rw [hj, h1], ?_, ?_, by rw [hm, h3], by omega⟩
    · rw [int64, if_pos (by omega)]
    · have e : ((N : ℤ) + -1).tmod (N : ℤ) = ((N - 1 : ℕ) : ℤ) := by
        rw [Int.tmod_eq_emod (by omega) (by omega), Int.emod_eq_of_lt (by omega) (by omega)]
        omega
      rw [int64_mod, if_neg (hc _), e]

theorem int_abs_natCast (abs_min : ℤ) (R : ℕ) (hR : R < 4294967296)
    (hne : R ≠ 2147483648) : ∃ R1 : ℕ, int_abs abs_min (R : ℤ) = (R1 : ℤ) := by
  have h : to_int (R : ℤ) ≠ -2147483648 := by
    unfold to_int
    omega
  refine ⟨(to_int (R : ℤ)).natAbs, ?_⟩
  rw [int_abs, if_neg h, Int.natCast_natAbs]

theorem is_prime_loop_of_prime (abs_min : ℤ) (random : Nat → Nat) (N : ℕ) (hp : N.Prime)
    (hodd : N % 2 = 1) (hN : N < 2147483648) (hrnd : ∀ i, random i % U32 ≠ 2147483648) :
    ∀ k i, is_prime_loop abs_min random (N : ℤ) (.ok true) k i = .ok true := by
  intro k
  induction k with
  | zero =>
    intro i
    rfl
  | succ k ih =>
    intro i
    have h2 := hp.two_le
    obtain ⟨R, hR⟩ := int_abs_natCast abs_min (random i % U32)
      (Nat.mod_lt _ (by decide)) (hrnd i)
    have h1 : (N : ℤ) - 1 = ((N - 1 : ℕ) : ℤ) := by omega
    have hr : int64_mod (R : ℤ) ((N : ℤ) - 1) = .ok (((R % (N - 1) : ℕ)) : ℤ) := by
      have hc : ¬ (((N - 1 : ℕ) : ℤ) = 0
          ∨ (R : ℤ) = -9223372036854775808 ∧ ((N - 1 : ℕ) : ℤ) = -1) := by
        omega
      rw [h1, int64_mod, if_neg hc, ← Int.ofNat_tmod]
    have hlt := Nat.mod_lt R (show 0 < N - 1 by omega)
    have ha : int64 ((((R % (N - 1) : ℕ)) : ℤ) + 1) = .ok (((R % (N - 1) + 1 : ℕ)) : ℤ) := by
      rw [int64, if_pos (by omega)]
      rfl
    obtain ⟨j, m, e1, e2, e3, e4, e5⟩ :=
      is_prime_step N (R % (N - 1) + 1) hp hodd hN (by omega) (by omega)
    have hne : ¬ ((m : ℤ) = 0 ∨ (m : ℤ) ≠ (m : ℤ)) := by
      omega
    rw [is_prime_loop]
    simp only [hR]
    rw [hr, except_ok_bind, ha, except_ok_bind, e1, except_ok_bind, e2, except_ok_bind,
      e3, except_ok_bind, e4, except_ok_bind, if_neg hne]
    exact ih (i + 1)

/-- The run of `is_prime` on the prime 103 in which the first call of `random()` returns
`2 ^ 31` and `abs(INT_MIN)` is `INT_MIN`: `rand = -2147483648`, `a = -25`, and the loop
ends with false in its first iteration. -/
theorem is_prime_103_false (random : Nat → Nat) (it : ℤ) (h0 : random 0 = 2147483648)
    (hit : 1 ≤ it) : is_prime (-2147483648) random 103 it = .ok false := by
  obtain ⟨k, hk⟩ : ∃ k, it.toNat = k + 1 := ⟨it.toNat - 1, by omega⟩
  have e0 : int_abs (-2147483648) (((2147483648 % U32 : ℕ)) : ℤ) = -2147483648 := by decide
  have e1 : int64_mod (-2147483648) ((103 : ℤ) - 1) = .ok (-26) := by decide
  have e2 : int64 ((-26 : ℤ) + 1) = .ok (-25) := by decide
  have e3 : jacobi (-25) 103 = .ok (-1) := by decide
  have e4 : int64 ((103 : ℤ) + -1) = .ok 102 := by decide
  have e5 : int64_mod 102 103 = .ok 102 := by decide
  have e6 : mod_exp (-25) (((103 : ℤ) - 1) >>> (1 : ℕ)) 103 = .ok (-1) := by decide
  rw [is_prime, if_neg (by decide), if_neg (by decide), if_neg (by decide), if_pos (by omega),
    hk, is_prime_loop]
  simp only [h0]
  rw [e0, e1, except_ok_bind, e2, except_ok_bind, e3, except_ok_bind, e4, except_ok_bind,
    e5, except_ok_bind, e6, except_ok_bind, if_pos (by decide)]

/-- C34 on the code: `is_prime` has a false negative.  The call `abs(..)` in the loop is
the C function `int abs(int)`; when `random()` returns `2 ^ 31` its argument is `INT_MIN`
and, where `abs` negates in two's complement, `rand` is `-2147483648`: for the prime 103
the witness is `a = -25` and `is_prime(103, it)` returns false for every `it ≥ 1`.  For
every prime `n < 2 ^ 31` and every `it ≥ 1`, `is_prime(n, it)` returns true whenever no
call of `random()` returns `2 ^ 31`, whatever `abs(INT_MIN)` is; and for each witness `a`
in `1 .. n - 1` the value `(n + jacobi(a, n)) % n` is not zero and equals
`mod_exp(a, (n - 1) >> 1, n)`. -/
theorem is_prime_false_negative (abs_min : ℤ) (random : Nat → Nat) (N : ℕ) (it : ℤ)
    (hp : N.Prime) (hN : N < 2147483648) (hit : 1 ≤ it) :
    (Nat.Prime 103
      ∧ ∀ rnd : Nat → Nat, rnd 0 = 2147483648 →
          is_prime (-2147483648) rnd 103 it = .ok false)
    ∧ ((∀ i, random i % U32 ≠ 2147483648) → is_prime abs_min random (N : ℤ) it = .ok true)
    ∧ ∀ A : ℕ, 1 ≤ A → A < N → N ≠ 2 →
        ∃ (j : ℤ) (m : ℤ), jacobi (A : ℤ) (N : ℤ) = .ok j
          ∧ int64_mod ((N : ℤ) + j) (N : ℤ) = .ok m
          ∧ mod_exp (A : ℤ) (((N : ℤ) - 1) >>> (1 : ℕ)) (N : ℤ) = .ok m
          ∧ m ≠ 0 := by
  have h2 := hp.two_le
  refine ⟨⟨by norm_num, fun rnd h0 => is_prime_103_false rnd it h0 hit⟩, fun hrnd => ?_, ?_⟩
  · rw [is_prime, if_neg (by omega)]
    by_cases h : N = 2
    · subst h
      rfl
    · have hodd : N % 2 = 1 := by
        rcases hp.eq_two_or_odd with h1 | h1
        · exact absurd h1 h
        · exact h1
      have hn2 : ¬ ((N : ℤ) = 2) := by omega
      have ht : ¬ ((N : ℤ).tmod 2 = 0) := by
        rw [tmod_two_eq_zero]
        omega
      rw [if_neg hn2, if_neg ht, if_pos (by omega)]
      exact is_prime_loop_of_prime abs_min random N hp hodd hN hrnd _ _
  · intro A hA1 hA2 h
    have hodd : N % 2 = 1 := by
      rcases hp.eq_two_or_odd with h1 | h1
      · exact absurd h1 h
      · exact h1
    obtain ⟨j, m, e1, _, e3, e4, e5⟩ := is_prime_step N A hp hodd hN hA1 hA2
    exact ⟨j, m, e1, e3, e4, by exact_mod_cast e5⟩

theorem is_prime_false_negative_witness :
    is_prime (-2147483648) (fun _ => 2147483648) 103 1 = .ok false
    ∧ is_prime (-2147483648) (fun i => 12345 + i) 103 1 = .ok true
    ∧ is_prime 0 (fun _ => 1) 9 1 = .ok false
    ∧ ((Nat.Prime 103
        ∧ ∀ rnd : Nat → Nat, rnd 0 = 2147483648 →
            is_prime (-2147483648) rnd 103 3 = .ok false)
      ∧ ((∀ i, (fun i => 12345 + i) i % U32 ≠ 2147483648) →
          is_prime (-2147483648) (fun i => 12345 + i) ((101 : ℕ) : ℤ) 3 = .ok true)
      ∧ ∀ A : ℕ, 1 ≤ A → A < 101 → 101 ≠ 2 →
          ∃ (j : ℤ) (m : ℤ), jacobi (A : ℤ) ((101 : ℕ) : ℤ) = .ok j
            ∧ int64_mod (((101 : ℕ) : ℤ) + j) ((101 : ℕ) : ℤ) = .ok m
            ∧ mod_exp (A : ℤ) ((((101 : ℕ) : ℤ) - 1) >>> (1 : ℕ)) ((101 : ℕ) : ℤ) = .ok m
            ∧ m ≠ 0) :=
  ⟨by decide, by decide, by decide,
    is_prime_false_negative (-2147483648) (fun i => 12345 + i) 101 3 (by norm_num) (by decide)
      (by decide)⟩

end SolvayStrassen
